import Mathlib

/-!
# fastmorph: 3x3x3 multi-label dilation and erosion

A shallow embedding of `src/fastmorph/fastmorphops.cpp`.

Modelling conventions.

* A buffer of `LABEL` values is a function `Nat → Nat` from the linear element
  index to the stored value; the kernels never do arithmetic on labels, only
  comparisons, so the element width plays no role below the width dispatcher.
* `uint64_t` coordinates are natural numbers.  The subtractions and additions the
  source performs on coordinates before the range check of the column extraction
  (`x-1`, `x+1`, `x+2`, `sx - 1`, `sy - 1`, `sz - 1`) are written with `usub` and
  `uadd`, which reduce modulo `2^64`.  Linear offsets into a buffer
  (`loc`, `loc ± sx`, `loc ± sxy`) and the loop counters are plain naturals: the
  extents come from `ssize_t` shape entries and the offsets address an existing
  buffer.
* `std::vector<LABEL>` is `List Nat`; `v[i]` is `v.getD i 0`.
* The loop over `x`, whose counter is also advanced inside the body, is a
  recursion on a fuel argument that `process_block` instantiates with `xe - xs`;
  lemmas below show that this fuel is never exhausted before `x` reaches `xe`.
* The thread pool runs the enqueued tiles; the model runs them one after another
  in an explicit order.
-/

set_option autoImplicit false

namespace Fastmorph

/-- Modulus of `uint64_t` arithmetic. -/
def U64 : Nat := 2 ^ 64

/-- Addition on `uint64_t`. -/
def uadd (a b : Nat) : Nat := (a + b) % U64

/-- Subtraction on `uint64_t` (for operands below `2^64`). -/
def usub (a b : Nat) : Nat := (a + U64 - b) % U64

/-- Linear index of voxel `(x, y, z)` in a column-major volume: `x + sx * (y + sy * z)`. -/
def idx (sx sy x y z : Nat) : Nat := x + sx * (y + sy * z)

/-- Assignment `buf[i] = v`. -/
def store (buf : Nat → Nat) (i v : Nat) : Nat → Nat :=
  fun j => if j = i then v else buf j

/-- The zero-initialised output buffer (`new uint8_t[...]()`). -/
def zero_buffer : Nat → Nat := fun _ => 0

/-- Column extraction, the lambda `fill_partial_stencil_fn` of both helpers
(lines 46-86 and 300-340); the result is the new content of `square`. -/
def fill_partial_stencil_fn (labels : Nat → Nat) (sx sy sz : Nat)
    (xi yi zi : Nat) : List Nat :=
  if xi < 0 ∨ xi ≥ sx then []
  else
    let sxy := sx * sy
    let loc := xi + sx * (yi + sy * zi)
    let square : List Nat := []
    let square := if labels loc ≠ 0 then square ++ [labels loc] else square
    let square :=
      if yi > 0 ∧ labels (loc - sx) ≠ 0 then square ++ [labels (loc - sx)] else square
    let square :=
      if yi < usub sy 1 ∧ labels (loc + sx) ≠ 0 then square ++ [labels (loc + sx)] else square
    let square :=
      if zi > 0 ∧ labels (loc - sxy) ≠ 0 then square ++ [labels (loc - sxy)] else square
    let square :=
      if zi < usub sz 1 ∧ labels (loc + sxy) ≠ 0 then square ++ [labels (loc + sxy)] else square
    let square :=
      if yi > 0 ∧ zi > 0 ∧ labels (loc - sx - sxy) ≠ 0 then
        square ++ [labels (loc - sx - sxy)] else square
    let square :=
      if yi < usub sy 1 ∧ zi > 0 ∧ labels (loc + sx - sxy) ≠ 0 then
        square ++ [labels (loc + sx - sxy)] else square
    let square :=
      if yi > 0 ∧ zi < usub sz 1 ∧ labels (loc - sx + sxy) ≠ 0 then
        square ++ [labels (loc - sx + sxy)] else square
    let square :=
      if yi < usub sy 1 ∧ zi < usub sz 1 ∧ labels (loc + sx + sxy) ≠ 0 then
        square ++ [labels (loc + sx + sxy)] else square
    square

/-! ## Dilation kernel -/

/-- Local variables of `dilate_helper::process_block` that live across iterations,
together with the output buffer. -/
structure DState where
  output : Nat → Nat
  left : List Nat
  middle : List Nat
  right : List Nat
  stale_stencil : Nat

/-- The lambda `advance_stencil` of the dilation kernel (lines 98-102). -/
def advance_stencil (labels : Nat → Nat) (sx sy sz : Nat) (x y z : Nat)
    (st : DState) : DState :=
  { st with
    left := st.middle
    middle := st.right
    right := fill_partial_stencil_fn labels sx sy sz (uadd x 2) y z }

/-- The staleness dispatch of the dilation kernel (lines 122-137). -/
def refresh_stencil (labels : Nat → Nat) (sx sy sz : Nat) (x y z : Nat)
    (st : DState) : DState :=
  if st.stale_stencil = 1 then
    { advance_stencil labels sx sy sz (usub x 1) y z st with stale_stencil := 0 }
  else if st.stale_stencil = 2 then
    { st with
      left := st.right
      middle := fill_partial_stencil_fn labels sx sy sz x y z
      right := fill_partial_stencil_fn labels sx sy sz (uadd x 1) y z
      stale_stencil := 0 }
  else if st.stale_stencil ≥ 3 then
    { st with
      left := fill_partial_stencil_fn labels sx sy sz (usub x 1) y z
      middle := fill_partial_stencil_fn labels sx sy sz x y z
      right := fill_partial_stencil_fn labels sx sy sz (uadd x 1) y z
      stale_stencil := 0 }
  else st

/-- Result of `std::sort` on a vector of unsigned integers. -/
def sort (v : List Nat) : List Nat := v.insertionSort (fun a b => a ≤ b)

/-- The run scan `for (int i = 1; i < size; i++)` of lines 172-187, started at
index `i` with the current `mode_label`, `ct`, `max_ct`; returns their final
values.  The fuel bounds the number of iterations (`size` suffices). -/
def mode_scan (neighbors : List Nat) (size : Nat) :
    Nat → Nat → Nat → Nat → Nat → Nat × Nat × Nat
  | 0, _, mode_label, ct, max_ct => (mode_label, ct, max_ct)
  | fuel + 1, i, mode_label, ct, max_ct =>
    if i < size then
      if neighbors.getD i 0 ≠ neighbors.getD (i - 1) 0 then
        let mode_label := if ct > max_ct then neighbors.getD (i - 1) 0 else mode_label
        let max_ct := if ct > max_ct then ct else max_ct
        if size - i < max_ct then (mode_label, 1, max_ct)
        else mode_scan neighbors size fuel (i + 1) mode_label 1 max_ct
      else mode_scan neighbors size fuel (i + 1) mode_label (ct + 1) max_ct
    else (mode_label, ct, max_ct)

/-- Lines 169-191 on the sorted, non-empty `neighbors`: the pair of the final
`mode_label` and the final `ct`. -/
def vote (neighbors : List Nat) : Nat × Nat :=
  let size := neighbors.length
  let r := mode_scan neighbors size size 1 (neighbors.getD 0 0) 1 1
  let mode_label := if r.2.1 > r.2.2 then neighbors.getD (size - 1) 0 else r.1
  (mode_label, r.2.1)

/-- One execution of the body of the `x` loop of the dilation kernel
(lines 114-202).  Returns the value of `x` at the end of the body (before the
loop's own `x++`) and the new state. -/
def dilate_body (labels : Nat → Nat) (sx sy sz : Nat) (background_only : Bool)
    (x y z : Nat) (st : DState) : Nat × DState :=
  let loc := x + sx * (y + sy * z)
  if background_only = true ∧ labels loc ≠ 0 then
    (x, { st with
          output := store st.output loc (labels loc)
          stale_stencil := st.stale_stencil + 1 })
  else
    let st := refresh_stencil labels sx sy sz x y z st
    if st.left.length + st.middle.length + st.right.length = 0 then
      (x, advance_stencil labels sx sy sz x y z st)
    else
      let neighbors := sort (st.left ++ st.middle ++ st.right)
      let size := neighbors.length
      if size ≥ 19 ∧ neighbors.getD 0 0 = neighbors.getD (size - 1) 0 then
        let output := store st.output loc (neighbors.getD 0 0)
        let output :=
          if x < usub sx 1 then store output (loc + 1) (neighbors.getD 0 0) else output
        (x + 1, { st with output := output, stale_stencil := 2 })
      else
        let mode_label := (vote neighbors).1
        let ct := (vote neighbors).2
        let output := store st.output loc mode_label
        if ct ≥ 19 ∧ x < usub sx 1 then
          (x + 1, { st with output := store output (loc + 1) mode_label, stale_stencil := 2 })
        else
          (x, { st with output := output, stale_stencil := 1 })

/-- The loop `for (uint64_t x = xs; x < xe; x++)` of the dilation kernel, entered
with the counter at `x`. -/
def dilate_row (labels : Nat → Nat) (sx sy sz : Nat) (background_only : Bool)
    (xe y z : Nat) : Nat → Nat → DState → DState
  | 0, _, st => st
  | fuel + 1, x, st =>
    if x < xe then
      let r := dilate_body labels sx sy sz background_only x y z st
      dilate_row labels sx sy sz background_only xe y z fuel (r.1 + 1) r.2
    else st

/-- A tile box `[xs,xe) x [ys,ye) x [zs,ze)`. -/
structure Box where
  xs : Nat
  xe : Nat
  ys : Nat
  ye : Nat
  zs : Nat
  ze : Nat
deriving DecidableEq

/-- The state-passing form of `dilate_helper::process_block` (lines 88-206). -/
def dilate_block_state (labels : Nat → Nat) (sx sy sz : Nat) (background_only : Bool)
    (b : Box) (output : Nat → Nat) : DState :=
  (List.range' b.zs (b.ze - b.zs)).foldl
    (fun st z =>
      (List.range' b.ys (b.ye - b.ys)).foldl
        (fun st y =>
          dilate_row labels sx sy sz background_only b.xe y z (b.xe - b.xs) b.xs
            { st with stale_stencil := 3 })
        st)
    { output := output, left := [], middle := [], right := [], stale_stencil := 3 }

/-- The lambda `process_block` of `dilate_helper`, as a transformer of the output buffer. -/
def dilate_process_block (labels : Nat → Nat) (sx sy sz : Nat) (background_only : Bool)
    (b : Box) (output : Nat → Nat) : Nat → Nat :=
  (dilate_block_state labels sx sy sz background_only b output).output

/-! ## Tile scheduler -/

/-- The constant `block_size`. -/
def block_size : Nat := 64

/-- Grid extent along one axis: `max((s + block_size/2) / block_size, 1)`. -/
def grid (s : Nat) : Nat := max ((s + block_size / 2) / block_size) 1

/-- The tile enqueued for grid position `(gx, gy, gz)` (lines 222-226). -/
def tile (sx sy sz gx gy gz : Nat) : Box :=
  { xs := gx * block_size, xe := min ((gx + 1) * block_size) sx
    ys := gy * block_size, ye := min ((gy + 1) * block_size) sy
    zs := gz * block_size, ze := min ((gz + 1) * block_size) sz }

/-- The tiles in the order in which the three nested loops enqueue them
(lines 218-230 and 465-477). -/
def tiles (sx sy sz : Nat) : List Box :=
  (List.range (grid sz)).flatMap fun gz =>
    (List.range (grid sy)).flatMap fun gy =>
      (List.range (grid sx)).map fun gx => tile sx sy sz gx gy gz

/-- Dilation with the tiles executed one after another in the given order,
starting from the zero-initialised output buffer. -/
def dilate_helper_order (labels : Nat → Nat) (sx sy sz : Nat) (background_only : Bool)
    (order : List Box) : Nat → Nat :=
  order.foldl (fun output b => dilate_process_block labels sx sy sz background_only b output)
    zero_buffer

/-- The function `dilate_helper` with the tiles executed in enqueue order. -/
def dilate_helper (labels : Nat → Nat) (sx sy sz : Nat) (background_only : Bool) : Nat → Nat :=
  dilate_helper_order labels sx sy sz background_only (tiles sx sy sz)

/-! ## Erosion kernel -/

/-- The lambda `is_pure` (lines 342-354). -/
def is_pure (square : List Nat) : Bool :=
  if square.length < 9 then false
  else (List.range' 1 8).all fun i => decide (square.getD i 0 = square.getD (i - 1) 0)

/-- Local variables of `erode_helper::process_block` that live across iterations,
together with the output buffer. -/
structure EState where
  output : Nat → Nat
  left : List Nat
  middle : List Nat
  right : List Nat
  pure_left : Bool
  pure_middle : Bool
  pure_right : Bool
  stale_stencil : Nat

/-- The lambda `advance_stencil` of the erosion kernel (lines 369-376). -/
def erode_advance_stencil (labels : Nat → Nat) (sx sy sz : Nat) (x y z : Nat)
    (st : EState) : EState :=
  let right := fill_partial_stencil_fn labels sx sy sz (uadd x 2) y z
  { st with
    left := st.middle
    middle := st.right
    pure_left := st.pure_middle
    pure_middle := st.pure_right
    right := right
    pure_right := is_pure right }

/-- Lines 429-449: the final purity test and write, entered with the stencil
refreshed.  Returns the value of `x` at the end of the body and the new state. -/
def erode_finish (labels : Nat → Nat) (sx sy : Nat) (x y z : Nat)
    (st : EState) : Nat × EState :=
  let loc := x + sx * (y + sy * z)
  if ¬ st.pure_right then (x + 2, { st with stale_stencil := 3 })
  else if ¬ st.pure_middle then (x + 1, { st with stale_stencil := 2 })
  else if st.pure_left then
    if labels loc = st.left.getD 0 0 ∧ labels loc = st.middle.getD 0 0
        ∧ labels loc = st.right.getD 0 0 then
      (x, { st with output := store st.output loc (labels loc), stale_stencil := 1 })
    else (x, { st with stale_stencil := 1 })
  else (x, { st with stale_stencil := 1 })

/-- One execution of the body of the `x` loop of the erosion kernel
(lines 384-449).  Returns the value of `x` at the end of the body (before the
loop's own `x++`) and the new state. -/
def erode_body (labels : Nat → Nat) (sx sy sz : Nat)
    (x y z : Nat) (st : EState) : Nat × EState :=
  let loc := x + sx * (y + sy * z)
  if labels loc = 0 then
    (x, { st with stale_stencil := st.stale_stencil + 1 })
  else if st.stale_stencil = 1 then
    erode_finish labels sx sy x y z
      { erode_advance_stencil labels sx sy sz (usub x 1) y z st with stale_stencil := 0 }
  else if st.stale_stencil = 2 then
    let right := fill_partial_stencil_fn labels sx sy sz (uadd x 1) y z
    let st := { st with
      left := st.right, pure_left := st.pure_right
      right := right, pure_right := is_pure right }
    if ¬ st.pure_right then (x + 2, { st with stale_stencil := 3 })
    else
      let middle := fill_partial_stencil_fn labels sx sy sz x y z
      erode_finish labels sx sy x y z
        { st with middle := middle, pure_middle := is_pure middle, stale_stencil := 0 }
  else if st.stale_stencil ≥ 3 then
    let right := fill_partial_stencil_fn labels sx sy sz (uadd x 1) y z
    let st := { st with right := right, pure_right := is_pure right }
    if ¬ st.pure_right then (x + 2, { st with stale_stencil := 3 })
    else
      let middle := fill_partial_stencil_fn labels sx sy sz x y z
      let st := { st with middle := middle, pure_middle := is_pure middle }
      if ¬ st.pure_middle then (x + 1, { st with stale_stencil := 2 })
      else
        let left := fill_partial_stencil_fn labels sx sy sz (usub x 1) y z
        erode_finish labels sx sy x y z
          { st with left := left, pure_left := is_pure left, stale_stencil := 0 }
  else erode_finish labels sx sy x y z st

/-- The loop `for (uint64_t x = xs; x < xe; x++)` of the erosion kernel, entered
with the counter at `x`. -/
def erode_row (labels : Nat → Nat) (sx sy sz : Nat)
    (xe y z : Nat) : Nat → Nat → EState → EState
  | 0, _, st => st
  | fuel + 1, x, st =>
    if x < xe then
      let r := erode_body labels sx sy sz x y z st
      erode_row labels sx sy sz xe y z fuel (r.1 + 1) r.2
    else st

/-- The state-passing form of `erode_helper::process_block` (lines 356-453). -/
def erode_block_state (labels : Nat → Nat) (sx sy sz : Nat)
    (b : Box) (output : Nat → Nat) : EState :=
  (List.range' b.zs (b.ze - b.zs)).foldl
    (fun st z =>
      (List.range' b.ys (b.ye - b.ys)).foldl
        (fun st y =>
          erode_row labels sx sy sz b.xe y z (b.xe - b.xs) b.xs
            { st with stale_stencil := 3 })
        st)
    { output := output, left := [], middle := [], right := []
      pure_left := false, pure_middle := false, pure_right := false
      stale_stencil := 3 }

/-- The lambda `process_block` of `erode_helper`, as a transformer of the output buffer. -/
def erode_process_block (labels : Nat → Nat) (sx sy sz : Nat)
    (b : Box) (output : Nat → Nat) : Nat → Nat :=
  (erode_block_state labels sx sy sz b output).output

/-- Erosion with the tiles executed one after another in the given order,
starting from the zero-initialised output buffer. -/
def erode_helper_order (labels : Nat → Nat) (sx sy sz : Nat)
    (order : List Box) : Nat → Nat :=
  order.foldl (fun output b => erode_process_block labels sx sy sz b output) zero_buffer

/-- The function `erode_helper` with the tiles executed in enqueue order. -/
def erode_helper (labels : Nat → Nat) (sx sy sz : Nat) : Nat → Nat :=
  erode_helper_order labels sx sy sz (tiles sx sy sz)

/-! ## Width dispatcher -/

/-- What an entry point hands back: a default-constructed `py::array`, or the
array that `to_numpy` builds around the populated output buffer. -/
inductive PyArray where
  | empty : PyArray
  | volume (width sx sy sz : Nat) (data : Nat → Nat) : PyArray

/-- Observable outcome of a call of an entry point: the sizes passed to
`new uint8_t[...]()` in program order, and either the array returned or the
error raised. -/
structure Outcome where
  allocations : List Nat
  returned : Except String PyArray

/-- The entry point `dilate` (lines 238-288); `width` is `labels.dtype().itemsize()`.
The argument `threads` only sizes the worker pool and is left out: scheduling is
the explicit order of `dilate_helper_order`. -/
def dilate (width : Nat) (labels : Nat → Nat) (sx sy sz : Nat)
    (background_only : Bool) : Outcome :=
  let output_ptr_size := (sx * sy * sz * width) % U64
  let output : PyArray := PyArray.empty
  let output :=
    if width = 1 then
      PyArray.volume 1 sx sy sz (dilate_helper labels sx sy sz background_only)
    else if width = 2 then
      PyArray.volume 2 sx sy sz (dilate_helper labels sx sy sz background_only)
    else if width = 4 then
      PyArray.volume 4 sx sy sz (dilate_helper labels sx sy sz background_only)
    else if width = 8 then
      PyArray.volume 8 sx sy sz (dilate_helper labels sx sy sz background_only)
    else output
  { allocations := [output_ptr_size], returned := Except.ok output }

/-- The entry point `erode` (lines 485-531); `width` is `labels.dtype().itemsize()`.
The argument `threads` only sizes the worker pool and is left out. -/
def erode (width : Nat) (labels : Nat → Nat) (sx sy sz : Nat) : Outcome :=
  let output_ptr_size := (sx * sy * sz * width) % U64
  let output : PyArray := PyArray.empty
  let output :=
    if width = 1 then PyArray.volume 1 sx sy sz (erode_helper labels sx sy sz)
    else if width = 2 then PyArray.volume 2 sx sy sz (erode_helper labels sx sy sz)
    else if width = 4 then PyArray.volume 4 sx sy sz (erode_helper labels sx sy sz)
    else if width = 8 then PyArray.volume 8 sx sy sz (erode_helper labels sx sy sz)
    else output
  { allocations := [output_ptr_size], returned := Except.ok output }

/-! ## Specification-side notions -/

/-- Membership of a voxel in a tile box. -/
def Box.contains (b : Box) (x y z : Nat) : Prop :=
  b.xs ≤ x ∧ x < b.xe ∧ b.ys ≤ y ∧ y < b.ye ∧ b.zs ≤ z ∧ b.ze > z

instance (b : Box) (x y z : Nat) : Decidable (b.contains x y z) := by
  unfold Box.contains; infer_instance

/-- The non-zero labels at the in-bounds voxels of the 3x3x3 window centred on
`(x, y, z)`, as the specification describes the window (not the way the kernel
assembles it). -/
def window_labels (labels : Nat → Nat) (sx sy sz x y z : Nat) : List Nat :=
  (List.range 3).flatMap fun dz =>
    (List.range 3).flatMap fun dy =>
      (List.range 3).filterMap fun dx =>
        if 1 ≤ x + dx ∧ x + dx ≤ sx ∧ 1 ≤ y + dy ∧ y + dy ≤ sy ∧ 1 ≤ z + dz ∧ z + dz ≤ sz
            ∧ labels (idx sx sy (x + dx - 1) (y + dy - 1) (z + dz - 1)) ≠ 0 then
          some (labels (idx sx sy (x + dx - 1) (y + dy - 1) (z + dz - 1)))
        else none

/-- The plurality label of a list as the specification words it: among the labels
of highest multiplicity the numerically smallest; `0` for the empty list. -/
def plurality (N : List Nat) : Nat :=
  ((N.filter fun a => N.all fun b => decide (N.count b ≤ N.count a)).min?).getD 0

/-- The specification's erosion test: all 27 voxels of the window centred on
`(x, y, z)` lie inside the volume and carry the label of the centre, which is
not the background. -/
def pure_window (labels : Nat → Nat) (sx sy sz x y z : Nat) : Prop :=
  1 ≤ x ∧ x + 1 < sx ∧ 1 ≤ y ∧ y + 1 < sy ∧ 1 ≤ z ∧ z + 1 < sz
    ∧ labels (idx sx sy x y z) ≠ 0
    ∧ ∀ dx < 3, ∀ dy < 3, ∀ dz < 3,
        labels (idx sx sy (x + dx - 1) (y + dy - 1) (z + dz - 1)) = labels (idx sx sy x y z)

instance (labels : Nat → Nat) (sx sy sz x y z : Nat) :
    Decidable (pure_window labels sx sy sz x y z) := by
  unfold pure_window; infer_instance

/-! ## Concrete volumes -/

/-- A 4x3x3 volume: planes `x = 0, 1` hold label 5, plane `x = 3` holds label 3,
plane `x = 2` holds label 3 except for a 5 at its centre `(2,1,1)`. -/
def volume_two_planes : Nat → Nat := fun i =>
  if i % 4 < 2 then 5 else if i = idx 4 3 2 1 1 then 5 else 3

/-- A 3x3x3 volume of label 5 with background at the centre `(1,1,1)` and
label 3 at `(2,1,1)`. -/
def volume_hole : Nat → Nat := fun i =>
  if i = idx 3 3 1 1 1 then 0 else if i = idx 3 3 2 1 1 then 3 else 5

/-- A 96x3x3 volume: planes `x = 62, 63` hold label 5, plane `x = 65` holds
label 3, plane `x = 64` holds label 3 except for a 5 at `(64,1,1)`; background
elsewhere. -/
def volume_seam : Nat → Nat := fun i =>
  if i % 96 = 62 ∨ i % 96 = 63 then 5
  else if i % 96 = 65 then 3
  else if i % 96 = 64 then (if i = idx 96 3 64 1 1 then 5 else 3)
  else 0

/-- A 96x3x3 volume: planes `x = 62, 63, 64` hold label 5; background elsewhere. -/
def volume_slab : Nat → Nat := fun i =>
  if 62 ≤ i % 96 ∧ i % 96 ≤ 64 then 5 else 0

/-- The 5x5x5 volume of scenario S2: the inner cube `[1..3]^3` holds label 4. -/
def volume_cube : Nat → Nat := fun i =>
  if 1 ≤ i % 5 ∧ i % 5 ≤ 3 ∧ 1 ≤ (i / 5) % 5 ∧ (i / 5) % 5 ≤ 3 ∧ 1 ≤ i / 25 ∧ i / 25 ≤ 3
  then 4 else 0

/-- The 5x5x5 volume of scenario S1: label 7 at `(2,2,2)`. -/
def volume_dot : Nat → Nat := fun i => if i = idx 5 5 2 2 2 then 7 else 0

/-! ## Positions read by the kernels -/

/-- The in-bounds positions of the y-z square around `(xi, yi, zi)`, in the order
in which `fill_partial_stencil_fn` visits them. -/
def column_positions (sy sz xi yi zi : Nat) : List (Nat × Nat × Nat) :=
  [(xi, yi, zi)]
    ++ (if yi > 0 then [(xi, yi - 1, zi)] else [])
    ++ (if yi + 1 < sy then [(xi, yi + 1, zi)] else [])
    ++ (if zi > 0 then [(xi, yi, zi - 1)] else [])
    ++ (if zi + 1 < sz then [(xi, yi, zi + 1)] else [])
    ++ (if yi > 0 ∧ zi > 0 then [(xi, yi - 1, zi - 1)] else [])
    ++ (if yi + 1 < sy ∧ zi > 0 then [(xi, yi + 1, zi - 1)] else [])
    ++ (if yi > 0 ∧ zi + 1 < sz then [(xi, yi - 1, zi + 1)] else [])
    ++ (if yi + 1 < sy ∧ zi + 1 < sz then [(xi, yi + 1, zi + 1)] else [])

/-- The non-zero labels stored at a list of positions, in order. -/
def nonzero_at (labels : Nat → Nat) (sx sy : Nat) (ps : List (Nat × Nat × Nat)) : List Nat :=
  (ps.map fun p => labels (idx sx sy p.1 p.2.1 p.2.2)).filter fun v => decide (v ≠ 0)

/-! ## Cache invariants of the kernels -/

/-- What the erosion kernel may assume of its cached columns and purity flags at
the head of the `x` loop, as a function of `stale_stencil`. -/
def erode_inv (labels : Nat → Nat) (sx sy sz x y z : Nat) (st : EState) : Prop :=
  1 ≤ st.stale_stencil
    ∧ (st.stale_stencil = 1 →
        1 ≤ x ∧ st.middle = fill_partial_stencil_fn labels sx sy sz (x - 1) y z
          ∧ st.right = fill_partial_stencil_fn labels sx sy sz x y z
          ∧ st.pure_middle = is_pure st.middle ∧ st.pure_right = is_pure st.right)
    ∧ (st.stale_stencil = 2 →
        1 ≤ x ∧ st.right = fill_partial_stencil_fn labels sx sy sz (x - 1) y z
          ∧ st.pure_right = is_pure st.right)

/-- The cached columns and flags of the erosion kernel are those of voxel `x`. -/
def erode_fresh (labels : Nat → Nat) (sx sy sz x y z : Nat) (st : EState) : Prop :=
  st.left = fill_partial_stencil_fn labels sx sy sz (usub x 1) y z
    ∧ st.middle = fill_partial_stencil_fn labels sx sy sz x y z
    ∧ st.right = fill_partial_stencil_fn labels sx sy sz (x + 1) y z
    ∧ st.pure_left = is_pure st.left ∧ st.pure_middle = is_pure st.middle
    ∧ st.pure_right = is_pure st.right

/-- Effect of one execution of the body of the erosion `x` loop at voxel `x`,
started with output buffer `out` and ending in `r`: the counter does not go
back, the invariant holds at the next voxel visited, the buffer changed at
`(x, y, z)` only and exactly as the specification's test says, and no voxel
passed over has a pure window. -/
def erode_post (labels : Nat → Nat) (sx sy sz x y z : Nat) (out : Nat → Nat)
    (r : Nat × EState) : Prop :=
  x ≤ r.1 ∧ erode_inv labels sx sy sz (r.1 + 1) y z r.2
    ∧ r.2.output
        = (if pure_window labels sx sy sz x y z then
            store out (idx sx sy x y z) (labels (idx sx sy x y z)) else out)
    ∧ ∀ x', x < x' → x' ≤ r.1 → ¬ pure_window labels sx sy sz x' y z

/-! ## Coordinates of a linear index -/

/-- The `x` coordinate of a linear index. -/
def cx (sx loc : Nat) : Nat := loc % sx

/-- The `y` coordinate of a linear index. -/
def cy (sx sy loc : Nat) : Nat := loc / sx % sy

/-- The `z` coordinate of a linear index. -/
def cz (sx sy loc : Nat) : Nat := loc / (sx * sy)

/-- The linear index addresses a voxel of the box. -/
def in_box (sx sy : Nat) (b : Box) (loc : Nat) : Prop :=
  b.contains (cx sx loc) (cy sx sy loc) (cz sx sy loc)

instance (sx sy : Nat) (b : Box) (loc : Nat) : Decidable (in_box sx sy b loc) := by
  unfold in_box; infer_instance

/-- The box lies inside the volume. -/
def Box.inside (b : Box) (sx sy sz : Nat) : Prop :=
  b.xe ≤ sx ∧ b.ye ≤ sy ∧ b.ze ≤ sz

instance (b : Box) (sx sy sz : Nat) : Decidable (b.inside sx sy sz) := by
  unfold Box.inside; infer_instance

/-- Erosion of one tile box as the specification defines it: inside the box a
voxel receives its own label when its window is pure, and every other element
of the buffer is left as it was. -/
def erode_spec_block (labels : Nat → Nat) (sx sy sz : Nat) (b : Box) (out : Nat → Nat) :
    Nat → Nat :=
  fun loc =>
    if in_box sx sy b loc
        ∧ pure_window labels sx sy sz (cx sx loc) (cy sx sy loc) (cz sx sy loc) then
      labels loc
    else out loc

/-! ## Dilation with the columns recomputed at every voxel -/

/-- The list `left ++ middle ++ right` when the three columns are extracted from
scratch at voxel `(x, y, z)`. -/
def kernel_window (labels : Nat → Nat) (sx sy sz x y z : Nat) : List Nat :=
  fill_partial_stencil_fn labels sx sy sz (usub x 1) y z
    ++ fill_partial_stencil_fn labels sx sy sz x y z
    ++ fill_partial_stencil_fn labels sx sy sz (uadd x 1) y z

/-- The body of the dilation `x` loop with the three columns recomputed at the
voxel instead of taken from the cache: the reference against which the
incremental kernel is compared.  Returns the value of `x` at the end of the body
and the new output buffer. -/
def dilate_body_ref (labels : Nat → Nat) (sx sy sz : Nat) (background_only : Bool)
    (x y z : Nat) (output : Nat → Nat) : Nat × (Nat → Nat) :=
  let loc := x + sx * (y + sy * z)
  if background_only = true ∧ labels loc ≠ 0 then (x, store output loc (labels loc))
  else
    let window := kernel_window labels sx sy sz x y z
    if window.length = 0 then (x, output)
    else
      let neighbors := sort window
      let size := neighbors.length
      if size ≥ 19 ∧ neighbors.getD 0 0 = neighbors.getD (size - 1) 0 then
        let output' := store output loc (neighbors.getD 0 0)
        (x + 1,
          if x < usub sx 1 then store output' (loc + 1) (neighbors.getD 0 0) else output')
      else
        let mode_label := (vote neighbors).1
        let ct := (vote neighbors).2
        let output' := store output loc mode_label
        if ct ≥ 19 ∧ x < usub sx 1 then (x + 1, store output' (loc + 1) mode_label)
        else (x, output')

/-- The dilation `x` loop over `dilate_body_ref`. -/
def dilate_row_ref (labels : Nat → Nat) (sx sy sz : Nat) (background_only : Bool)
    (xe y z : Nat) : Nat → Nat → (Nat → Nat) → (Nat → Nat)
  | 0, _, output => output
  | fuel + 1, x, output =>
    if x < xe then
      let r := dilate_body_ref labels sx sy sz background_only x y z output
      dilate_row_ref labels sx sy sz background_only xe y z fuel (r.1 + 1) r.2
    else output

/-- The dilation kernel over `dilate_row_ref`. -/
def dilate_block_ref (labels : Nat → Nat) (sx sy sz : Nat) (background_only : Bool)
    (b : Box) (output : Nat → Nat) : Nat → Nat :=
  (List.range' b.zs (b.ze - b.zs)).foldl
    (fun out z =>
      (List.range' b.ys (b.ye - b.ys)).foldl
        (fun out y =>
          dilate_row_ref labels sx sy sz background_only b.xe y z (b.xe - b.xs) b.xs out)
        out)
    output

/-- What the dilation kernel may assume of its cached columns at the head of the
`x` loop, as a function of `stale_stencil`. -/
def dilate_inv (labels : Nat → Nat) (sx sy sz x y z : Nat) (st : DState) : Prop :=
  (st.stale_stencil = 0 →
      st.left = fill_partial_stencil_fn labels sx sy sz (usub x 1) y z
        ∧ st.middle = fill_partial_stencil_fn labels sx sy sz x y z
        ∧ st.right = fill_partial_stencil_fn labels sx sy sz (uadd x 1) y z)
    ∧ (st.stale_stencil = 1 →
        1 ≤ x ∧ st.middle = fill_partial_stencil_fn labels sx sy sz (x - 1) y z
          ∧ st.right = fill_partial_stencil_fn labels sx sy sz x y z)
    ∧ (st.stale_stencil = 2 →
        1 ≤ x ∧ st.right = fill_partial_stencil_fn labels sx sy sz (x - 1) y z)

/-- The in-bounds positions of the 3x3x3 window around `(x, y, z)` in the order in
which the kernel concatenates its three columns. -/
def window_positions (sx sy sz x y z : Nat) : List (Nat × Nat × Nat) :=
  (if 0 < x then column_positions sy sz (x - 1) y z else [])
    ++ column_positions sy sz x y z
    ++ (if x + 1 < sx then column_positions sy sz (x + 1) y z else [])

/-- The voxel `(x, y, z)` lies within distance 1 of `(px, py, pz)` in each
coordinate. -/
def in_cube (px py pz x y z : Nat) : Prop :=
  (x ≤ px + 1 ∧ px ≤ x + 1) ∧ (y ≤ py + 1 ∧ py ≤ y + 1) ∧ (z ≤ pz + 1 ∧ pz ≤ z + 1)

instance (px py pz x y z : Nat) : Decidable (in_cube px py pz x y z) := by
  unfold in_cube; infer_instance

/-- The volume's only non-zero voxel is the label `L` at `(px, py, pz)`. -/
def single_voxel (labels : Nat → Nat) (sx sy sz px py pz L : Nat) : Prop :=
  px < sx ∧ py < sy ∧ pz < sz ∧ L ≠ 0 ∧ labels (idx sx sy px py pz) = L
    ∧ ∀ x y z, x < sx → y < sy → z < sz → (x, y, z) ≠ (px, py, pz) →
        labels (idx sx sy x y z) = 0

/-- The behaviour the error-handling section asks of an entry point on an
unsupported width: an error is raised and nothing has been allocated. -/
def fails_before_allocating (o : Outcome) : Prop :=
  (∃ e, o.returned = Except.error e) ∧ o.allocations = []

/-- A 65x1x1 volume filled with label 7. -/
def volume_line : Nat → Nat := fun _ => 7

/-- The state in which `dilate_helper::process_block` enters a row on a zero
output buffer before any column has been extracted. -/
def dilate_row_start : DState :=
  { output := zero_buffer, left := [], middle := [], right := [], stale_stencil := 3 }

/-- The voxel `v` of an axis of length `s` lies in the range
`[g*64, min((g+1)*64, s))` that the scheduler gives to grid position `g`. -/
def in_axis_tile (s g v : Nat) : Prop :=
  g * block_size ≤ v ∧ v < min ((g + 1) * block_size) s

instance (s g v : Nat) : Decidable (in_axis_tile s g v) := by
  unfold in_axis_tile; infer_instance

/-- The label `m` occurs in `N` with maximal multiplicity and is the numerically
smallest label that does. -/
def is_mode (N : List Nat) (m : Nat) : Prop :=
  m ∈ N ∧ ∀ v ∈ N, N.count v ≤ N.count m ∧ (N.count v = N.count m → m ≤ v)

/-- The run scan of `mode_scan` as a recursion on the part of `neighbors` still to
be read, `prev` being the element read last (`neighbors[i-1]`). -/
def scan_tail : List Nat → Nat → Nat → Nat → Nat → Nat × Nat × Nat
  | [], _, mode_label, ct, max_ct => (mode_label, ct, max_ct)
  | a :: t, prev, mode_label, ct, max_ct =>
    if a ≠ prev then
      let mode_label := if ct > max_ct then prev else mode_label
      let max_ct := if ct > max_ct then ct else max_ct
      if (a :: t).length < max_ct then (mode_label, 1, max_ct)
      else scan_tail t a mode_label 1 max_ct
    else scan_tail t a mode_label (ct + 1) max_ct

/-- The loop heads of a row of the dilation kernel: the pairs of the counter `x`
and the state with which the body is entered, in the order of execution. -/
def dilate_row_heads (labels : Nat → Nat) (sx sy sz : Nat) (background_only : Bool)
    (xe y z : Nat) : Nat → Nat → DState → List (Nat × DState)
  | 0, _, _ => []
  | fuel + 1, x, st =>
    if x < xe then
      let r := dilate_body labels sx sy sz background_only x y z st
      (x, st) :: dilate_row_heads labels sx sy sz background_only xe y z fuel (r.1 + 1) r.2
    else []

/-- The in-bounds positions of the 3x3x3 window around `(x, y, z)` in the order of
`window_labels`. -/
def spec_positions (sx sy sz x y z : Nat) : List (Nat × Nat × Nat) :=
  (List.range 3).flatMap fun dz =>
    (List.range 3).flatMap fun dy =>
      (List.range 3).flatMap fun dx =>
        if 1 ≤ x + dx ∧ x + dx ≤ sx ∧ 1 ≤ y + dy ∧ y + dy ≤ sy ∧ 1 ≤ z + dz ∧ z + dz ≤ sz then
          [(x + dx - 1, y + dy - 1, z + dz - 1)]
        else []

/-- The value `v` is an admissible dilation output for a voxel whose window holds
the non-zero labels `W`: `0` when `W` is empty, and otherwise a non-zero label
that occurs in `W`. -/
def support_ok (W : List Nat) (v : Nat) : Prop :=
  (W = [] → v = 0) ∧ (W ≠ [] → v ≠ 0 ∧ v ∈ W)

/-! ## The kernels with every access checked

The definitions below repeat the two kernels with every read of the input, every
write of the output and every indexing of a vector checked against the extent of
the buffer (`n` elements) or the length of the vector; an access out of range
makes the result `none`.  Here the linear offsets are computed with the
`uint64_t` operations, as the source computes them. -/

/-- Multiplication on `uint64_t`. -/
def umul (a b : Nat) : Nat := (a * b) % U64

/-- Checked read `buf[i]` of a buffer of `n` elements. -/
def read_checked (n : Nat) (buf : Nat → Nat) (i : Nat) : Option Nat :=
  if i < n then some (buf i) else none

/-- Checked write `buf[i] = v` to a buffer of `n` elements. -/
def write_checked (n : Nat) (buf : Nat → Nat) (i v : Nat) : Option (Nat → Nat) :=
  if i < n then some (store buf i v) else none

/-- Checked `v[i]` on a vector; the index is an `int`, given as `i + 1` shifted by
one when the source writes `i - 1`: `at_checked v i` is `v[i]`. -/
def at_checked (v : List Nat) (i : Nat) : Option Nat :=
  if i < v.length then some (v.getD i 0) else none

/-- Checked `v[i - 1]` for an `int` index `i`: out of range when `i = 0`. -/
def at_pred_checked (v : List Nat) (i : Nat) : Option Nat :=
  if 1 ≤ i then at_checked v (i - 1) else none

/-- Checked `v[i]` on a vector that must hold exactly nine elements. -/
def at9_checked (v : List Nat) (i : Nat) : Option Nat :=
  if v.length = 9 ∧ i < 9 then some (v.getD i 0) else none

/-- One statement `if (guard && labels[i] != 0) square.push_back(labels[i])` of the
column extraction; `labels[i]` is read only when `guard` holds. -/
def push_checked (n : Nat) (labels : Nat → Nat) (guard : Bool) (i : Nat)
    (square : List Nat) : Option (List Nat) :=
  if guard = true then
    (read_checked n labels i).bind fun v =>
      if v ≠ 0 then (read_checked n labels i).bind fun w => some (square ++ [w])
      else some square
  else some square

/-- Column extraction with checked reads: the nine guarded statements of lines
58-85, as pairs of guard and offset, executed in order. -/
def fill_checked (n : Nat) (labels : Nat → Nat) (sx sy sz : Nat)
    (xi yi zi : Nat) : Option (List Nat) :=
  if xi < 0 ∨ xi ≥ sx then some []
  else
    let sxy := umul sx sy
    let loc := uadd xi (umul sx (uadd yi (umul sy zi)))
    [ (true, loc),
      (decide (yi > 0), usub loc sx),
      (decide (yi < usub sy 1), uadd loc sx),
      (decide (zi > 0), usub loc sxy),
      (decide (zi < usub sz 1), uadd loc sxy),
      (decide (yi > 0 ∧ zi > 0), usub (usub loc sx) sxy),
      (decide (yi < usub sy 1 ∧ zi > 0), usub (uadd loc sx) sxy),
      (decide (yi > 0 ∧ zi < usub sz 1), uadd (usub loc sx) sxy),
      (decide (yi < usub sy 1 ∧ zi < usub sz 1), uadd (uadd loc sx) sxy) ].foldl
      (fun acc c => acc.bind fun square => push_checked n labels c.1 c.2 square) (some [])

/-- The lambda `advance_stencil` of the dilation kernel with checked reads. -/
def advance_stencil_checked (n : Nat) (labels : Nat → Nat) (sx sy sz : Nat) (x y z : Nat)
    (st : DState) : Option DState :=
  (fill_checked n labels sx sy sz (uadd x 2) y z).bind fun right =>
    some { st with left := st.middle, middle := st.right, right := right }

/-- The staleness dispatch of the dilation kernel with checked reads. -/
def refresh_stencil_checked (n : Nat) (labels : Nat → Nat) (sx sy sz : Nat) (x y z : Nat)
    (st : DState) : Option DState :=
  if st.stale_stencil = 1 then
    (advance_stencil_checked n labels sx sy sz (usub x 1) y z st).bind fun st =>
      some { st with stale_stencil := 0 }
  else if st.stale_stencil = 2 then
    (fill_checked n labels sx sy sz x y z).bind fun middle =>
    (fill_checked n labels sx sy sz (uadd x 1) y z).bind fun right =>
      some { st with left := st.right, middle := middle, right := right, stale_stencil := 0 }
  else if st.stale_stencil ≥ 3 then
    (fill_checked n labels sx sy sz (usub x 1) y z).bind fun left =>
    (fill_checked n labels sx sy sz x y z).bind fun middle =>
    (fill_checked n labels sx sy sz (uadd x 1) y z).bind fun right =>
      some { st with left := left, middle := middle, right := right, stale_stencil := 0 }
  else some st

/-- The run scan with checked indexing of `neighbors`. -/
def mode_scan_checked (neighbors : List Nat) (size : Nat) :
    Nat → Nat → Nat → Nat → Nat → Option (Nat × Nat × Nat)
  | 0, _, mode_label, ct, max_ct => some (mode_label, ct, max_ct)
  | fuel + 1, i, mode_label, ct, max_ct =>
    if i < size then
      (at_checked neighbors i).bind fun a =>
      (at_pred_checked neighbors i).bind fun b =>
      if a ≠ b then
        (if ct > max_ct then at_pred_checked neighbors i else some mode_label).bind
          fun mode_label =>
        let max_ct := if ct > max_ct then ct else max_ct
        if size - i < max_ct then some (mode_label, 1, max_ct)
        else mode_scan_checked neighbors size fuel (i + 1) mode_label 1 max_ct
      else mode_scan_checked neighbors size fuel (i + 1) mode_label (ct + 1) max_ct
    else some (mode_label, ct, max_ct)

/-- Lines 169-191 with checked indexing of `neighbors`. -/
def vote_checked (neighbors : List Nat) : Option (Nat × Nat) :=
  let size := neighbors.length
  (at_checked neighbors 0).bind fun first =>
  (mode_scan_checked neighbors size size 1 first 1 1).bind fun r =>
  (if r.2.1 > r.2.2 then at_pred_checked neighbors size else some r.1).bind fun mode_label =>
    some (mode_label, r.2.1)

/-- The body of the dilation `x` loop with every access checked. -/
def dilate_body_checked (n : Nat) (labels : Nat → Nat) (sx sy sz : Nat)
    (background_only : Bool) (x y z : Nat) (st : DState) : Option (Nat × DState) :=
  let loc := uadd x (umul sx (uadd y (umul sy z)))
  (if background_only = true then read_checked n labels loc else some 0).bind fun head =>
  if background_only = true ∧ head ≠ 0 then
    (read_checked n labels loc).bind fun v =>
    (write_checked n st.output loc v).bind fun output =>
      some (x, { st with output := output, stale_stencil := st.stale_stencil + 1 })
  else
    (refresh_stencil_checked n labels sx sy sz x y z st).bind fun st =>
    if st.left.length + st.middle.length + st.right.length = 0 then
      (advance_stencil_checked n labels sx sy sz x y z st).bind fun st => some (x, st)
    else
      let neighbors := sort (st.left ++ st.middle ++ st.right)
      let size := neighbors.length
      (if size ≥ 19 then
          (at_checked neighbors 0).bind fun a =>
          (at_pred_checked neighbors size).bind fun b => some (decide (a = b))
        else some false).bind fun uniform =>
      if uniform = true then
        (at_checked neighbors 0).bind fun v =>
        (write_checked n st.output loc v).bind fun output =>
        (if x < usub sx 1 then write_checked n output (uadd loc 1) v else some output).bind
          fun output =>
          some (x + 1, { st with output := output, stale_stencil := 2 })
      else
        (vote_checked neighbors).bind fun r =>
        (write_checked n st.output loc r.1).bind fun output =>
        if r.2 ≥ 19 ∧ x < usub sx 1 then
          (write_checked n output (uadd loc 1) r.1).bind fun output =>
            some (x + 1, { st with output := output, stale_stencil := 2 })
        else some (x, { st with output := output, stale_stencil := 1 })

/-- The dilation `x` loop with every access checked. -/
def dilate_row_checked (n : Nat) (labels : Nat → Nat) (sx sy sz : Nat)
    (background_only : Bool) (xe y z : Nat) : Nat → Nat → DState → Option DState
  | 0, _, st => some st
  | fuel + 1, x, st =>
    if x < xe then
      (dilate_body_checked n labels sx sy sz background_only x y z st).bind fun r =>
        dilate_row_checked n labels sx sy sz background_only xe y z fuel (r.1 + 1) r.2
    else some st

/-- The dilation kernel `process_block` with every access checked. -/
def dilate_block_checked (n : Nat) (labels : Nat → Nat) (sx sy sz : Nat)
    (background_only : Bool) (b : Box) (output : Nat → Nat) : Option DState :=
  (List.range' b.zs (b.ze - b.zs)).foldl
    (fun acc z => acc.bind fun st =>
      (List.range' b.ys (b.ye - b.ys)).foldl
        (fun acc y => acc.bind fun st =>
          dilate_row_checked n labels sx sy sz background_only b.xe y z (b.xe - b.xs) b.xs
            { st with stale_stencil := 3 })
        (some st))
    (some { output := output, left := [], middle := [], right := [], stale_stencil := 3 })

/-- Checked comparison `a == b` of two checked reads. -/
def eq_checked (a b : Option Nat) : Option Bool :=
  a.bind fun u => b.bind fun v => some (decide (u = v))

/-- Short-circuit conjunction: the second operand is evaluated only when the first
one holds. -/
def and_checked (a b : Option Bool) : Option Bool :=
  a.bind fun p => if p = true then b else some false

/-- The lambda `is_pure` (lines 342-354) with checked indexing of `square`: the loop
over `i = 1..8` stops at the first difference. -/
def is_pure_checked (square : List Nat) : Option Bool :=
  if square.length < 9 then some false
  else
    (List.range' 1 8).foldl
      (fun acc i => acc.bind fun same =>
        if same = true then eq_checked (at9_checked square i) (at9_checked square (i - 1))
        else some false)
      (some true)

/-- The lambda `advance_stencil` of the erosion kernel with checked accesses. -/
def erode_advance_stencil_checked (n : Nat) (labels : Nat → Nat) (sx sy sz : Nat)
    (x y z : Nat) (st : EState) : Option EState :=
  (fill_checked n labels sx sy sz (uadd x 2) y z).bind fun right =>
  (is_pure_checked right).bind fun pure_right =>
    some { st with
      left := st.middle
      middle := st.right
      pure_left := st.pure_middle
      pure_middle := st.pure_right
      right := right
      pure_right := pure_right }

/-- Lines 429-449 with checked accesses. -/
def erode_finish_checked (n : Nat) (labels : Nat → Nat) (sx sy : Nat) (x y z : Nat)
    (st : EState) : Option (Nat × EState) :=
  let loc := uadd x (umul sx (uadd y (umul sy z)))
  if ¬ st.pure_right then some (x + 2, { st with stale_stencil := 3 })
  else if ¬ st.pure_middle then some (x + 1, { st with stale_stencil := 2 })
  else if st.pure_left then
    (and_checked (eq_checked (read_checked n labels loc) (at9_checked st.left 0))
      (and_checked (eq_checked (read_checked n labels loc) (at9_checked st.middle 0))
        (eq_checked (read_checked n labels loc) (at9_checked st.right 0)))).bind fun same =>
    if same = true then
      (read_checked n labels loc).bind fun v =>
      (write_checked n st.output loc v).bind fun output =>
        some (x, { st with output := output, stale_stencil := 1 })
    else some (x, { st with stale_stencil := 1 })
  else some (x, { st with stale_stencil := 1 })

/-- The body of the erosion `x` loop with every access checked. -/
def erode_body_checked (n : Nat) (labels : Nat → Nat) (sx sy sz : Nat)
    (x y z : Nat) (st : EState) : Option (Nat × EState) :=
  let loc := uadd x (umul sx (uadd y (umul sy z)))
  (read_checked n labels loc).bind fun head =>
  if head = 0 then some (x, { st with stale_stencil := st.stale_stencil + 1 })
  else if st.stale_stencil = 1 then
    (erode_advance_stencil_checked n labels sx sy sz (usub x 1) y z st).bind fun st =>
      erode_finish_checked n labels sx sy x y z { st with stale_stencil := 0 }
  else if st.stale_stencil = 2 then
    (fill_checked n labels sx sy sz (uadd x 1) y z).bind fun right =>
    (is_pure_checked right).bind fun pure_right =>
    let st := { st with
      left := st.right, pure_left := st.pure_right
      right := right, pure_right := pure_right }
    if ¬ st.pure_right then some (x + 2, { st with stale_stencil := 3 })
    else
      (fill_checked n labels sx sy sz x y z).bind fun middle =>
      (is_pure_checked middle).bind fun pure_middle =>
        erode_finish_checked n labels sx sy x y z
          { st with middle := middle, pure_middle := pure_middle, stale_stencil := 0 }
  else if st.stale_stencil ≥ 3 then
    (fill_checked n labels sx sy sz (uadd x 1) y z).bind fun right =>
    (is_pure_checked right).bind fun pure_right =>
    let st := { st with right := right, pure_right := pure_right }
    if ¬ st.pure_right then some (x + 2, { st with stale_stencil := 3 })
    else
      (fill_checked n labels sx sy sz x y z).bind fun middle =>
      (is_pure_checked middle).bind fun pure_middle =>
      let st := { st with middle := middle, pure_middle := pure_middle }
      if ¬ st.pure_middle then some (x + 1, { st with stale_stencil := 2 })
      else
        (fill_checked n labels sx sy sz (usub x 1) y z).bind fun left =>
        (is_pure_checked left).bind fun pure_left =>
          erode_finish_checked n labels sx sy x y z
            { st with left := left, pure_left := pure_left, stale_stencil := 0 }
  else erode_finish_checked n labels sx sy x y z st

/-- The erosion `x` loop with every access checked. -/
def erode_row_checked (n : Nat) (labels : Nat → Nat) (sx sy sz : Nat)
    (xe y z : Nat) : Nat → Nat → EState → Option EState
  | 0, _, st => some st
  | fuel + 1, x, st =>
    if x < xe then
      (erode_body_checked n labels sx sy sz x y z st).bind fun r =>
        erode_row_checked n labels sx sy sz xe y z fuel (r.1 + 1) r.2
    else some st

/-- The erosion kernel `process_block` with every access checked. -/
def erode_block_checked (n : Nat) (labels : Nat → Nat) (sx sy sz : Nat)
    (b : Box) (output : Nat → Nat) : Option EState :=
  (List.range' b.zs (b.ze - b.zs)).foldl
    (fun acc z => acc.bind fun st =>
      (List.range' b.ys (b.ye - b.ys)).foldl
        (fun acc y => acc.bind fun st =>
          erode_row_checked n labels sx sy sz b.xe y z (b.xe - b.xs) b.xs
            { st with stale_stencil := 3 })
        (some st))
    (some { output := output, left := [], middle := [], right := []
            pure_left := false, pure_middle := false, pure_right := false
            stale_stencil := 3 })

/-- The purity flags of the erosion kernel vouch for the length of the columns. -/
def flags_ok (st : EState) : Prop :=
  (st.pure_left = true → st.left.length = 9)
    ∧ (st.pure_middle = true → st.middle.length = 9)
    ∧ (st.pure_right = true → st.right.length = 9)

/-! # Theorems -/

/-! ## Index arithmetic -/

theorem usub_one_of_pos {x : Nat} (h1 : 0 < x) (h2 : x < 2 ^ 63) : usub x 1 = x - 1 := by
  unfold usub U64
  have : x + 2 ^ 64 - 1 = (x - 1) + 2 ^ 64 := by omega
  rw [this, Nat.add_mod_right]
  exact Nat.mod_eq_of_lt (by omega)

theorem usub_zero_one : usub 0 1 = 2 ^ 64 - 1 := by
  unfold usub U64; norm_num

theorem uadd_of_lt {a b : Nat} (h : a + b < 2 ^ 64) : uadd a b = a + b := by
  unfold uadd U64; exact Nat.mod_eq_of_lt h

theorem lt_usub_one_iff {a s : Nat} (ha : a < s) (hs : s < 2 ^ 63) :
    a < usub s 1 ↔ a + 1 < s := by
  rw [usub_one_of_pos (by omega) hs]; omega

theorem idx_pred_y (sx sy x y z : Nat) (hy : 0 < y) :
    idx sx sy x y z = idx sx sy x (y - 1) z + sx := by
  obtain ⟨k, rfl⟩ : ∃ k, y = k + 1 := ⟨y - 1, by omega⟩
  simp only [idx, Nat.add_sub_cancel]; ring

theorem idx_pred_z (sx sy x y z : Nat) (hz : 0 < z) :
    idx sx sy x y z = idx sx sy x y (z - 1) + sx * sy := by
  obtain ⟨k, rfl⟩ : ∃ k, z = k + 1 := ⟨z - 1, by omega⟩
  simp only [idx, Nat.add_sub_cancel]; ring

theorem idx_succ_y (sx sy x y z : Nat) :
    idx sx sy x (y + 1) z = idx sx sy x y z + sx := by
  simp only [idx]; ring

theorem idx_succ_z (sx sy x y z : Nat) :
    idx sx sy x y (z + 1) = idx sx sy x y z + sx * sy := by
  simp only [idx]; ring

theorem idx_succ_x (sx sy x y z : Nat) :
    idx sx sy (x + 1) y z = idx sx sy x y z + 1 := by
  simp only [idx]; ring

/-- The linear index is injective on in-bounds coordinates. -/
theorem idx_inj {sx sy x y z x' y' z' : Nat} (hx : x < sx) (hx' : x' < sx)
    (hy : y < sy) (hy' : y' < sy) (h : idx sx sy x y z = idx sx sy x' y' z') :
    x = x' ∧ y = y' ∧ z = z' := by
  unfold idx at h
  have h1 : (x + sx * (y + sy * z)) % sx = (x' + sx * (y' + sy * z')) % sx := by rw [h]
  rw [Nat.add_mul_mod_self_left, Nat.add_mul_mod_self_left,
    Nat.mod_eq_of_lt hx, Nat.mod_eq_of_lt hx'] at h1
  subst h1
  have h2 : y + sy * z = y' + sy * z' := by
    have := Nat.add_left_cancel h
    exact Nat.eq_of_mul_eq_mul_left (by omega) this
  have h3 : (y + sy * z) % sy = (y' + sy * z') % sy := by rw [h2]
  rw [Nat.add_mul_mod_self_left, Nat.add_mul_mod_self_left,
    Nat.mod_eq_of_lt hy, Nat.mod_eq_of_lt hy'] at h3
  subst h3
  have h4 := Nat.add_left_cancel h2
  exact ⟨rfl, rfl, Nat.eq_of_mul_eq_mul_left (by omega) h4⟩

theorem fill_out_of_range (labels : Nat → Nat) (sx sy sz xi yi zi : Nat) (h : sx ≤ xi) :
    fill_partial_stencil_fn labels sx sy sz xi yi zi = [] := by
  unfold fill_partial_stencil_fn
  rw [if_pos (Or.inr h)]

theorem ite_push (c : Prop) [Decidable c] (sq : List Nat) (v : Nat) :
    (if c then sq ++ [v] else sq) = sq ++ (if c then [v] else []) := by
  split <;> simp

theorem nonzero_at_append (labels : Nat → Nat) (sx sy : Nat) (p q : List (Nat × Nat × Nat)) :
    nonzero_at labels sx sy (p ++ q) = nonzero_at labels sx sy p ++ nonzero_at labels sx sy q := by
  simp [nonzero_at]

theorem nonzero_at_nil (labels : Nat → Nat) (sx sy : Nat) :
    nonzero_at labels sx sy [] = [] := rfl

theorem nonzero_at_single (labels : Nat → Nat) (sx sy : Nat) (p : Nat × Nat × Nat) :
    nonzero_at labels sx sy [p]
      = if labels (idx sx sy p.1 p.2.1 p.2.2) ≠ 0 then [labels (idx sx sy p.1 p.2.1 p.2.2)]
        else [] := by
  simp only [nonzero_at, List.map_cons, List.map_nil, List.filter_cons, List.filter_nil]
  split <;> simp_all

theorem nonzero_at_ite (labels : Nat → Nat) (sx sy : Nat) (c : Prop) [Decidable c]
    (p : Nat × Nat × Nat) :
    nonzero_at labels sx sy (if c then [p] else [])
      = if c ∧ labels (idx sx sy p.1 p.2.1 p.2.2) ≠ 0 then [labels (idx sx sy p.1 p.2.1 p.2.2)]
        else [] := by
  by_cases hc : c
  · simp only [hc, if_true, true_and, nonzero_at_single]
  · simp [hc, nonzero_at_nil]

/-- Column extraction in coordinates: inside the volume it returns the non-zero
labels at the in-bounds positions of the square, in visiting order. -/
theorem fill_eq_nonzero_at (labels : Nat → Nat) {sx sy sz xi yi zi : Nat}
    (hsy : sy < 2 ^ 63) (hsz : sz < 2 ^ 63)
    (hx : xi < sx) (hy : yi < sy) (hz : zi < sz) :
    fill_partial_stencil_fn labels sx sy sz xi yi zi
      = nonzero_at labels sx sy (column_positions sy sz xi yi zi) := by
  unfold fill_partial_stencil_fn column_positions
  rw [if_neg (by omega)]
  simp only [ite_push, List.nil_append, nonzero_at_append, nonzero_at_ite, nonzero_at_single,
    lt_usub_one_iff hy hsy, lt_usub_one_iff hz hsz]
  have e0 : xi + sx * (yi + sy * zi) = idx sx sy xi yi zi := rfl
  rw [e0]
  have hym : 0 < yi → idx sx sy xi yi zi - sx = idx sx sy xi (yi - 1) zi := fun h => by
    have := idx_pred_y sx sy xi yi zi h; omega
  have hyp : idx sx sy xi yi zi + sx = idx sx sy xi (yi + 1) zi :=
    (idx_succ_y sx sy xi yi zi).symm
  have hzm : 0 < zi → idx sx sy xi yi zi - sx * sy = idx sx sy xi yi (zi - 1) := fun h => by
    have := idx_pred_z sx sy xi yi zi h; omega
  have hzp : idx sx sy xi yi zi + sx * sy = idx sx sy xi yi (zi + 1) :=
    (idx_succ_z sx sy xi yi zi).symm
  have hmm : 0 < yi → 0 < zi →
      idx sx sy xi yi zi - sx - sx * sy = idx sx sy xi (yi - 1) (zi - 1) := fun h h' => by
    have := idx_pred_y sx sy xi yi zi h
    have := idx_pred_z sx sy xi (yi - 1) zi h'; omega
  have hpm : 0 < zi →
      idx sx sy xi yi zi + sx - sx * sy = idx sx sy xi (yi + 1) (zi - 1) := fun h' => by
    have := idx_succ_y sx sy xi yi zi
    have := idx_pred_z sx sy xi (yi + 1) zi h'; omega
  have hmp : 0 < yi →
      idx sx sy xi yi zi - sx + sx * sy = idx sx sy xi (yi - 1) (zi + 1) := fun h => by
    have := idx_pred_y sx sy xi yi zi h
    have := idx_succ_z sx sy xi (yi - 1) zi; omega
  have hpp : idx sx sy xi yi zi + sx + sx * sy = idx sx sy xi (yi + 1) (zi + 1) := by
    have := idx_succ_y sx sy xi yi zi
    have := idx_succ_z sx sy xi (yi + 1) zi; omega
  rw [hpp]
  by_cases h1 : 0 < yi <;> by_cases h2 : 0 < zi
  · rw [hmm h1 h2, hpm h2, hmp h1, hym h1, hzm h2, hyp, hzp]
    simp only [gt_iff_lt, and_assoc]
  · rw [hmp h1, hym h1, hyp, hzp]
    simp only [gt_iff_lt, h2, false_and, and_false, if_false, and_assoc]
  · rw [hpm h2, hzm h2, hyp, hzp]
    simp only [gt_iff_lt, h1, false_and, and_false, if_false, and_assoc]
  · rw [hyp, hzp]
    simp only [gt_iff_lt, h1, h2, false_and, and_false, if_false, and_assoc]

/-! ## Pure columns -/

theorem nonzero_at_length_le (labels : Nat → Nat) (sx sy : Nat) (ps : List (Nat × Nat × Nat)) :
    (nonzero_at labels sx sy ps).length ≤ ps.length := by
  unfold nonzero_at
  exact (List.length_filter_le _ _).trans (by simp)

theorem nonzero_at_eq_map (labels : Nat → Nat) (sx sy : Nat) (ps : List (Nat × Nat × Nat))
    (h : ∀ p ∈ ps, labels (idx sx sy p.1 p.2.1 p.2.2) ≠ 0) :
    nonzero_at labels sx sy ps = ps.map fun p => labels (idx sx sy p.1 p.2.1 p.2.2) := by
  unfold nonzero_at
  rw [List.filter_eq_self]
  intro v hv
  obtain ⟨p, hp, rfl⟩ := List.mem_map.1 hv
  simpa using h p hp

theorem nonzero_at_full (labels : Nat → Nat) (sx sy : Nat) (ps : List (Nat × Nat × Nat))
    (h : ps.length ≤ (nonzero_at labels sx sy ps).length) :
    ∀ p ∈ ps, labels (idx sx sy p.1 p.2.1 p.2.2) ≠ 0 := by
  have hsub : (nonzero_at labels sx sy ps).Sublist
      (ps.map fun p => labels (idx sx sy p.1 p.2.1 p.2.2)) := List.filter_sublist _
  have heq := hsub.eq_of_length_le (by simpa using h)
  intro p hp
  have hm : labels (idx sx sy p.1 p.2.1 p.2.2) ∈ nonzero_at labels sx sy ps := by
    rw [heq]; exact List.mem_map.2 ⟨p, hp, rfl⟩
  unfold nonzero_at at hm
  simpa using (List.mem_filter.1 hm).2

theorem column_positions_interior {sy sz yi zi : Nat} (xi : Nat)
    (h1 : 0 < yi) (h2 : yi + 1 < sy) (h3 : 0 < zi) (h4 : zi + 1 < sz) :
    column_positions sy sz xi yi zi
      = [(xi, yi, zi), (xi, yi - 1, zi), (xi, yi + 1, zi), (xi, yi, zi - 1), (xi, yi, zi + 1),
         (xi, yi - 1, zi - 1), (xi, yi + 1, zi - 1), (xi, yi - 1, zi + 1),
         (xi, yi + 1, zi + 1)] := by
  simp [column_positions, h1, h2, h3, h4]

theorem column_positions_length_lt {sy sz yi zi : Nat} (xi : Nat)
    (h : ¬ (0 < yi ∧ yi + 1 < sy ∧ 0 < zi ∧ zi + 1 < sz)) :
    (column_positions sy sz xi yi zi).length < 9 := by
  unfold column_positions
  simp only [List.length_append, List.length_cons, List.length_nil, apply_ite List.length]
  split_ifs <;> omega

theorem is_pure_iff (sq : List Nat) :
    is_pure sq = true ↔ 9 ≤ sq.length ∧ ∀ i, 1 ≤ i → i < 9 → sq.getD i 0 = sq.getD (i - 1) 0 := by
  unfold is_pure
  by_cases h : sq.length < 9
  · simp only [h, if_true]
    constructor
    · intro h'; cases h'
    · intro h'; omega
  · simp only [h, if_false, List.all_eq_true, decide_eq_true_eq, List.mem_range'_1]
    constructor
    · intro h'
      exact ⟨by omega, fun i h1 h2 => h' i ⟨h1, by omega⟩⟩
    · intro h' i hi
      exact h'.2 i hi.1 (by omega)

/-- A column extracted inside the volume is pure exactly when its square lies
inside the volume and its nine voxels carry one non-zero label. -/
theorem is_pure_fill_iff (labels : Nat → Nat) {sx sy sz yi zi : Nat} (xi : Nat)
    (hsy : sy < 2 ^ 63) (hsz : sz < 2 ^ 63) (hy : yi < sy) (hz : zi < sz) :
    is_pure (fill_partial_stencil_fn labels sx sy sz xi yi zi) = true ↔
      xi < sx ∧ 0 < yi ∧ yi + 1 < sy ∧ 0 < zi ∧ zi + 1 < sz
        ∧ labels (idx sx sy xi yi zi) ≠ 0
        ∧ ∀ dy < 3, ∀ dz < 3,
            labels (idx sx sy xi (yi + dy - 1) (zi + dz - 1)) = labels (idx sx sy xi yi zi) := by
  by_cases hx : xi < sx
  swap
  · rw [fill_out_of_range labels sx sy sz xi yi zi (by omega)]
    simp [is_pure, hx]
  rw [fill_eq_nonzero_at labels hsy hsz hx hy hz]
  by_cases hc : 0 < yi ∧ yi + 1 < sy ∧ 0 < zi ∧ zi + 1 < sz
  swap
  · have hl := column_positions_length_lt xi hc
    have hl' := nonzero_at_length_le labels sx sy (column_positions sy sz xi yi zi)
    rw [is_pure_iff]
    constructor
    · intro h; omega
    · intro h; exact absurd ⟨h.2.1, h.2.2.1, h.2.2.2.1, h.2.2.2.2.1⟩ hc
  obtain ⟨h1, h2, h3, h4⟩ := hc
  have hcp := column_positions_interior xi h1 h2 h3 h4
  rw [is_pure_iff]
  have e1 : yi + 1 - 1 = yi := by omega
  have e2 : zi + 1 - 1 = zi := by omega
  have e3 : yi + 0 - 1 = yi - 1 := by omega
  have e4 : zi + 0 - 1 = zi - 1 := by omega
  have e5 : yi + 2 - 1 = yi + 1 := by omega
  have e6 : zi + 2 - 1 = zi + 1 := by omega
  constructor
  · rintro ⟨hlen, heq⟩
    have hnz := nonzero_at_full labels sx sy (column_positions sy sz xi yi zi)
      (by rw [hcp] at hlen ⊢; simpa using hlen)
    rw [nonzero_at_eq_map labels sx sy _ hnz, hcp] at heq
    have q1 := heq 1 (by omega) (by omega)
    have q2 := heq 2 (by omega) (by omega)
    have q3 := heq 3 (by omega) (by omega)
    have q4 := heq 4 (by omega) (by omega)
    have q5 := heq 5 (by omega) (by omega)
    have q6 := heq 6 (by omega) (by omega)
    have q7 := heq 7 (by omega) (by omega)
    have q8 := heq 8 (by omega) (by omega)
    simp only [List.map_cons, List.map_nil, List.getD_cons_succ, List.getD_cons_zero,
      Nat.reduceSub] at q1 q2 q3 q4 q5 q6 q7 q8
    refine ⟨hx, h1, h2, h3, h4, hnz (xi, yi, zi) (by rw [hcp]; simp), ?_⟩
    intro dy hdy dz hdz
    interval_cases dy <;> interval_cases dz <;> simp only [e1, e2, e3, e4, e5, e6] <;> omega
  · rintro ⟨-, -, -, -, -, hnz, hall⟩
    have a00 := hall 0 (by omega) 0 (by omega)
    have a01 := hall 0 (by omega) 1 (by omega)
    have a02 := hall 0 (by omega) 2 (by omega)
    have a10 := hall 1 (by omega) 0 (by omega)
    have a12 := hall 1 (by omega) 2 (by omega)
    have a20 := hall 2 (by omega) 0 (by omega)
    have a21 := hall 2 (by omega) 1 (by omega)
    have a22 := hall 2 (by omega) 2 (by omega)
    simp only [e1, e2, e3, e4, e5, e6] at a00 a01 a02 a10 a12 a20 a21 a22
    have hnz' : ∀ p ∈ column_positions sy sz xi yi zi,
        labels (idx sx sy p.1 p.2.1 p.2.2) ≠ 0 := by
      rw [hcp]
      intro p hp
      simp only [List.mem_cons, List.mem_singleton, List.not_mem_nil, or_false] at hp
      rcases hp with rfl | rfl | rfl | rfl | rfl | rfl | rfl | rfl | rfl <;> simp only <;> omega
    rw [nonzero_at_eq_map labels sx sy _ hnz', hcp]
    refine ⟨by simp, ?_⟩
    intro i hi1 hi9
    interval_cases i <;>
      simp only [List.map_cons, List.map_nil, List.getD_cons_succ, List.getD_cons_zero,
        Nat.reduceSub] <;> omega

/-- The first element of a pure column is the label at the centre of its square. -/
theorem fill_head_of_pure (labels : Nat → Nat) {sx sy sz yi zi : Nat} (xi : Nat)
    (hsy : sy < 2 ^ 63) (hsz : sz < 2 ^ 63) (hy : yi < sy) (hz : zi < sz)
    (h : is_pure (fill_partial_stencil_fn labels sx sy sz xi yi zi) = true) :
    (fill_partial_stencil_fn labels sx sy sz xi yi zi).getD 0 0
      = labels (idx sx sy xi yi zi) := by
  obtain ⟨hx, h1, h2, h3, h4, hnz, -⟩ := (is_pure_fill_iff labels xi hsy hsz hy hz).1 h
  rw [fill_eq_nonzero_at labels hsy hsz hx hy hz, column_positions_interior xi h1 h2 h3 h4]
  simp only [nonzero_at, List.map_cons, List.filter_cons, hnz, ne_eq, not_false_eq_true,
    decide_True, if_true, List.getD_cons_zero]

/-! ## Erosion: one step of the `x` loop -/

/-- The specification's window test, column by column. -/
theorem pure_window_iff (labels : Nat → Nat) {sx sy sz x y z : Nat}
    (hsy : sy < 2 ^ 63) (hsz : sz < 2 ^ 63) (hy : y < sy) (hz : z < sz) :
    pure_window labels sx sy sz x y z ↔
      1 ≤ x
        ∧ is_pure (fill_partial_stencil_fn labels sx sy sz (x - 1) y z) = true
        ∧ is_pure (fill_partial_stencil_fn labels sx sy sz x y z) = true
        ∧ is_pure (fill_partial_stencil_fn labels sx sy sz (x + 1) y z) = true
        ∧ labels (idx sx sy (x - 1) y z) = labels (idx sx sy x y z)
        ∧ labels (idx sx sy (x + 1) y z) = labels (idx sx sy x y z) := by
  simp only [is_pure_fill_iff labels _ hsy hsz hy hz]
  unfold pure_window
  have e0 : x + 0 - 1 = x - 1 := by omega
  have e1 : x + 1 - 1 = x := by omega
  have e2 : x + 2 - 1 = x + 1 := by omega
  have e3 : y + 1 - 1 = y := by omega
  have e4 : z + 1 - 1 = z := by omega
  constructor
  · rintro ⟨h1, h2, h3, h4, h5, h6, hnz, hall⟩
    have c0 := hall 0 (by omega) 1 (by omega) 1 (by omega)
    have c2 := hall 2 (by omega) 1 (by omega) 1 (by omega)
    simp only [e0, e2, e3, e4] at c0 c2
    refine ⟨h1, ⟨by omega, h3, h4, h5, h6, by rw [c0]; exact hnz, ?_⟩,
      ⟨by omega, h3, h4, h5, h6, hnz, ?_⟩,
      ⟨by omega, h3, h4, h5, h6, by rw [c2]; exact hnz, ?_⟩, c0, c2⟩
    · intro dy hdy dz hdz
      have := hall 0 (by omega) dy hdy dz hdz
      rw [e0] at this; rw [this, c0]
    · intro dy hdy dz hdz
      have := hall 1 (by omega) dy hdy dz hdz
      rw [e1] at this; exact this
    · intro dy hdy dz hdz
      have := hall 2 (by omega) dy hdy dz hdz
      rw [e2] at this; rw [this, c2]
  · rintro ⟨h1, ⟨-, -, -, -, -, -, a0⟩, ⟨-, h3, h4, h5, h6, hnz, a1⟩, ⟨h2, -, -, -, -, -, a2⟩,
      c0, c2⟩
    refine ⟨h1, h2, h3, h4, h5, h6, hnz, ?_⟩
    intro dx hdx dy hdy dz hdz
    interval_cases dx
    · rw [e0, a0 dy hdy dz hdz, c0]
    · rw [e1, a1 dy hdy dz hdz]
    · rw [e2, a2 dy hdy dz hdz, c2]

theorem pure_window_center_ne_zero {labels : Nat → Nat} {sx sy sz x y z : Nat}
    (h : pure_window labels sx sy sz x y z) : labels (idx sx sy x y z) ≠ 0 :=
  h.2.2.2.2.2.2.1

/-- An impure column at `c` rules out a pure window at `c - 1`, `c` and `c + 1`. -/
theorem not_pure_window_of_column (labels : Nat → Nat) {sx sy sz c x y z : Nat}
    (hsy : sy < 2 ^ 63) (hsz : sz < 2 ^ 63) (hy : y < sy) (hz : z < sz)
    (hc : ¬ is_pure (fill_partial_stencil_fn labels sx sy sz c y z) = true)
    (hx : x ≤ c + 1) (hx' : c ≤ x + 1) :
    ¬ pure_window labels sx sy sz x y z := by
  intro h
  obtain ⟨h1, p0, p1, p2, -, -⟩ := (pure_window_iff labels hsy hsz hy hz).1 h
  rcases (by omega : c = x - 1 ∨ c = x ∨ c = x + 1) with rfl | rfl | rfl
  · exact hc p0
  · exact hc p1
  · exact hc p2

theorem erode_post_skip2 (labels : Nat → Nat) {sx sy sz x y z : Nat}
    (hsy : sy < 2 ^ 63) (hsz : sz < 2 ^ 63) (hy : y < sy) (hz : z < sz)
    (out : Nat → Nat) (st : EState)
    (hc : ¬ is_pure (fill_partial_stencil_fn labels sx sy sz (x + 1) y z) = true)
    (hst : st.stale_stencil = 3) (hout : st.output = out) :
    erode_post labels sx sy sz x y z out (x + 2, st) := by
  have np : ∀ x', x ≤ x' → x' ≤ x + 2 → ¬ pure_window labels sx sy sz x' y z :=
    fun x' h1 h2 => not_pure_window_of_column labels hsy hsz hy hz hc (by omega) (by omega)
  refine ⟨by simp, ⟨by simp [hst], by simp [hst], by simp [hst]⟩, ?_, ?_⟩
  · simp [hout, np x (le_refl x) (by omega)]
  · intro x' h1 h2; exact np x' (by omega) h2

theorem erode_post_skip1 (labels : Nat → Nat) {sx sy sz x y z : Nat}
    (hsy : sy < 2 ^ 63) (hsz : sz < 2 ^ 63) (hy : y < sy) (hz : z < sz)
    (out : Nat → Nat) (st : EState)
    (hc : ¬ is_pure (fill_partial_stencil_fn labels sx sy sz x y z) = true)
    (hst : st.stale_stencil = 2)
    (hr : st.right = fill_partial_stencil_fn labels sx sy sz (x + 1) y z)
    (hpr : st.pure_right = is_pure st.right) (hout : st.output = out) :
    erode_post labels sx sy sz x y z out (x + 1, st) := by
  have np : ∀ x', x ≤ x' → x' ≤ x + 1 → ¬ pure_window labels sx sy sz x' y z :=
    fun x' h1 h2 => not_pure_window_of_column labels hsy hsz hy hz hc (by omega) (by omega)
  refine ⟨by simp, ⟨by simp [hst], by simp [hst], ?_⟩, ?_, ?_⟩
  · intro _
    exact ⟨by simp, by simpa using hr, hpr⟩
  · simp [hout, np x (le_refl x) (by omega)]
  · intro x' h1 h2; exact np x' (by omega) h2

/-- The final purity test and write, on a stencil that is fresh for `x`. -/
theorem erode_finish_post (labels : Nat → Nat) {sx sy sz x y z : Nat}
    (hsx : sx < 2 ^ 63) (hsy : sy < 2 ^ 63) (hsz : sz < 2 ^ 63)
    (hx : x < sx) (hy : y < sy) (hz : z < sz) (st : EState)
    (hf : erode_fresh labels sx sy sz x y z st) :
    erode_post labels sx sy sz x y z st.output (erode_finish labels sx sy x y z st) := by
  obtain ⟨hl, hm, hr, hpl, hpm, hpr⟩ := hf
  unfold erode_finish
  by_cases c1 : st.pure_right = true
  swap
  · rw [if_pos c1]
    exact erode_post_skip2 labels hsy hsz hy hz _ _ (by rw [← hr, ← hpr]; exact c1) rfl rfl
  rw [if_neg (not_not.2 c1)]
  by_cases c2 : st.pure_middle = true
  swap
  · rw [if_pos c2]
    exact erode_post_skip1 labels hsy hsz hy hz _ _ (by rw [← hm, ← hpm]; exact c2) rfl hr hpr rfl
  rw [if_neg (not_not.2 c2)]
  have inv1 : ∀ st' : EState, st'.stale_stencil = 1 → st'.middle = st.middle →
      st'.right = st.right → st'.pure_middle = st.pure_middle → st'.pure_right = st.pure_right →
      erode_inv labels sx sy sz (x + 1) y z st' := by
    intro st' h1 h2 h3 h4 h5
    refine ⟨by omega, fun _ => ⟨by omega, ?_, ?_, ?_, ?_⟩, fun h => by omega⟩
    · rw [h2, hm]; simp
    · rw [h3, hr]
    · rw [h4, h2, hpm]
    · rw [h5, h3, hpr]
  have hwin := @pure_window_iff labels sx sy sz x y z hsy hsz hy hz
  have rM : is_pure (fill_partial_stencil_fn labels sx sy sz x y z) = true := by
    rw [← hm, ← hpm]; exact c2
  have rR : is_pure (fill_partial_stencil_fn labels sx sy sz (x + 1) y z) = true := by
    rw [← hr, ← hpr]; exact c1
  have hM := fill_head_of_pure labels x hsy hsz hy hz rM
  have hR := fill_head_of_pure labels (x + 1) hsy hsz hy hz rR
  by_cases c3 : st.pure_left = true
  swap
  · rw [if_neg c3]
    have np : ¬ pure_window labels sx sy sz x y z := by
      intro h
      obtain ⟨h1, p0, -⟩ := hwin.1 h
      apply c3
      rw [hpl, hl, usub_one_of_pos (by omega) (by omega)]; exact p0
    exact ⟨le_refl _, inv1 _ rfl rfl rfl rfl rfl, by simp [np], fun x' h1 h2 => by
      simp only at h2; omega⟩
  rw [if_pos c3]
  have x1 : 1 ≤ x := by
    by_contra hx0
    have : x = 0 := by omega
    subst this
    rw [hpl, hl, usub_zero_one, fill_out_of_range labels sx sy sz _ y z (by omega)] at c3
    simp [is_pure] at c3
  have eL : usub x 1 = x - 1 := usub_one_of_pos (by omega) (by omega)
  have rL : is_pure (fill_partial_stencil_fn labels sx sy sz (x - 1) y z) = true := by
    rw [← eL, ← hl, ← hpl]; exact c3
  have hL := fill_head_of_pure labels (x - 1) hsy hsz hy hz rL
  have hcond : (labels (x + sx * (y + sy * z)) = st.left.getD 0 0
      ∧ labels (x + sx * (y + sy * z)) = st.middle.getD 0 0
      ∧ labels (x + sx * (y + sy * z)) = st.right.getD 0 0)
      ↔ pure_window labels sx sy sz x y z := by
    rw [hwin, hl, hm, hr, eL, hL, hM, hR]
    have e0 : x + sx * (y + sy * z) = idx sx sy x y z := rfl
    rw [e0]
    constructor
    · rintro ⟨a, -, c⟩
      exact ⟨x1, rL, rM, rR, a.symm, c.symm⟩
    · rintro ⟨-, -, -, -, a, c⟩
      exact ⟨a.symm, rfl, c.symm⟩
  by_cases c4 : pure_window labels sx sy sz x y z
  · rw [if_pos (hcond.2 c4)]
    exact ⟨le_refl _, inv1 _ rfl rfl rfl rfl rfl, by simp [c4, idx], fun x' h1 h2 => by
      simp only at h2; omega⟩
  · rw [if_neg (fun h => c4 (hcond.1 h))]
    exact ⟨le_refl _, inv1 _ rfl rfl rfl rfl rfl, by simp [c4], fun x' h1 h2 => by
      simp only at h2; omega⟩

/-- One execution of the body of the erosion `x` loop, from a state satisfying
the cache invariant. -/
theorem erode_body_post (labels : Nat → Nat) {sx sy sz x y z : Nat}
    (hsx : sx < 2 ^ 63) (hsy : sy < 2 ^ 63) (hsz : sz < 2 ^ 63)
    (hx : x < sx) (hy : y < sy) (hz : z < sz) (st : EState)
    (hinv : erode_inv labels sx sy sz x y z st) :
    erode_post labels sx sy sz x y z st.output (erode_body labels sx sy sz x y z st) := by
  obtain ⟨i0, i1, i2⟩ := hinv
  have ua1 : uadd x 1 = x + 1 := uadd_of_lt (by omega)
  unfold erode_body
  by_cases c0 : labels (x + sx * (y + sy * z)) = 0
  · rw [if_pos c0]
    have np : ¬ pure_window labels sx sy sz x y z := fun h =>
      pure_window_center_ne_zero h c0
    refine ⟨le_refl _, ⟨by simp, ?_, ?_⟩, by simp [np], fun x' h1 h2 => by
      simp only at h2; omega⟩
    · intro h; simp only at h; omega
    · intro h
      simp only at h
      obtain ⟨-, -, a, -, b⟩ := i1 (by omega)
      exact ⟨by simp, by simpa using a, b⟩
  rw [if_neg c0]
  by_cases s1 : st.stale_stencil = 1
  · rw [if_pos s1]
    obtain ⟨x1, a, b, c, d⟩ := i1 s1
    have eL : usub x 1 = x - 1 := usub_one_of_pos (by omega) (by omega)
    have e2 : uadd (x - 1) 2 = x + 1 := by
      rw [uadd_of_lt (by omega)]; omega
    refine erode_finish_post labels hsx hsy hsz hx hy hz _ ?_
    unfold erode_fresh erode_advance_stencil
    simp only [eL, e2]
    exact ⟨a, b, trivial, c, d, trivial⟩
  rw [if_neg s1]
  by_cases s2 : st.stale_stencil = 2
  · rw [if_pos s2]
    obtain ⟨x1, a, b⟩ := i2 s2
    have eL : usub x 1 = x - 1 := usub_one_of_pos (by omega) (by omega)
    simp only [ua1]
    by_cases c1 : is_pure (fill_partial_stencil_fn labels sx sy sz (x + 1) y z) = true
    swap
    · rw [if_pos c1]
      exact erode_post_skip2 labels hsy hsz hy hz _ _ c1 rfl rfl
    rw [if_neg (not_not.2 c1)]
    refine erode_finish_post labels hsx hsy hsz hx hy hz _ ?_
    exact ⟨by rw [eL]; exact a, rfl, rfl, b, rfl, rfl⟩
  rw [if_neg s2]
  have s3 : st.stale_stencil ≥ 3 := by omega
  rw [if_pos s3]
  simp only [ua1]
  by_cases c1 : is_pure (fill_partial_stencil_fn labels sx sy sz (x + 1) y z) = true
  swap
  · rw [if_pos c1]
    exact erode_post_skip2 labels hsy hsz hy hz _ _ c1 rfl rfl
  rw [if_neg (not_not.2 c1)]
  by_cases c2 : is_pure (fill_partial_stencil_fn labels sx sy sz x y z) = true
  swap
  · rw [if_pos c2]
    exact erode_post_skip1 labels hsy hsz hy hz _ _ c2 rfl rfl rfl rfl
  rw [if_neg (not_not.2 c2)]
  refine erode_finish_post labels hsx hsy hsz hx hy hz _ ?_
  exact ⟨rfl, rfl, rfl, rfl, rfl, rfl⟩

/-! ## Erosion: rows and blocks -/

theorem decode_idx {sx sy x y : Nat} (z : Nat) (hx : x < sx) (hy : y < sy) :
    cx sx (idx sx sy x y z) = x ∧ cy sx sy (idx sx sy x y z) = y
      ∧ cz sx sy (idx sx sy x y z) = z := by
  have hsx : 0 < sx := by omega
  have hsy : 0 < sy := by omega
  have h1 : (x + sx * (y + sy * z)) / sx = y + sy * z := by
    rw [Nat.add_mul_div_left _ _ hsx, Nat.div_eq_of_lt hx, Nat.zero_add]
  refine ⟨?_, ?_, ?_⟩
  · unfold cx idx
    rw [Nat.add_mul_mod_self_left, Nat.mod_eq_of_lt hx]
  · unfold cy idx
    rw [h1, Nat.add_mul_mod_self_left, Nat.mod_eq_of_lt hy]
  · unfold cz idx
    rw [← Nat.div_div_eq_div_mul, h1, Nat.add_mul_div_left _ _ hsy, Nat.div_eq_of_lt hy,
      Nat.zero_add]

theorem idx_decode {sx sy : Nat} (loc : Nat) :
    idx sx sy (cx sx loc) (cy sx sy loc) (cz sx sy loc) = loc := by
  unfold idx cx cy cz
  rw [← Nat.div_div_eq_div_mul, Nat.mod_add_div, Nat.mod_add_div]

theorem idx_x_inj {sx sy x x' y z : Nat} (h : idx sx sy x y z = idx sx sy x' y z) : x = x' := by
  unfold idx at h; omega

/-- The erosion `x` loop, voxel by voxel: inside the part of the row still to be
scanned a voxel receives its label exactly when its window is pure, and nothing
else changes.  The fuel `xe - x` is enough. -/
theorem erode_row_spec (labels : Nat → Nat) {sx sy sz xe y z : Nat}
    (hsx : sx < 2 ^ 63) (hsy : sy < 2 ^ 63) (hsz : sz < 2 ^ 63)
    (hxe : xe ≤ sx) (hy : y < sy) (hz : z < sz) :
    ∀ (fuel x : Nat) (st : EState), xe - x ≤ fuel → erode_inv labels sx sy sz x y z st →
      (∀ x', x ≤ x' → x' < xe →
        (erode_row labels sx sy sz xe y z fuel x st).output (idx sx sy x' y z)
          = if pure_window labels sx sy sz x' y z then labels (idx sx sy x' y z)
            else st.output (idx sx sy x' y z))
      ∧ (∀ loc, (∀ x', x ≤ x' → x' < xe → loc ≠ idx sx sy x' y z) →
        (erode_row labels sx sy sz xe y z fuel x st).output loc = st.output loc) := by
  intro fuel
  induction fuel with
  | zero =>
    intro x st hf _
    refine ⟨fun x' h1 h2 => by omega, fun loc _ => rfl⟩
  | succ fuel ih =>
    intro x st hf hinv
    unfold erode_row
    by_cases hx : x < xe
    swap
    · rw [if_neg hx]
      exact ⟨fun x' h1 h2 => by omega, fun loc _ => rfl⟩
    rw [if_pos hx]
    obtain ⟨p1, p2, p3, p4⟩ := erode_body_post labels hsx hsy hsz (by omega) hy hz st hinv
    obtain ⟨ia, ib⟩ := ih ((erode_body labels sx sy sz x y z st).1 + 1)
      (erode_body labels sx sy sz x y z st).2 (by omega) p2
    simp only
    constructor
    · intro x' h1 h2
      by_cases hlt : x' ≤ (erode_body labels sx sy sz x y z st).1
      · rw [ib _ (fun x'' h1' _ he => by have := idx_x_inj he; omega), p3]
        by_cases hxx : x' = x
        · subst hxx
          by_cases hp : pure_window labels sx sy sz x' y z
          · simp [hp, store]
          · simp [hp]
        · have hnp := p4 x' (by omega) hlt
          have hne : idx sx sy x' y z ≠ idx sx sy x y z := fun he => hxx (idx_x_inj he)
          by_cases hp : pure_window labels sx sy sz x y z
          · simp [hp, hnp, store, hne]
          · simp [hp, hnp]
      · rw [ia x' (by omega) h2, p3]
        have hne : idx sx sy x' y z ≠ idx sx sy x y z := fun he => by
          have := idx_x_inj he; omega
        by_cases hp : pure_window labels sx sy sz x y z
        · simp [hp, store, hne]
        · simp [hp]
    · intro loc hloc
      rw [ib loc (fun x'' h1' h2' => hloc x'' (by omega) h2'), p3]
      have hne : loc ≠ idx sx sy x y z := hloc x (le_refl x) hx
      by_cases hp : pure_window labels sx sy sz x y z
      · simp [hp, store, hne]
      · simp [hp]

/-- A fold whose steps overwrite the buffer at the locations they hit with a
value that depends on the location only. -/
theorem foldl_overwrite {σ κ : Type} (step : σ → κ → σ) (out : σ → Nat → Nat)
    (hit : κ → Nat → Prop) (val : Nat → Nat) :
    ∀ (ks : List κ) (st : σ),
      (∀ k ∈ ks, ∀ (s : σ) (loc : Nat),
        (hit k loc → out (step s k) loc = val loc)
          ∧ (¬ hit k loc → out (step s k) loc = out s loc)) →
      ∀ loc,
        ((∃ k ∈ ks, hit k loc) → out (ks.foldl step st) loc = val loc)
          ∧ ((∀ k ∈ ks, ¬ hit k loc) → out (ks.foldl step st) loc = out st loc) := by
  intro ks
  induction ks with
  | nil =>
    intro st _ loc
    refine ⟨?_, fun _ => rfl⟩
    rintro ⟨k, hk, -⟩
    cases hk
  | cons k ks ih =>
    intro st hstep loc
    have hk := hstep k (List.mem_cons_self k ks) st loc
    obtain ⟨ia, ib⟩ := ih (step st k) (fun k' hk' => hstep k' (List.mem_cons_of_mem k hk')) loc
    rw [List.foldl_cons]
    constructor
    · rintro ⟨k', hk', hhit⟩
      by_cases hex : ∃ k'' ∈ ks, hit k'' loc
      · exact ia hex
      · have hnone : ∀ k'' ∈ ks, ¬ hit k'' loc := fun k'' h1 h2 => hex ⟨k'', h1, h2⟩
        rw [ib hnone]
        rcases List.mem_cons.1 hk' with rfl | hin
        · exact hk.1 hhit
        · exact absurd hhit (hnone k' hin)
    · intro hnone
      rw [ib (fun k' hk' => hnone k' (List.mem_cons_of_mem k hk'))]
      exact hk.2 (hnone k (List.mem_cons_self k ks))

/-- One full row of the erosion kernel, entered with `stale_stencil = 3`, as a
function of the linear index. -/
theorem erode_row_fun (labels : Nat → Nat) {sx sy sz xs xe y z : Nat}
    (hsx : sx < 2 ^ 63) (hsy : sy < 2 ^ 63) (hsz : sz < 2 ^ 63)
    (hxe : xe ≤ sx) (hy : y < sy) (hz : z < sz) (st : EState) (loc : Nat) :
    let hit := (xs ≤ cx sx loc ∧ cx sx loc < xe ∧ cy sx sy loc = y ∧ cz sx sy loc = z)
      ∧ pure_window labels sx sy sz (cx sx loc) (cy sx sy loc) (cz sx sy loc)
    (hit → (erode_row labels sx sy sz xe y z (xe - xs) xs
        { st with stale_stencil := 3 }).output loc = labels loc)
      ∧ (¬ hit → (erode_row labels sx sy sz xe y z (xe - xs) xs
        { st with stale_stencil := 3 }).output loc = st.output loc) := by
  intro hit
  have hinv : erode_inv labels sx sy sz xs y z { st with stale_stencil := 3 } :=
    ⟨by simp, by simp, by simp⟩
  obtain ⟨ha, hb⟩ := erode_row_spec labels hsx hsy hsz hxe hy hz (xe - xs) xs
    { st with stale_stencil := 3 } (le_refl _) hinv
  by_cases hrow : xs ≤ cx sx loc ∧ cx sx loc < xe ∧ cy sx sy loc = y ∧ cz sx sy loc = z
  · obtain ⟨h1, h2, h3, h4⟩ := hrow
    have hloc : idx sx sy (cx sx loc) y z = loc := by
      rw [← h3, ← h4]; exact idx_decode loc
    have := ha (cx sx loc) h1 h2
    rw [hloc] at this
    rw [this]
    constructor
    · intro h
      have hp : pure_window labels sx sy sz (cx sx loc) y z := by
        have := h.2; rw [h3, h4] at this; exact this
      simp [hp]
    · intro h
      have hp : ¬ pure_window labels sx sy sz (cx sx loc) y z := by
        intro hp; apply h
        refine ⟨⟨h1, h2, h3, h4⟩, ?_⟩
        rw [h3, h4]; exact hp
      simp [hp]
  · have hout := hb loc (fun x' h1 h2 he => by
      apply hrow
      obtain ⟨d1, d2, d3⟩ := decode_idx z (show x' < sx by omega) hy
      rw [he, d1, d2, d3]; exact ⟨h1, h2, rfl, rfl⟩)
    exact ⟨fun h => absurd h.1 hrow, fun _ => hout⟩

/-- The erosion kernel computes the specification's erosion of its tile box:
`process_block` is total, writes a voxel's own label at every voxel of the box
whose window is pure, and changes nothing else. -/
theorem erode_process_block_eq (labels : Nat → Nat) {sx sy sz : Nat}
    (hsx : sx < 2 ^ 63) (hsy : sy < 2 ^ 63) (hsz : sz < 2 ^ 63)
    (b : Box) (hb : b.inside sx sy sz) (out : Nat → Nat) :
    erode_process_block labels sx sy sz b out = erode_spec_block labels sx sy sz b out := by
  obtain ⟨hxe, hye, hze⟩ := hb
  funext loc
  unfold erode_process_block erode_block_state erode_spec_block
  have hrow : ∀ z ∈ List.range' b.zs (b.ze - b.zs), ∀ y ∈ List.range' b.ys (b.ye - b.ys),
      ∀ (s : EState) (loc : Nat),
        let hit := (b.xs ≤ cx sx loc ∧ cx sx loc < b.xe ∧ cy sx sy loc = y ∧ cz sx sy loc = z)
          ∧ pure_window labels sx sy sz (cx sx loc) (cy sx sy loc) (cz sx sy loc)
        (hit → (erode_row labels sx sy sz b.xe y z (b.xe - b.xs) b.xs
            { s with stale_stencil := 3 }).output loc = labels loc)
          ∧ (¬ hit → (erode_row labels sx sy sz b.xe y z (b.xe - b.xs) b.xs
            { s with stale_stencil := 3 }).output loc = s.output loc) := by
    intro z hz y hy s loc'
    rw [List.mem_range'_1] at hz hy
    exact erode_row_fun labels hsx hsy hsz hxe (by omega) (by omega) s loc'
  have hyfold : ∀ z ∈ List.range' b.zs (b.ze - b.zs), ∀ (s : EState) (loc : Nat),
      let hit := ∃ y ∈ List.range' b.ys (b.ye - b.ys),
        (b.xs ≤ cx sx loc ∧ cx sx loc < b.xe ∧ cy sx sy loc = y ∧ cz sx sy loc = z)
          ∧ pure_window labels sx sy sz (cx sx loc) (cy sx sy loc) (cz sx sy loc)
      (hit → ((List.range' b.ys (b.ye - b.ys)).foldl
          (fun st y => erode_row labels sx sy sz b.xe y z (b.xe - b.xs) b.xs
            { st with stale_stencil := 3 }) s).output loc = labels loc)
        ∧ (¬ hit → ((List.range' b.ys (b.ye - b.ys)).foldl
          (fun st y => erode_row labels sx sy sz b.xe y z (b.xe - b.xs) b.xs
            { st with stale_stencil := 3 }) s).output loc = s.output loc) := by
    intro z hz s loc'
    have := foldl_overwrite
      (fun st y => erode_row labels sx sy sz b.xe y z (b.xe - b.xs) b.xs
        { st with stale_stencil := 3 })
      EState.output
      (fun y l => (b.xs ≤ cx sx l ∧ cx sx l < b.xe ∧ cy sx sy l = y ∧ cz sx sy l = z)
        ∧ pure_window labels sx sy sz (cx sx l) (cy sx sy l) (cz sx sy l))
      labels (List.range' b.ys (b.ye - b.ys)) s (fun y hy s' l => hrow z hz y hy s' l) loc'
    exact ⟨this.1, fun h => this.2 (fun y hy hh => h ⟨y, hy, hh⟩)⟩
  have hz := foldl_overwrite
    (fun st z => (List.range' b.ys (b.ye - b.ys)).foldl
      (fun st y => erode_row labels sx sy sz b.xe y z (b.xe - b.xs) b.xs
        { st with stale_stencil := 3 }) st)
    EState.output
    (fun z l => ∃ y ∈ List.range' b.ys (b.ye - b.ys),
      (b.xs ≤ cx sx l ∧ cx sx l < b.xe ∧ cy sx sy l = y ∧ cz sx sy l = z)
        ∧ pure_window labels sx sy sz (cx sx l) (cy sx sy l) (cz sx sy l))
    labels (List.range' b.zs (b.ze - b.zs))
    { output := out, left := [], middle := [], right := []
      pure_left := false, pure_middle := false, pure_right := false, stale_stencil := 3 }
    (fun z hz s l => hyfold z hz s l) loc
  by_cases hc : in_box sx sy b loc
      ∧ pure_window labels sx sy sz (cx sx loc) (cy sx sy loc) (cz sx sy loc)
  · rw [if_pos hc]
    obtain ⟨⟨h1, h2, h3, h4, h5, h6⟩, hp⟩ := hc
    apply hz.1
    refine ⟨cz sx sy loc, ?_, cy sx sy loc, ?_, ⟨h1, h2, rfl, rfl⟩, hp⟩
    · rw [List.mem_range'_1]; omega
    · rw [List.mem_range'_1]; omega
  · rw [if_neg hc]
    apply hz.2
    rintro z hz ⟨y, hy, ⟨h1, h2, h3, h4⟩, hp⟩
    rw [List.mem_range'_1] at hz hy
    apply hc
    refine ⟨⟨h1, h2, ?_, ?_, ?_, ?_⟩, hp⟩ <;> omega

/-! ## Erosion: the whole operator -/

theorem tile_inside (sx sy sz gx gy gz : Nat) : (tile sx sy sz gx gy gz).inside sx sy sz := by
  unfold tile Box.inside
  exact ⟨Nat.min_le_right _ _, Nat.min_le_right _ _, Nat.min_le_right _ _⟩

theorem mem_tiles {sx sy sz : Nat} {b : Box} :
    b ∈ tiles sx sy sz ↔
      ∃ gz < grid sz, ∃ gy < grid sy, ∃ gx < grid sx, b = tile sx sy sz gx gy gz := by
  unfold tiles
  simp only [List.mem_flatMap, List.mem_map, List.mem_range]
  constructor
  · rintro ⟨gz, hz, gy, hy, gx, hx, rfl⟩
    exact ⟨gz, hz, gy, hy, gx, hx, rfl⟩
  · rintro ⟨gz, hz, gy, hy, gx, hx, rfl⟩
    exact ⟨gz, hz, gy, hy, gx, hx, rfl⟩

theorem tiles_inside {sx sy sz : Nat} {b : Box} (h : b ∈ tiles sx sy sz) :
    b.inside sx sy sz := by
  obtain ⟨gz, -, gy, -, gx, -, rfl⟩ := mem_tiles.1 h
  exact tile_inside sx sy sz gx gy gz

/-- Erosion over any sequence of boxes inside the volume, from the zero buffer:
a location holds its own label when some box of the sequence contains it and its
window is pure, and `0` otherwise. -/
theorem erode_helper_order_spec (labels : Nat → Nat) {sx sy sz : Nat}
    (hsx : sx < 2 ^ 63) (hsy : sy < 2 ^ 63) (hsz : sz < 2 ^ 63)
    (order : List Box) (hord : ∀ b ∈ order, b.inside sx sy sz) (loc : Nat) :
    ((∃ b ∈ order, in_box sx sy b loc
        ∧ pure_window labels sx sy sz (cx sx loc) (cy sx sy loc) (cz sx sy loc)) →
      erode_helper_order labels sx sy sz order loc = labels loc)
    ∧ ((∀ b ∈ order, ¬ (in_box sx sy b loc
        ∧ pure_window labels sx sy sz (cx sx loc) (cy sx sy loc) (cz sx sy loc))) →
      erode_helper_order labels sx sy sz order loc = 0) := by
  unfold erode_helper_order
  have := foldl_overwrite
    (fun output b => erode_process_block labels sx sy sz b output) (fun o => o)
    (fun b l => in_box sx sy b l
      ∧ pure_window labels sx sy sz (cx sx l) (cy sx sy l) (cz sx sy l))
    labels order zero_buffer
    (fun b hb s l => by
      simp only [erode_process_block_eq labels hsx hsy hsz b (hord b hb) s, erode_spec_block]
      constructor
      · intro h; rw [if_pos h]
      · intro h; rw [if_neg h])
    loc
  exact this

/-- The erosion output does not depend on the order in which the tiles run. -/
theorem erode_order_independent (labels : Nat → Nat) {sx sy sz : Nat}
    (hsx : sx < 2 ^ 63) (hsy : sy < 2 ^ 63) (hsz : sz < 2 ^ 63)
    (order : List Box) (hperm : order.Perm (tiles sx sy sz)) :
    erode_helper_order labels sx sy sz order = erode_helper labels sx sy sz := by
  funext loc
  unfold erode_helper
  have h1 := erode_helper_order_spec labels hsx hsy hsz order
    (fun b hb => tiles_inside (hperm.subset hb)) loc
  have h2 := erode_helper_order_spec labels hsx hsy hsz (tiles sx sy sz)
    (fun b hb => tiles_inside hb) loc
  by_cases hex : ∃ b ∈ order, in_box sx sy b loc
      ∧ pure_window labels sx sy sz (cx sx loc) (cy sx sy loc) (cz sx sy loc)
  · obtain ⟨b, hb, hh⟩ := hex
    rw [h1.1 ⟨b, hb, hh⟩, h2.1 ⟨b, hperm.subset hb, hh⟩]
  · have hn : ∀ b ∈ order, ¬ (in_box sx sy b loc
        ∧ pure_window labels sx sy sz (cx sx loc) (cy sx sy loc) (cz sx sy loc)) :=
      fun b hb hh => hex ⟨b, hb, hh⟩
    rw [h1.2 hn, h2.2 (fun b hb => hn b (hperm.symm.subset hb))]

/-- C3. For every shape and every schedule of the tiles, the erode output at a
voxel `(x, y, z)` of the volume is `0` or `input[x,y,z]`; it is non-zero only if
all 27 voxels of the window lie inside the volume and equal `input[x,y,z]`, which
is then non-zero; and it is `0` on every face, edge and corner of the volume. -/
theorem erode_output_sound (labels : Nat → Nat) (sx sy sz : Nat)
    (hsx : sx < 2 ^ 63) (hsy : sy < 2 ^ 63) (hsz : sz < 2 ^ 63)
    (order : List Box) (hperm : order.Perm (tiles sx sy sz))
    (x y z : Nat) (hx : x < sx) (hy : y < sy) :
    (erode_helper_order labels sx sy sz order (idx sx sy x y z) = 0
        ∨ erode_helper_order labels sx sy sz order (idx sx sy x y z)
            = labels (idx sx sy x y z))
      ∧ (erode_helper_order labels sx sy sz order (idx sx sy x y z) ≠ 0 →
          pure_window labels sx sy sz x y z ∧ labels (idx sx sy x y z) ≠ 0)
      ∧ (x = 0 ∨ x + 1 = sx ∨ y = 0 ∨ y + 1 = sy ∨ z = 0 ∨ z + 1 = sz →
          erode_helper_order labels sx sy sz order (idx sx sy x y z) = 0) := by
  have hspec := erode_helper_order_spec labels hsx hsy hsz order
    (fun b hb => tiles_inside (hperm.subset hb)) (idx sx sy x y z)
  obtain ⟨d1, d2, d3⟩ := decode_idx z hx hy
  rw [d1, d2, d3] at hspec
  by_cases hex : ∃ b ∈ order, in_box sx sy b (idx sx sy x y z)
      ∧ pure_window labels sx sy sz x y z
  · obtain ⟨b, hb, hin, hp⟩ := hex
    have hv := hspec.1 ⟨b, hb, hin, hp⟩
    refine ⟨Or.inr hv, fun _ => ⟨hp, pure_window_center_ne_zero hp⟩, ?_⟩
    intro hface
    obtain ⟨p1, p2, p3, p4, p5, p6, -⟩ := hp
    omega
  · have hv := hspec.2 (fun b hb hh => hex ⟨b, hb, hh⟩)
    exact ⟨Or.inl hv, fun h => absurd hv h, fun _ => hv⟩

/-- Instance of `erode_output_sound` at the centre of the 5x5x5 volume of
scenario S2. -/
theorem erode_output_sound_witness :
    (5 < 2 ^ 63 ∧ (tiles 5 5 5).Perm (tiles 5 5 5) ∧ 2 < 5)
      ∧ ((erode_helper_order volume_cube 5 5 5 (tiles 5 5 5) (idx 5 5 2 2 2) = 0
          ∨ erode_helper_order volume_cube 5 5 5 (tiles 5 5 5) (idx 5 5 2 2 2)
              = volume_cube (idx 5 5 2 2 2))
        ∧ (erode_helper_order volume_cube 5 5 5 (tiles 5 5 5) (idx 5 5 2 2 2) ≠ 0 →
            pure_window volume_cube 5 5 5 2 2 2 ∧ volume_cube (idx 5 5 2 2 2) ≠ 0)
        ∧ (2 = 0 ∨ 2 + 1 = 5 ∨ 2 = 0 ∨ 2 + 1 = 5 ∨ 2 = 0 ∨ 2 + 1 = 5 →
            erode_helper_order volume_cube 5 5 5 (tiles 5 5 5) (idx 5 5 2 2 2) = 0)) :=
  ⟨⟨by norm_num, List.Perm.refl _, by decide⟩,
    erode_output_sound volume_cube 5 5 5 (by norm_num) (by norm_num) (by norm_num)
      (tiles 5 5 5) (List.Perm.refl _) 2 2 2 (by decide) (by decide)⟩

/-- C4. Erosion never skips a voxel it should keep: the erosion kernel run on a
tile box inside the volume, with the output initially zero, leaves at every voxel
of the box `input[x,y,z]` when the window of the voxel is pure and `0` otherwise;
so the skips and the reuse of cached columns pass over impure voxels only. -/
theorem erode_keeps_pure_voxels (labels : Nat → Nat) (sx sy sz : Nat)
    (hsx : sx < 2 ^ 63) (hsy : sy < 2 ^ 63) (hsz : sz < 2 ^ 63)
    (b : Box) (hb : b.inside sx sy sz) (x y z : Nat) (hin : b.contains x y z) :
    erode_process_block labels sx sy sz b zero_buffer (idx sx sy x y z)
      = if pure_window labels sx sy sz x y z then labels (idx sx sy x y z) else 0 := by
  rw [erode_process_block_eq labels hsx hsy hsz b hb]
  unfold erode_spec_block
  obtain ⟨h1, h2, h3, h4, h5, h6⟩ := hin
  have hx : x < sx := by have := hb.1; omega
  have hy : y < sy := by have := hb.2.1; omega
  obtain ⟨d1, d2, d3⟩ := decode_idx z hx hy
  have hc : b.contains x y z := ⟨h1, h2, h3, h4, h5, h6⟩
  by_cases hp : pure_window labels sx sy sz x y z
  · rw [if_pos hp, if_pos]
    unfold in_box
    rw [d1, d2, d3]
    exact ⟨hc, hp⟩
  · rw [if_neg hp, if_neg]
    · rfl
    · rw [d1, d2, d3]
      exact fun h => hp h.2

/-- Instance of `erode_keeps_pure_voxels` at the centre `(2,2,2)` of the 5x5x5
volume of scenario S2, whose window is pure. -/
theorem erode_keeps_pure_voxels_witness :
    (5 < 2 ^ 63 ∧ (tile 5 5 5 0 0 0).inside 5 5 5 ∧ (tile 5 5 5 0 0 0).contains 2 2 2
        ∧ pure_window volume_cube 5 5 5 2 2 2)
      ∧ erode_process_block volume_cube 5 5 5 (tile 5 5 5 0 0 0) zero_buffer (idx 5 5 2 2 2)
        = if pure_window volume_cube 5 5 5 2 2 2 then volume_cube (idx 5 5 2 2 2) else 0 :=
  ⟨⟨by norm_num, by decide, by decide, by decide⟩,
    erode_keeps_pure_voxels volume_cube 5 5 5 (by norm_num) (by norm_num) (by norm_num)
      (tile 5 5 5 0 0 0) (by decide) 2 2 2 (by decide)⟩

set_option maxRecDepth 100000 in
/-- Scenario S2: erosion of the 5x5x5 volume whose inner cube `[1..3]^3` holds
label 4 gives 4 at `(2,2,2)` and 0 at every other voxel. -/
theorem erode_cube_scenario :
    ∀ x < 5, ∀ y < 5, ∀ z < 5,
      erode_helper volume_cube 5 5 5 (idx 5 5 x y z) = if (x, y, z) = (2, 2, 2) then 4 else 0 := by
  decide

/-! ## Dilation: the cached columns are the columns recomputed from scratch -/

/-- After the staleness dispatch the three cached columns are those of the
current voxel. -/
theorem refresh_stencil_fresh (labels : Nat → Nat) {sx sy sz x y z : Nat}
    (hsx : sx < 2 ^ 63) (hx : x < sx) (st : DState)
    (hinv : dilate_inv labels sx sy sz x y z st) :
    (refresh_stencil labels sx sy sz x y z st).left
        = fill_partial_stencil_fn labels sx sy sz (usub x 1) y z
      ∧ (refresh_stencil labels sx sy sz x y z st).middle
        = fill_partial_stencil_fn labels sx sy sz x y z
      ∧ (refresh_stencil labels sx sy sz x y z st).right
        = fill_partial_stencil_fn labels sx sy sz (uadd x 1) y z
      ∧ (refresh_stencil labels sx sy sz x y z st).output = st.output
      ∧ (refresh_stencil labels sx sy sz x y z st).stale_stencil = 0 := by
  obtain ⟨i0, i1, i2⟩ := hinv
  have ua1 : uadd x 1 = x + 1 := uadd_of_lt (by omega)
  unfold refresh_stencil
  by_cases s1 : st.stale_stencil = 1
  · obtain ⟨x1, a, b⟩ := i1 s1
    have eL : usub x 1 = x - 1 := usub_one_of_pos (by omega) (by omega)
    have e2 : uadd (x - 1) 2 = x + 1 := by
      rw [uadd_of_lt (by omega)]; omega
    rw [if_pos s1]
    simp only [advance_stencil, eL, e2, ua1]
    exact ⟨a, b, trivial, trivial, trivial⟩
  rw [if_neg s1]
  by_cases s2 : st.stale_stencil = 2
  · obtain ⟨x1, a⟩ := i2 s2
    have eL : usub x 1 = x - 1 := usub_one_of_pos (by omega) (by omega)
    rw [if_pos s2]
    simp only [eL]
    exact ⟨a, trivial, trivial, trivial, trivial⟩
  rw [if_neg s2]
  by_cases s3 : st.stale_stencil ≥ 3
  · rw [if_pos s3]
    exact ⟨rfl, rfl, rfl, rfl, rfl⟩
  rw [if_neg s3]
  have s0 : st.stale_stencil = 0 := by omega
  obtain ⟨a, b, c⟩ := i0 s0
  exact ⟨a, b, c, rfl, s0⟩

/-- One execution of the body of the dilation `x` loop, from a state satisfying
the cache invariant, does what the recomputing body does and re-establishes the
invariant at the next voxel visited. -/
theorem dilate_body_refines (labels : Nat → Nat) {sx sy sz x y z : Nat}
    (background_only : Bool) (hsx : sx < 2 ^ 63) (hx : x < sx) (st : DState)
    (hinv : dilate_inv labels sx sy sz x y z st) :
    (dilate_body labels sx sy sz background_only x y z st).1
        = (dilate_body_ref labels sx sy sz background_only x y z st.output).1
      ∧ (dilate_body labels sx sy sz background_only x y z st).2.output
        = (dilate_body_ref labels sx sy sz background_only x y z st.output).2
      ∧ dilate_inv labels sx sy sz
          ((dilate_body labels sx sy sz background_only x y z st).1 + 1) y z
          (dilate_body labels sx sy sz background_only x y z st).2 := by
  have ua1 : uadd x 1 = x + 1 := uadd_of_lt (by omega)
  have ua2 : uadd x 2 = x + 2 := uadd_of_lt (by omega)
  have eL1 : usub (x + 1) 1 = x := by
    rw [usub_one_of_pos (by omega) (by omega)]; omega
  have ua11 : uadd (x + 1) 1 = x + 2 := uadd_of_lt (by omega)
  unfold dilate_body dilate_body_ref
  by_cases c0 : background_only = true ∧ labels (x + sx * (y + sy * z)) ≠ 0
  · rw [if_pos c0, if_pos c0]
    refine ⟨rfl, rfl, ?_, ?_, ?_⟩
    · intro h; simp only at h; omega
    · intro h
      simp only at h
      obtain ⟨a, b, c⟩ := hinv.1 (by omega)
      exact ⟨by omega, by simpa using b, by simpa [ua1] using c⟩
    · intro h
      simp only at h
      obtain ⟨x1, a, b⟩ := hinv.2.1 (by omega)
      exact ⟨by omega, by simpa using b⟩
  rw [if_neg c0, if_neg c0]
  obtain ⟨fl, fm, fr, fo, fs⟩ := refresh_stencil_fresh labels hsx hx st hinv
  generalize refresh_stencil labels sx sy sz x y z st = st' at fl fm fr fo fs
  have hw : st'.left ++ st'.middle ++ st'.right = kernel_window labels sx sy sz x y z := by
    rw [fl, fm, fr]; rfl
  have hlen : st'.left.length + st'.middle.length + st'.right.length
      = (kernel_window labels sx sy sz x y z).length := by
    rw [← hw, List.length_append, List.length_append]
  simp only [hlen, hw, fo]
  by_cases c1 : (kernel_window labels sx sy sz x y z).length = 0
  · rw [if_pos c1, if_pos c1]
    refine ⟨rfl, by simp [advance_stencil, fo], ?_, ?_, ?_⟩
    · intro _
      simp only [advance_stencil, eL1, ua11, ua2, fm, fr, ua1]
      exact ⟨trivial, trivial, trivial⟩
    · intro h; simp only [advance_stencil, fs] at h; omega
    · intro h; simp only [advance_stencil, fs] at h; omega
  rw [if_neg c1, if_neg c1]
  have inv2 : ∀ s : DState, s.stale_stencil = 2 → s.right = st'.right →
      dilate_inv labels sx sy sz (x + 1 + 1) y z s := by
    intro s h1 h2
    refine ⟨fun h => by omega, fun h => by omega, fun _ => ⟨by omega, ?_⟩⟩
    rw [h2, fr, ua1]; simp
  have inv1 : ∀ s : DState, s.stale_stencil = 1 → s.middle = st'.middle →
      s.right = st'.right → dilate_inv labels sx sy sz (x + 1) y z s := by
    intro s h1 h2 h3
    refine ⟨fun h => by omega, fun _ => ⟨by omega, ?_, ?_⟩, fun h => by omega⟩
    · rw [h2, fm]; simp
    · rw [h3, fr, ua1]
  by_cases c2 : (sort (kernel_window labels sx sy sz x y z)).length ≥ 19
      ∧ (sort (kernel_window labels sx sy sz x y z)).getD 0 0
        = (sort (kernel_window labels sx sy sz x y z)).getD
            ((sort (kernel_window labels sx sy sz x y z)).length - 1) 0
  · rw [if_pos c2, if_pos c2]
    refine ⟨rfl, rfl, ?_⟩
    simp only
    refine inv2 _ ?_ ?_ <;> rfl
  rw [if_neg c2, if_neg c2]
  by_cases c3 : (vote (sort (kernel_window labels sx sy sz x y z))).2 ≥ 19 ∧ x < usub sx 1
  · rw [if_pos c3, if_pos c3]
    refine ⟨rfl, rfl, ?_⟩
    simp only
    refine inv2 _ ?_ ?_ <;> rfl
  rw [if_neg c3, if_neg c3]
  refine ⟨rfl, rfl, ?_⟩
  simp only
  refine inv1 _ ?_ ?_ ?_ <;> rfl

/-- The dilation `x` loop with the cache computes what the recomputing loop
computes, for every amount of fuel. -/
theorem dilate_row_refines (labels : Nat → Nat) {sx sy sz xe y z : Nat}
    (background_only : Bool) (hsx : sx < 2 ^ 63) (hxe : xe ≤ sx) :
    ∀ (fuel x : Nat) (st : DState), dilate_inv labels sx sy sz x y z st →
      (dilate_row labels sx sy sz background_only xe y z fuel x st).output
        = dilate_row_ref labels sx sy sz background_only xe y z fuel x st.output := by
  intro fuel
  induction fuel with
  | zero => intro x st _; rfl
  | succ fuel ih =>
    intro x st hinv
    unfold dilate_row dilate_row_ref
    by_cases hx : x < xe
    · rw [if_pos hx, if_pos hx]
      obtain ⟨h1, h2, h3⟩ :=
        dilate_body_refines labels background_only hsx (show x < sx by omega) st hinv
      simp only
      rw [ih _ _ h3, h1, h2]
    · rw [if_neg hx, if_neg hx]

theorem foldl_project {σ τ κ : Type} (step : σ → κ → σ) (step' : τ → κ → τ) (out : σ → τ)
    (ks : List κ) (h : ∀ k ∈ ks, ∀ s, out (step s k) = step' (out s) k) :
    ∀ st, out (ks.foldl step st) = ks.foldl step' (out st) := by
  induction ks with
  | nil => intro st; rfl
  | cons k ks ih =>
    intro st
    rw [List.foldl_cons, List.foldl_cons,
      ih (fun k' hk' => h k' (List.mem_cons_of_mem k hk')), h k (List.mem_cons_self k ks)]

/-- The dilation kernel computes what the kernel that recomputes the three
columns at every voxel computes. -/
theorem dilate_process_block_eq_ref (labels : Nat → Nat) {sx sy sz : Nat}
    (background_only : Bool) (hsx : sx < 2 ^ 63) (b : Box) (hxe : b.xe ≤ sx)
    (out : Nat → Nat) :
    dilate_process_block labels sx sy sz background_only b out
      = dilate_block_ref labels sx sy sz background_only b out := by
  unfold dilate_process_block dilate_block_state dilate_block_ref
  have hrow : ∀ (z y : Nat) (s : DState),
      (dilate_row labels sx sy sz background_only b.xe y z (b.xe - b.xs) b.xs
          { s with stale_stencil := 3 }).output
        = dilate_row_ref labels sx sy sz background_only b.xe y z (b.xe - b.xs) b.xs
            s.output := by
    intro z y s
    rw [dilate_row_refines labels background_only hsx hxe]
    exact ⟨by simp, by simp, by simp⟩
  rw [foldl_project _
    (fun out z => (List.range' b.ys (b.ye - b.ys)).foldl
      (fun out y => dilate_row_ref labels sx sy sz background_only b.xe y z
        (b.xe - b.xs) b.xs out) out) DState.output]
  intro z _ s
  rw [foldl_project _
    (fun out y => dilate_row_ref labels sx sy sz background_only b.xe y z
      (b.xe - b.xs) b.xs out) DState.output]
  intro y _ s'
  exact hrow z y s'

theorem dilate_body_ref_fst_ge (labels : Nat → Nat) (sx sy sz : Nat) (background_only : Bool)
    (x y z : Nat) (out : Nat → Nat) :
    x ≤ (dilate_body_ref labels sx sy sz background_only x y z out).1 := by
  unfold dilate_body_ref
  simp only
  split_ifs <;> simp

/-- The recomputing loop does not depend on its fuel once the fuel is at least
`xe - x`: the value `xe - xs` passed by the kernel never runs out. -/
theorem dilate_row_ref_fuel (labels : Nat → Nat) (sx sy sz : Nat) (background_only : Bool)
    (xe y z : Nat) :
    ∀ (fuel fuel' x : Nat) (out : Nat → Nat), xe - x ≤ fuel → xe - x ≤ fuel' →
      dilate_row_ref labels sx sy sz background_only xe y z fuel x out
        = dilate_row_ref labels sx sy sz background_only xe y z fuel' x out := by
  intro fuel
  induction fuel with
  | zero =>
    intro fuel' x out h _
    cases fuel' with
    | zero => rfl
    | succ n =>
      unfold dilate_row_ref
      rw [if_neg (by omega)]
  | succ fuel ih =>
    intro fuel' x out h h'
    cases fuel' with
    | zero =>
      unfold dilate_row_ref
      rw [if_neg (by omega)]
    | succ n =>
      unfold dilate_row_ref
      by_cases hx : x < xe
      · rw [if_pos hx, if_pos hx]
        have := dilate_body_ref_fst_ge labels sx sy sz background_only x y z out
        exact ih _ _ _ (by omega) (by omega)
      · rw [if_neg hx, if_neg hx]

/-- A row of the recomputing loop on which every voxel is either written with one
fixed value `v` or left alone, one voxel at a time. -/
theorem dilate_row_ref_simple (labels : Nat → Nat) {sx sy sz xe y z : Nat}
    (background_only : Bool) (hit : Nat → Prop) (v : Nat)
    (hbody : ∀ x, x < xe → ∀ out : Nat → Nat,
      (hit x → dilate_body_ref labels sx sy sz background_only x y z out
          = (x, store out (idx sx sy x y z) v))
        ∧ (¬ hit x → dilate_body_ref labels sx sy sz background_only x y z out = (x, out))) :
    ∀ (fuel x : Nat) (out : Nat → Nat), xe - x ≤ fuel → ∀ loc,
      ((∃ x', x ≤ x' ∧ x' < xe ∧ hit x' ∧ loc = idx sx sy x' y z) →
        dilate_row_ref labels sx sy sz background_only xe y z fuel x out loc = v)
      ∧ ((¬ ∃ x', x ≤ x' ∧ x' < xe ∧ hit x' ∧ loc = idx sx sy x' y z) →
        dilate_row_ref labels sx sy sz background_only xe y z fuel x out loc = out loc) := by
  intro fuel
  induction fuel with
  | zero =>
    intro x out hf loc
    refine ⟨?_, fun _ => rfl⟩
    rintro ⟨x', h1, h2, -, -⟩
    omega
  | succ fuel ih =>
    intro x out hf loc
    unfold dilate_row_ref
    by_cases hx : x < xe
    swap
    · rw [if_neg hx]
      refine ⟨?_, fun _ => rfl⟩
      rintro ⟨x', h1, h2, -, -⟩
      omega
    rw [if_pos hx]
    obtain ⟨b1, b2⟩ := hbody x hx out
    by_cases hh : hit x
    · rw [b1 hh]
      obtain ⟨ia, ib⟩ := ih (x + 1) (store out (idx sx sy x y z) v) (by omega) loc
      constructor
      · rintro ⟨x', h1, h2, h3, h4⟩
        by_cases hex : ∃ x'', x + 1 ≤ x'' ∧ x'' < xe ∧ hit x'' ∧ loc = idx sx sy x'' y z
        · exact ia hex
        · rw [ib hex]
          have : x' = x := by
            by_contra hne
            exact hex ⟨x', by omega, h2, h3, h4⟩
          subst this
          simp [store, h4]
      · intro hn
        rw [ib (fun ⟨x'', h1, h2, h3, h4⟩ => hn ⟨x'', by omega, h2, h3, h4⟩)]
        have : loc ≠ idx sx sy x y z := fun he => hn ⟨x, le_refl x, hx, hh, he⟩
        simp [store, this]
    · rw [b2 hh]
      obtain ⟨ia, ib⟩ := ih (x + 1) out (by omega) loc
      constructor
      · rintro ⟨x', h1, h2, h3, h4⟩
        have : x' ≠ x := fun he => hh (he ▸ h3)
        exact ia ⟨x', by omega, h2, h3, h4⟩
      · intro hn
        exact ib (fun ⟨x'', h1, h2, h3, h4⟩ => hn ⟨x'', by omega, h2, h3, h4⟩)

/-! ## The positions of a window -/

theorem mem_column_positions {sy sz xi yi zi : Nat} (hy : yi < sy) (hz : zi < sz)
    (q : Nat × Nat × Nat) :
    q ∈ column_positions sy sz xi yi zi ↔
      q.1 = xi ∧ q.2.1 < sy ∧ q.2.2 < sz ∧ q.2.1 ≤ yi + 1 ∧ yi ≤ q.2.1 + 1
        ∧ q.2.2 ≤ zi + 1 ∧ zi ≤ q.2.2 + 1 := by
  obtain ⟨a, b, c⟩ := q
  unfold column_positions
  simp only [List.mem_append, List.mem_singleton, List.mem_ite_nil_right, Prod.mk.injEq]
  constructor
  · rintro ((((((((h | h) | h) | h) | h) | h) | h) | h) | h) <;> omega
  · rintro ⟨rfl, h1, h2, h3, h4, h5, h6⟩
    have hb : b + 1 = yi ∨ b = yi ∨ b = yi + 1 := by omega
    have hc : c + 1 = zi ∨ c = zi ∨ c = zi + 1 := by omega
    rcases hb with hb | hb | hb <;> rcases hc with hc | hc | hc <;> subst hb <;> subst hc
    · exact Or.inl (Or.inl (Or.inl (Or.inr ⟨⟨by omega, by omega⟩, rfl, rfl, rfl⟩)))
    · exact Or.inl (Or.inl (Or.inl (Or.inl (Or.inl (Or.inl (Or.inl
        (Or.inr ⟨by omega, rfl, rfl, rfl⟩)))))))
    · exact Or.inl (Or.inr ⟨⟨by omega, by omega⟩, rfl, rfl, rfl⟩)
    · exact Or.inl (Or.inl (Or.inl (Or.inl (Or.inl (Or.inr ⟨by omega, rfl, rfl, rfl⟩)))))
    · exact Or.inl (Or.inl (Or.inl (Or.inl (Or.inl (Or.inl (Or.inl
        (Or.inl ⟨rfl, rfl, rfl⟩)))))))
    · exact Or.inl (Or.inl (Or.inl (Or.inl (Or.inr ⟨by omega, rfl, rfl, rfl⟩))))
    · exact Or.inl (Or.inl (Or.inr ⟨⟨by omega, by omega⟩, rfl, rfl, rfl⟩))
    · exact Or.inl (Or.inl (Or.inl (Or.inl (Or.inl (Or.inl
        (Or.inr ⟨by omega, rfl, rfl, rfl⟩))))))
    · exact Or.inr ⟨⟨by omega, by omega⟩, rfl, rfl, rfl⟩

theorem nodup_column_positions (sy sz xi yi zi : Nat) :
    (column_positions sy sz xi yi zi).Nodup := by
  unfold column_positions
  by_cases h1 : 0 < yi <;> by_cases h2 : yi + 1 < sy <;>
    by_cases h3 : 0 < zi <;> by_cases h4 : zi + 1 < sz <;>
    simp only [h1, h2, h3, h4, gt_iff_lt, false_and, and_false,
      and_self, if_true, if_false,
      List.append_nil, List.singleton_append, List.nil_append, List.cons_append,
      List.nodup_cons, List.mem_cons, List.mem_singleton, List.not_mem_nil, List.nodup_nil,
      Prod.mk.injEq, not_or, not_and, and_true, or_false, not_false_eq_true, true_and,
      true_implies, implies_true] <;>
    omega

theorem mem_window_positions {sx sy sz x y z : Nat} (hx : x < sx) (hy : y < sy) (hz : z < sz)
    (q : Nat × Nat × Nat) :
    q ∈ window_positions sx sy sz x y z ↔
      q.1 < sx ∧ q.2.1 < sy ∧ q.2.2 < sz ∧ q.1 ≤ x + 1 ∧ x ≤ q.1 + 1
        ∧ q.2.1 ≤ y + 1 ∧ y ≤ q.2.1 + 1 ∧ q.2.2 ≤ z + 1 ∧ z ≤ q.2.2 + 1 := by
  unfold window_positions
  simp only [List.mem_append, List.mem_ite_nil_right, mem_column_positions hy hz]
  omega

theorem nodup_window_positions (sx sy sz x y z : Nat) :
    (window_positions sx sy sz x y z).Nodup := by
  unfold window_positions
  have hcol : ∀ a b : Nat, a ≠ b →
      ∀ q ∈ column_positions sy sz a y z, ∀ q' ∈ column_positions sy sz b y z, q ≠ q' := by
    intro a b hab q hq q' hq' he
    subst he
    have h1 : ∀ c, q ∈ column_positions sy sz c y z → q.1 = c := by
      intro c hc
      unfold column_positions at hc
      simp only [List.mem_append, List.mem_singleton, List.mem_ite_nil_right] at hc
      rcases hc with (((((((h | h) | h) | h) | h) | h) | h) | h) | h
      · rw [h]
      all_goals rw [h.2]
    exact hab ((h1 a hq).symm.trans (h1 b hq'))
  rw [List.nodup_append, List.nodup_append]
  refine ⟨⟨?_, nodup_column_positions _ _ _ _ _, ?_⟩, ?_, ?_⟩
  · split_ifs
    · exact nodup_column_positions _ _ _ _ _
    · exact List.nodup_nil
  · intro q hq hq'
    split_ifs at hq with h0
    · exact hcol (x - 1) x (by omega) q hq q hq' rfl
    · cases hq
  · split_ifs
    · exact nodup_column_positions _ _ _ _ _
    · exact List.nodup_nil
  · intro q hq hq'
    split_ifs at hq' with h2
    swap
    · cases hq'
    rcases List.mem_append.1 hq with h | h
    · split_ifs at h with h0
      · exact hcol (x - 1) (x + 1) (by omega) q h q hq' rfl
      · cases h
    · exact hcol x (x + 1) (by omega) q h q hq' rfl

/-- The list the kernel votes on, in coordinates. -/
theorem kernel_window_eq (labels : Nat → Nat) {sx sy sz x y z : Nat}
    (hsx : sx < 2 ^ 63) (hsy : sy < 2 ^ 63) (hsz : sz < 2 ^ 63)
    (hx : x < sx) (hy : y < sy) (hz : z < sz) :
    kernel_window labels sx sy sz x y z
      = nonzero_at labels sx sy (window_positions sx sy sz x y z) := by
  unfold kernel_window window_positions
  rw [nonzero_at_append, nonzero_at_append, fill_eq_nonzero_at labels hsy hsz hx hy hz,
    uadd_of_lt (show x + 1 < 2 ^ 64 by omega)]
  congr 1
  · congr 1
    by_cases h0 : 0 < x
    · rw [if_pos h0, usub_one_of_pos h0 (by omega),
        fill_eq_nonzero_at labels hsy hsz (show x - 1 < sx by omega) hy hz]
    · have : x = 0 := by omega
      subst this
      rw [if_neg h0, usub_zero_one, fill_out_of_range labels sx sy sz _ y z (by omega)]
      rfl
  · by_cases h2 : x + 1 < sx
    · rw [if_pos h2, fill_eq_nonzero_at labels hsy hsz h2 hy hz]
    · rw [if_neg h2, fill_out_of_range labels sx sy sz _ y z (by omega)]
      rfl

/-! ## Dilation of the all-zero volume -/

theorem nonzero_at_eq_nil (labels : Nat → Nat) (sx sy : Nat) (ps : List (Nat × Nat × Nat))
    (h : ∀ q ∈ ps, labels (idx sx sy q.1 q.2.1 q.2.2) = 0) :
    nonzero_at labels sx sy ps = [] := by
  unfold nonzero_at
  rw [List.filter_eq_nil_iff]
  intro v hv
  obtain ⟨q, hq, rfl⟩ := List.mem_map.1 hv
  simp [h q hq]

theorem foldl_fixed {σ κ : Type} (step : σ → κ → σ) (ks : List κ)
    (h : ∀ k ∈ ks, ∀ s, step s k = s) : ∀ st, ks.foldl step st = st := by
  induction ks with
  | nil => intro st; rfl
  | cons k ks ih =>
    intro st
    rw [List.foldl_cons, h k (List.mem_cons_self k ks),
      ih (fun k' hk' => h k' (List.mem_cons_of_mem k hk'))]

theorem dilate_body_ref_zero (labels : Nat → Nat) {sx sy sz x y z : Nat}
    (background_only : Bool) (hsx : sx < 2 ^ 63) (hsy : sy < 2 ^ 63) (hsz : sz < 2 ^ 63)
    (hx : x < sx) (hy : y < sy) (hz : z < sz)
    (hzero : ∀ x y z, x < sx → y < sy → z < sz → labels (idx sx sy x y z) = 0)
    (out : Nat → Nat) :
    dilate_body_ref labels sx sy sz background_only x y z out = (x, out) := by
  unfold dilate_body_ref
  have h0 : labels (x + sx * (y + sy * z)) = 0 := hzero x y z hx hy hz
  have hw : kernel_window labels sx sy sz x y z = [] := by
    rw [kernel_window_eq labels hsx hsy hsz hx hy hz]
    apply nonzero_at_eq_nil
    intro q hq
    obtain ⟨q1, q2, q3, -⟩ := (mem_window_positions hx hy hz q).1 hq
    exact hzero _ _ _ q1 q2 q3
  simp only [h0, ne_eq, not_true_eq_false, and_false, if_false, hw, List.length_nil, if_true]

/-- On a volume whose voxels are all zero the dilation kernel leaves the output
buffer as it is. -/
theorem dilate_process_block_zero (labels : Nat → Nat) {sx sy sz : Nat}
    (background_only : Bool) (hsx : sx < 2 ^ 63) (hsy : sy < 2 ^ 63) (hsz : sz < 2 ^ 63)
    (hzero : ∀ x y z, x < sx → y < sy → z < sz → labels (idx sx sy x y z) = 0)
    (b : Box) (hb : b.inside sx sy sz) (out : Nat → Nat) :
    dilate_process_block labels sx sy sz background_only b out = out := by
  obtain ⟨hxe, hye, hze⟩ := hb
  rw [dilate_process_block_eq_ref labels background_only hsx b hxe]
  unfold dilate_block_ref
  apply foldl_fixed
  intro z hz s
  apply foldl_fixed
  intro y hy s'
  rw [List.mem_range'_1] at hz hy
  funext loc
  have := @dilate_row_ref_simple labels sx sy sz b.xe y z background_only (fun _ => False) 0
    (fun x hx o => ⟨fun h => h.elim, fun _ =>
      dilate_body_ref_zero labels background_only hsx hsy hsz (by omega) (by omega) (by omega)
        hzero o⟩)
    (b.xe - b.xs) b.xs s' (le_refl _) loc
  exact this.2 (fun ⟨_, _, _, h, _⟩ => h)

/-- C8. For every shape, either `background_only` setting and every schedule of
the tiles: if every voxel of the input is 0 then every voxel of the dilate
output is 0. -/
theorem dilate_all_zero (labels : Nat → Nat) (sx sy sz : Nat) (background_only : Bool)
    (hsx : sx < 2 ^ 63) (hsy : sy < 2 ^ 63) (hsz : sz < 2 ^ 63)
    (hzero : ∀ x y z, x < sx → y < sy → z < sz → labels (idx sx sy x y z) = 0)
    (order : List Box) (hperm : order.Perm (tiles sx sy sz)) :
    ∀ x y z, x < sx → y < sy → z < sz →
      dilate_helper_order labels sx sy sz background_only order (idx sx sy x y z) = 0 := by
  have hall : dilate_helper_order labels sx sy sz background_only order = zero_buffer := by
    unfold dilate_helper_order
    apply foldl_fixed
    intro b hb s
    exact dilate_process_block_zero labels background_only hsx hsy hsz hzero b
      (tiles_inside (hperm.subset hb)) s
  intro x y z _ _ _
  rw [hall]; rfl

/-- Instance of `dilate_all_zero` on the 5x5x5 zero volume. -/
theorem dilate_all_zero_witness :
    (5 < 2 ^ 63
        ∧ (∀ x y z, x < 5 → y < 5 → z < 5 → zero_buffer (idx 5 5 x y z) = 0)
        ∧ (tiles 5 5 5).Perm (tiles 5 5 5))
      ∧ ∀ x y z, x < 5 → y < 5 → z < 5 →
          dilate_helper_order zero_buffer 5 5 5 true (tiles 5 5 5) (idx 5 5 x y z) = 0 :=
  ⟨⟨by norm_num, fun _ _ _ _ _ _ => rfl, List.Perm.refl _⟩,
    dilate_all_zero zero_buffer 5 5 5 true (by norm_num) (by norm_num) (by norm_num)
      (fun _ _ _ _ _ _ => rfl) (tiles 5 5 5) (List.Perm.refl _)⟩

/-! ## Dilation of a single voxel -/

theorem nonzero_at_cons (labels : Nat → Nat) (sx sy : Nat) (q : Nat × Nat × Nat)
    (qs : List (Nat × Nat × Nat)) :
    nonzero_at labels sx sy (q :: qs)
      = (if labels (idx sx sy q.1 q.2.1 q.2.2) ≠ 0 then [labels (idx sx sy q.1 q.2.1 q.2.2)]
          else []) ++ nonzero_at labels sx sy qs := by
  rw [← nonzero_at_single, ← nonzero_at_append]; rfl

/-- In a volume with a single non-zero voxel, the non-zero labels at a
duplicate-free list of in-bounds positions are that one label or nothing. -/
theorem nonzero_at_single_voxel (labels : Nat → Nat) {sx sy sz px py pz L : Nat}
    (hs : single_voxel labels sx sy sz px py pz L) :
    ∀ ps : List (Nat × Nat × Nat), ps.Nodup →
      (∀ q ∈ ps, q.1 < sx ∧ q.2.1 < sy ∧ q.2.2 < sz) →
      ((px, py, pz) ∈ ps → nonzero_at labels sx sy ps = [L])
        ∧ ((px, py, pz) ∉ ps → nonzero_at labels sx sy ps = []) := by
  obtain ⟨hpx, hpy, hpz, hL, hlab, hother⟩ := hs
  intro ps
  induction ps with
  | nil =>
    intro _ _
    exact ⟨fun h => (by cases h), fun _ => rfl⟩
  | cons q qs ih =>
    intro hnd hin
    obtain ⟨hq, hnd'⟩ := List.nodup_cons.1 hnd
    obtain ⟨ia, ib⟩ := ih hnd' (fun q' hq' => hin q' (List.mem_cons_of_mem q hq'))
    rw [nonzero_at_cons]
    by_cases hqp : q = (px, py, pz)
    · subst hqp
      simp only [hlab, hL, ne_eq, not_false_eq_true, if_true, ib hq]
      exact ⟨fun _ => rfl, fun h => absurd (List.mem_cons_self _ _) h⟩
    · obtain ⟨q1, q2, q3⟩ := hin q (List.mem_cons_self q qs)
      have h0 : labels (idx sx sy q.1 q.2.1 q.2.2) = 0 := hother _ _ _ q1 q2 q3 hqp
      simp only [h0, ne_eq, not_true_eq_false, if_false, List.nil_append]
      constructor
      · intro h
        rcases List.mem_cons.1 h with h | h
        · exact absurd h.symm hqp
        · exact ia h
      · intro h
        exact ib (fun h' => h (List.mem_cons_of_mem q h'))

theorem kernel_window_single_voxel (labels : Nat → Nat) {sx sy sz px py pz L x y z : Nat}
    (hsx : sx < 2 ^ 63) (hsy : sy < 2 ^ 63) (hsz : sz < 2 ^ 63)
    (hs : single_voxel labels sx sy sz px py pz L)
    (hx : x < sx) (hy : y < sy) (hz : z < sz) :
    (in_cube px py pz x y z → kernel_window labels sx sy sz x y z = [L])
      ∧ (¬ in_cube px py pz x y z → kernel_window labels sx sy sz x y z = []) := by
  rw [kernel_window_eq labels hsx hsy hsz hx hy hz]
  obtain ⟨ha, hb⟩ := nonzero_at_single_voxel labels hs (window_positions sx sy sz x y z)
    (nodup_window_positions sx sy sz x y z)
    (fun q hq => by
      obtain ⟨q1, q2, q3, -⟩ := (mem_window_positions hx hy hz q).1 hq
      exact ⟨q1, q2, q3⟩)
  obtain ⟨hpx, hpy, hpz, -⟩ := hs
  have hmem : (px, py, pz) ∈ window_positions sx sy sz x y z ↔ in_cube px py pz x y z := by
    rw [mem_window_positions hx hy hz]
    unfold in_cube
    simp only
    omega
  exact ⟨fun h => ha (hmem.2 h), fun h => hb (fun h' => h (hmem.1 h'))⟩

theorem vote_singleton (L : Nat) : vote [L] = (L, 1) := by
  simp [vote, mode_scan]

theorem sort_singleton (L : Nat) : sort [L] = [L] := by
  simp [sort]

theorem dilate_body_ref_single_voxel (labels : Nat → Nat) {sx sy sz px py pz L x y z : Nat}
    (background_only : Bool) (hsx : sx < 2 ^ 63) (hsy : sy < 2 ^ 63) (hsz : sz < 2 ^ 63)
    (hs : single_voxel labels sx sy sz px py pz L)
    (hx : x < sx) (hy : y < sy) (hz : z < sz) (out : Nat → Nat) :
    (in_cube px py pz x y z →
        dilate_body_ref labels sx sy sz background_only x y z out
          = (x, store out (idx sx sy x y z) L))
      ∧ (¬ in_cube px py pz x y z →
        dilate_body_ref labels sx sy sz background_only x y z out = (x, out)) := by
  obtain ⟨wa, wb⟩ := kernel_window_single_voxel labels hsx hsy hsz hs hx hy hz
  obtain ⟨hpx, hpy, hpz, hL, hlab, hother⟩ := hs
  have e0 : x + sx * (y + sy * z) = idx sx sy x y z := rfl
  unfold dilate_body_ref
  rw [e0]
  constructor
  · intro hc
    by_cases c0 : background_only = true ∧ labels (idx sx sy x y z) ≠ 0
    · rw [if_pos c0]
      have : (x, y, z) = (px, py, pz) := by
        by_contra hne
        exact c0.2 (hother x y z hx hy hz hne)
      simp only [Prod.mk.injEq] at this
      obtain ⟨rfl, rfl, rfl⟩ := this
      rw [hlab]
    · rw [if_neg c0]
      simp only [wa hc, sort_singleton, vote_singleton, List.length_singleton]
      simp
  · intro hc
    have hne : (x, y, z) ≠ (px, py, pz) := by
      intro he
      simp only [Prod.mk.injEq] at he
      obtain ⟨rfl, rfl, rfl⟩ := he
      apply hc
      unfold in_cube
      omega
    have h0 : labels (idx sx sy x y z) = 0 := hother x y z hx hy hz hne
    simp only [h0, ne_eq, not_true_eq_false, and_false, if_false, wb hc, List.length_nil,
      if_true]

theorem dilate_block_ref_single_voxel (labels : Nat → Nat) {sx sy sz px py pz L : Nat}
    (background_only : Bool) (hsx : sx < 2 ^ 63) (hsy : sy < 2 ^ 63) (hsz : sz < 2 ^ 63)
    (hs : single_voxel labels sx sy sz px py pz L)
    (b : Box) (hb : b.inside sx sy sz) (out : Nat → Nat) (loc : Nat) :
    ((∃ x y z, b.contains x y z ∧ in_cube px py pz x y z ∧ loc = idx sx sy x y z) →
        dilate_block_ref labels sx sy sz background_only b out loc = L)
      ∧ ((¬ ∃ x y z, b.contains x y z ∧ in_cube px py pz x y z ∧ loc = idx sx sy x y z) →
        dilate_block_ref labels sx sy sz background_only b out loc = out loc) := by
  obtain ⟨hxe, hye, hze⟩ := hb
  unfold dilate_block_ref
  have hrow : ∀ z ∈ List.range' b.zs (b.ze - b.zs), ∀ y ∈ List.range' b.ys (b.ye - b.ys),
      ∀ (s : Nat → Nat) (l : Nat),
        ((∃ x', b.xs ≤ x' ∧ x' < b.xe ∧ in_cube px py pz x' y z ∧ l = idx sx sy x' y z) →
          dilate_row_ref labels sx sy sz background_only b.xe y z (b.xe - b.xs) b.xs s l = L)
        ∧ ((¬ ∃ x', b.xs ≤ x' ∧ x' < b.xe ∧ in_cube px py pz x' y z ∧ l = idx sx sy x' y z) →
          dilate_row_ref labels sx sy sz background_only b.xe y z (b.xe - b.xs) b.xs s l
            = s l) := by
    intro z hz y hy s l
    rw [List.mem_range'_1] at hz hy
    exact dilate_row_ref_simple labels background_only (fun x => in_cube px py pz x y z) L
      (fun x hx o => dilate_body_ref_single_voxel labels background_only hsx hsy hsz hs
        (by omega) (by omega) (by omega) o)
      (b.xe - b.xs) b.xs s (le_refl _) l
  have hy := fun z (hz : z ∈ List.range' b.zs (b.ze - b.zs)) (s : Nat → Nat) (l : Nat) =>
    foldl_overwrite
      (fun out y => dilate_row_ref labels sx sy sz background_only b.xe y z
        (b.xe - b.xs) b.xs out)
      (fun o => o)
      (fun y l => ∃ x', b.xs ≤ x' ∧ x' < b.xe ∧ in_cube px py pz x' y z ∧ l = idx sx sy x' y z)
      (fun _ => L) (List.range' b.ys (b.ye - b.ys)) s
      (fun y hy s' l' => hrow z hz y hy s' l') l
  have hz := foldl_overwrite
    (fun out z => (List.range' b.ys (b.ye - b.ys)).foldl
      (fun out y => dilate_row_ref labels sx sy sz background_only b.xe y z
        (b.xe - b.xs) b.xs out) out)
    (fun o => o)
    (fun z l => ∃ y ∈ List.range' b.ys (b.ye - b.ys),
      ∃ x', b.xs ≤ x' ∧ x' < b.xe ∧ in_cube px py pz x' y z ∧ l = idx sx sy x' y z)
    (fun _ => L) (List.range' b.zs (b.ze - b.zs)) out
    (fun z hz' s l => ⟨(hy z hz' s l).1, fun h => (hy z hz' s l).2
      (fun y hy' hh => h ⟨y, hy', hh⟩)⟩) loc
  constructor
  · rintro ⟨x, y, z, ⟨h1, h2, h3, h4, h5, h6⟩, hc, rfl⟩
    apply hz.1
    refine ⟨z, ?_, y, ?_, x, h1, h2, hc, rfl⟩
    · rw [List.mem_range'_1]; omega
    · rw [List.mem_range'_1]; omega
  · intro hn
    apply hz.2
    rintro z hz' ⟨y, hy', x, h1, h2, hc, rfl⟩
    rw [List.mem_range'_1] at hz' hy'
    exact hn ⟨x, y, z, ⟨h1, h2, by omega, by omega, by omega, by omega⟩, hc, rfl⟩

theorem grid_small {s : Nat} (h1 : 1 ≤ s) (h64 : s ≤ 64) : grid s = 1 := by
  unfold grid block_size
  have : (s + 64 / 2) / 64 ≤ 1 := by omega
  omega

/-- A volume whose extents are between 1 and 64 is a single tile. -/
theorem tiles_small {sx sy sz : Nat} (hx1 : 1 ≤ sx) (hx : sx ≤ 64) (hy1 : 1 ≤ sy)
    (hy : sy ≤ 64) (hz1 : 1 ≤ sz) (hz : sz ≤ 64) :
    tiles sx sy sz = [{ xs := 0, xe := sx, ys := 0, ye := sy, zs := 0, ze := sz }] := by
  unfold tiles
  rw [grid_small hx1 hx, grid_small hy1 hy, grid_small hz1 hz]
  have hr : List.range 1 = [0] := rfl
  simp only [hr, List.flatMap_cons, List.flatMap_nil, List.map_cons, List.map_nil,
    List.append_nil, tile, block_size, Nat.zero_mul, Nat.zero_add, Nat.one_mul]
  rw [Nat.min_eq_right hx, Nat.min_eq_right hy, Nat.min_eq_right hz]

/-- C7. For every volume with extents between 1 and 64 whose only non-zero voxel
is a label `L` at `p`, dilate (with either `background_only` setting) outputs `L`
at exactly the voxels of the volume within distance 1 of `p` in each coordinate
and `0` at every other voxel. -/
theorem dilate_single_voxel (labels : Nat → Nat) (sx sy sz : Nat) (background_only : Bool)
    (px py pz L : Nat)
    (hx1 : 1 ≤ sx) (hx64 : sx ≤ 64) (hy1 : 1 ≤ sy) (hy64 : sy ≤ 64)
    (hz1 : 1 ≤ sz) (hz64 : sz ≤ 64)
    (hs : single_voxel labels sx sy sz px py pz L) :
    ∀ x y z, x < sx → y < sy → z < sz →
      dilate_helper labels sx sy sz background_only (idx sx sy x y z)
        = if in_cube px py pz x y z then L else 0 := by
  intro x y z hx hy hz
  have hsx : sx < 2 ^ 63 := by omega
  have hsy : sy < 2 ^ 63 := by omega
  have hsz : sz < 2 ^ 63 := by omega
  unfold dilate_helper dilate_helper_order
  rw [tiles_small hx1 hx64 hy1 hy64 hz1 hz64, List.foldl_cons, List.foldl_nil,
    dilate_process_block_eq_ref labels background_only hsx _ (le_refl sx)]
  obtain ⟨ha, hb⟩ := dilate_block_ref_single_voxel labels background_only hsx hsy hsz hs
    { xs := 0, xe := sx, ys := 0, ye := sy, zs := 0, ze := sz }
    ⟨le_refl _, le_refl _, le_refl _⟩ zero_buffer (idx sx sy x y z)
  by_cases hc : in_cube px py pz x y z
  · rw [if_pos hc]
    exact ha ⟨x, y, z, ⟨Nat.zero_le _, hx, Nat.zero_le _, hy, Nat.zero_le _, hz⟩, hc, rfl⟩
  · rw [if_neg hc, hb]
    · rfl
    · rintro ⟨x', y', z', ⟨-, h2, -, h4, -, -⟩, hc', he⟩
      obtain ⟨rfl, rfl, rfl⟩ := idx_inj hx h2 hy h4 he
      exact hc hc'

/-- Instance of `dilate_single_voxel`: scenario S1, the 5x5x5 volume with label 7
at `(2,2,2)` dilates to 7 on the cube `[1..3]^3` and 0 elsewhere. -/
theorem dilate_single_voxel_witness :
    (1 ≤ 5 ∧ 5 ≤ 64 ∧ single_voxel volume_dot 5 5 5 2 2 2 7)
      ∧ ∀ x y z, x < 5 → y < 5 → z < 5 →
          dilate_helper volume_dot 5 5 5 false (idx 5 5 x y z)
            = if in_cube 2 2 2 x y z then 7 else 0 :=
  have hs : single_voxel volume_dot 5 5 5 2 2 2 7 :=
    ⟨by decide, by decide, by decide, by decide, by decide, fun x y z hx hy hz hne => by
      unfold volume_dot
      rw [if_neg]
      intro he
      obtain ⟨rfl, rfl, rfl⟩ := idx_inj hx (by decide) hy (by decide) he
      exact hne rfl⟩
  ⟨⟨by decide, by decide, hs⟩,
    dilate_single_voxel volume_dot 5 5 5 false 2 2 2 7 (by decide) (by decide) (by decide)
      (by decide) (by decide) (by decide) hs⟩

/-! ## Where the code departs from the specification -/

set_option maxRecDepth 100000 in
/-- C1 (the code departs from it). On the 4x3x3 volume `volume_two_planes`,
dilate with `background_only = false` outputs 5 at voxel `(2,1,1)` although the
window of that voxel holds ten 5s and seventeen 3s, so that its plurality label
is 3: the vote at `(1,1,1)` ends with a final run of nineteen 5s and the second
two-voxel fast path also writes 5 to `(2,1,1)`, which is then never visited. -/
theorem dilate_plurality_fails :
    dilate_helper volume_two_planes 4 3 3 false (idx 4 3 2 1 1) = 5
      ∧ window_labels volume_two_planes 4 3 3 2 1 1
          = [5, 3, 3, 5, 3, 3, 5, 3, 3, 5, 3, 3, 5, 5, 3, 5, 3, 3, 5, 3, 3, 5, 3, 3, 5, 3, 3]
      ∧ plurality (window_labels volume_two_planes 4 3 3 2 1 1) = 3 := by
  decide

set_option maxRecDepth 100000 in
/-- C2 (the code departs from it). On the 3x3x3 volume `volume_hole`, dilate with
`background_only = true` outputs 5 at voxel `(2,1,1)` although the input there is
the non-zero label 3: the vote at the background voxel `(1,1,1)` ends with a
final run of twenty-five 5s and the second two-voxel fast path overwrites the
neighbour without looking at its input value. -/
theorem dilate_background_only_overwrites :
    volume_hole (idx 3 3 2 1 1) = 3
      ∧ dilate_helper volume_hole 3 3 3 true (idx 3 3 2 1 1) = 5 := by
  decide

set_option maxRecDepth 100000 in
/-- C5 (the code departs from it). For the shape 65x1x1 the scheduler enqueues the
single tile `[0,64) x [0,1) x [0,1)`; voxel `(64,0,0)` of the volume lies in no
tile, and dilate leaves it 0 on a volume filled with label 7. -/
theorem tiles_miss_voxel :
    tiles 65 1 1 = [{ xs := 0, xe := 64, ys := 0, ye := 1, zs := 0, ze := 1 }]
      ∧ (64 < 65 ∧ ∀ b ∈ tiles 65 1 1, ¬ b.contains 64 0 0)
      ∧ volume_line (idx 65 1 64 0 0) = 7
      ∧ dilate_helper volume_line 65 1 1 false (idx 65 1 64 0 0) = 0 := by
  decide

set_option maxRecDepth 100000 in
/-- C6 (the code departs from it). On the 96x3x3 volume `volume_seam` the two
enqueued tiles `[0,64)` and `[64,96)` (in `x`) give different dilate outputs at
voxel `(64,1,1)` depending on which runs last: the second tile votes 3 there,
the first tile's two-voxel write from `(63,1,1)` puts 5 there. -/
theorem dilate_depends_on_tile_order :
    tiles 96 3 3 = [tile 96 3 3 0 0 0, tile 96 3 3 1 0 0]
      ∧ dilate_helper_order volume_seam 96 3 3 false
          [tile 96 3 3 0 0 0, tile 96 3 3 1 0 0] (idx 96 3 64 1 1) = 3
      ∧ dilate_helper_order volume_seam 96 3 3 false
          [tile 96 3 3 1 0 0, tile 96 3 3 0 0 0] (idx 96 3 64 1 1) = 5 := by
  decide

set_option maxRecDepth 100000 in
/-- C10 (the code departs from it). On the 96x3x3 volume `volume_slab` the
dilation kernel run on the first enqueued tile `[0,64) x [0,3) x [0,3)`, from
the zero buffer, writes 5 to voxel `(64,1,1)`, which lies outside that tile and
inside the second one: the two-voxel write is guarded by `x < sx - 1`, not by
the tile's `xe`. -/
theorem dilate_writes_outside_tile :
    tile 96 3 3 0 0 0 ∈ tiles 96 3 3
      ∧ ¬ (tile 96 3 3 0 0 0).contains 64 1 1
      ∧ (tile 96 3 3 1 0 0).contains 64 1 1
      ∧ zero_buffer (idx 96 3 64 1 1) = 0
      ∧ dilate_process_block volume_slab 96 3 3 false (tile 96 3 3 0 0 0) zero_buffer
          (idx 96 3 64 1 1) = 5 := by
  decide

/-- C9 (as stated it fails). For the element width 16 both entry points return a
default-constructed array instead of raising an error, after allocating the
output buffer of `5*5*5*16` bytes. -/
theorem unsupported_width_not_rejected :
    ¬ fails_before_allocating (dilate 16 volume_dot 5 5 5 false)
      ∧ ¬ fails_before_allocating (erode 16 volume_dot 5 5 5)
      ∧ (dilate 16 volume_dot 5 5 5 false).allocations = [2000]
      ∧ (erode 16 volume_dot 5 5 5).allocations = [2000] := by
  refine ⟨?_, ?_, by decide, by decide⟩
  · rintro ⟨-, h⟩
    exact absurd h (by decide)
  · rintro ⟨-, h⟩
    exact absurd h (by decide)

/-- C9 (amended). For an element width other than 1, 2, 4 and 8 the entry points
raise no error: they allocate the zero-initialised output buffer, run no
kernel and return a default-constructed array. -/
theorem unsupported_width_returns_empty (width : Nat) (labels : Nat → Nat) (sx sy sz : Nat)
    (background_only : Bool)
    (hw : width ≠ 1 ∧ width ≠ 2 ∧ width ≠ 4 ∧ width ≠ 8) :
    dilate width labels sx sy sz background_only
        = { allocations := [(sx * sy * sz * width) % U64], returned := Except.ok PyArray.empty }
      ∧ erode width labels sx sy sz
        = { allocations := [(sx * sy * sz * width) % U64],
            returned := Except.ok PyArray.empty } := by
  obtain ⟨h1, h2, h4, h8⟩ := hw
  unfold dilate erode
  simp only [h1, h2, h4, h8, if_false, and_self]

/-- Instance of `unsupported_width_returns_empty` at width 16. -/
theorem unsupported_width_returns_empty_witness :
    (16 ≠ 1 ∧ 16 ≠ 2 ∧ 16 ≠ 4 ∧ 16 ≠ 8)
      ∧ (dilate 16 volume_dot 5 5 5 false
          = { allocations := [(5 * 5 * 5 * 16) % U64], returned := Except.ok PyArray.empty }
        ∧ erode 16 volume_dot 5 5 5
          = { allocations := [(5 * 5 * 5 * 16) % U64],
              returned := Except.ok PyArray.empty }) :=
  ⟨by decide, unsupported_width_returns_empty 16 volume_dot 5 5 5 false (by decide)⟩

/-! ## The second two-voxel fast path -/

set_option maxRecDepth 100000 in
/-- C11 (the code departs from it). In row `(y, z) = (1, 1)` of the 4x3x3 volume
`volume_two_planes` the kernel reaches voxel `(1,1,1)` after one step; there the
first fast path does not apply, the scan ends with `ct = 19` and mode 5, and
`x < sx - 1`, so 5 is written to `(2,1,1)` and `x` advances by two, although the
plurality label of the window of `(2,1,1)` is 3.  With `background_only = true`
on `volume_hole` the scan at `(1,1,1)` ends with `ct = 25` and mode 5, and 5 is
written to `(2,1,1)` although `input[2,1,1] = 3` is not zero. -/
theorem second_fast_path_changes_values :
    (vote (sort (kernel_window volume_two_planes 4 3 3 1 1 1)) = (5, 19)
        ∧ (sort (kernel_window volume_two_planes 4 3 3 1 1 1)).getD 0 0 = 3
        ∧ (dilate_body volume_two_planes 4 3 3 false 1 1 1
            (dilate_body volume_two_planes 4 3 3 false 0 1 1 dilate_row_start).2).1 = 2
        ∧ (dilate_body volume_two_planes 4 3 3 false 1 1 1
            (dilate_body volume_two_planes 4 3 3 false 0 1 1 dilate_row_start).2).2.output
              (idx 4 3 2 1 1) = 5
        ∧ plurality (window_labels volume_two_planes 4 3 3 2 1 1) = 3)
      ∧ (vote (sort (kernel_window volume_hole 3 3 3 1 1 1)) = (5, 25)
        ∧ (dilate_body volume_hole 3 3 3 true 1 1 1
            (dilate_body volume_hole 3 3 3 true 0 1 1 dilate_row_start).2).2.output
              (idx 3 3 2 1 1) = 5
        ∧ volume_hole (idx 3 3 2 1 1) = 3) := by
  decide

/-! ## Column extraction -/

/-- C15. Column extraction called with `yi < sy` and `zi < sz` returns the non-zero
input values at the in-bounds positions of the square around `(xi, yi, zi)` in
the order centre, `y-1`, `y+1`, `z-1`, `z+1`, then the four diagonals (the order
of `column_positions`), and it returns the empty list whenever `xi` is outside
`[0, sx)`: in particular for the wrap-around of `x-1` at `x = 0` and when `x+1`
or `x+2` reaches or passes `sx`. -/
theorem fill_partial_stencil_fn_spec (labels : Nat → Nat) (sx sy sz yi zi : Nat)
    (hsx : sx < 2 ^ 63) (hsy : sy < 2 ^ 63) (hsz : sz < 2 ^ 63)
    (hy : yi < sy) (hz : zi < sz) :
    (∀ xi, xi < sx →
        fill_partial_stencil_fn labels sx sy sz xi yi zi
          = nonzero_at labels sx sy
              ([(xi, yi, zi)]
                ++ (if yi > 0 then [(xi, yi - 1, zi)] else [])
                ++ (if yi + 1 < sy then [(xi, yi + 1, zi)] else [])
                ++ (if zi > 0 then [(xi, yi, zi - 1)] else [])
                ++ (if zi + 1 < sz then [(xi, yi, zi + 1)] else [])
                ++ (if yi > 0 ∧ zi > 0 then [(xi, yi - 1, zi - 1)] else [])
                ++ (if yi + 1 < sy ∧ zi > 0 then [(xi, yi + 1, zi - 1)] else [])
                ++ (if yi > 0 ∧ zi + 1 < sz then [(xi, yi - 1, zi + 1)] else [])
                ++ (if yi + 1 < sy ∧ zi + 1 < sz then [(xi, yi + 1, zi + 1)] else [])))
      ∧ (∀ xi, sx ≤ xi → fill_partial_stencil_fn labels sx sy sz xi yi zi = [])
      ∧ fill_partial_stencil_fn labels sx sy sz (usub 0 1) yi zi = []
      ∧ (∀ x, x < sx → sx ≤ x + 1 →
          fill_partial_stencil_fn labels sx sy sz (uadd x 1) yi zi = [])
      ∧ (∀ x, x < sx → sx ≤ x + 2 →
          fill_partial_stencil_fn labels sx sy sz (uadd x 2) yi zi = []) := by
  refine ⟨fun xi hx => fill_eq_nonzero_at labels hsy hsz hx hy hz,
    fun xi hx => fill_out_of_range labels sx sy sz xi yi zi hx, ?_, ?_, ?_⟩
  · rw [usub_zero_one]
    exact fill_out_of_range labels sx sy sz _ yi zi (by omega)
  · intro x hx h1
    rw [uadd_of_lt (by omega)]
    exact fill_out_of_range labels sx sy sz _ yi zi h1
  · intro x hx h2
    rw [uadd_of_lt (by omega)]
    exact fill_out_of_range labels sx sy sz _ yi zi h2

/-- Instance of `fill_partial_stencil_fn_spec` at the centre row of the 5x5x5
volume of scenario S1. -/
theorem fill_partial_stencil_fn_spec_witness :
    (5 < 2 ^ 63 ∧ 2 < 5)
      ∧ ((∀ xi, xi < 5 →
          fill_partial_stencil_fn volume_dot 5 5 5 xi 2 2
            = nonzero_at volume_dot 5 5
                ([(xi, 2, 2)]
                  ++ (if 2 > 0 then [(xi, 2 - 1, 2)] else [])
                  ++ (if 2 + 1 < 5 then [(xi, 2 + 1, 2)] else [])
                  ++ (if 2 > 0 then [(xi, 2, 2 - 1)] else [])
                  ++ (if 2 + 1 < 5 then [(xi, 2, 2 + 1)] else [])
                  ++ (if 2 > 0 ∧ 2 > 0 then [(xi, 2 - 1, 2 - 1)] else [])
                  ++ (if 2 + 1 < 5 ∧ 2 > 0 then [(xi, 2 + 1, 2 - 1)] else [])
                  ++ (if 2 > 0 ∧ 2 + 1 < 5 then [(xi, 2 - 1, 2 + 1)] else [])
                  ++ (if 2 + 1 < 5 ∧ 2 + 1 < 5 then [(xi, 2 + 1, 2 + 1)] else [])))
        ∧ (∀ xi, 5 ≤ xi → fill_partial_stencil_fn volume_dot 5 5 5 xi 2 2 = [])
        ∧ fill_partial_stencil_fn volume_dot 5 5 5 (usub 0 1) 2 2 = []
        ∧ (∀ x, x < 5 → 5 ≤ x + 1 →
            fill_partial_stencil_fn volume_dot 5 5 5 (uadd x 1) 2 2 = [])
        ∧ (∀ x, x < 5 → 5 ≤ x + 2 →
            fill_partial_stencil_fn volume_dot 5 5 5 (uadd x 2) 2 2 = [])) :=
  ⟨⟨by norm_num, by decide⟩,
    fill_partial_stencil_fn_spec volume_dot 5 5 5 2 2 (by norm_num) (by norm_num)
      (by norm_num) (by decide) (by decide)⟩

/-! ## Coverage of an axis by the tile grid -/

/-- C18. For an axis of length `s >= 1` with `grid = max((s + 32) / 64, 1)`: a
coordinate lies in one of the ranges `[g*64, min((g+1)*64, s))`, `g < grid`,
exactly when it is below `min(s, 64*grid)`; the ranges cover the whole axis
`[0, s)` if and only if `s <= 64` or `s mod 64 = 0` or `s mod 64 >= 32`; and for
every other `s` the coordinates in `[64*grid, s)`, which exist, belong to no
range. -/
theorem axis_coverage (s : Nat) (hs : 1 ≤ s) :
    (∀ v, (∃ g < grid s, in_axis_tile s g v) ↔ v < min s (block_size * grid s))
      ∧ ((∀ v < s, ∃ g < grid s, in_axis_tile s g v)
          ↔ (s ≤ 64 ∨ s % 64 = 0 ∨ s % 64 ≥ 32))
      ∧ (¬ (s ≤ 64 ∨ s % 64 = 0 ∨ s % 64 ≥ 32) →
          block_size * grid s < s
            ∧ ∀ v, block_size * grid s ≤ v → v < s → ¬ ∃ g < grid s, in_axis_tile s g v) := by
  have h1 : ∀ v, (∃ g < grid s, in_axis_tile s g v) ↔ v < min s (block_size * grid s) := by
    intro v
    unfold in_axis_tile grid block_size
    constructor
    · rintro ⟨g, hg, a, b⟩
      omega
    · intro h
      refine ⟨v / 64, ?_, ?_, ?_⟩ <;> omega
  refine ⟨h1, ?_, ?_⟩
  · constructor
    · intro hall
      have := (h1 (s - 1)).1 (hall (s - 1) (by omega))
      unfold grid block_size at this
      omega
    · intro hc v hv
      apply (h1 v).2
      unfold grid block_size
      omega
  · intro hc
    refine ⟨by unfold grid block_size; omega, ?_⟩
    intro v hv hvs hex
    have := (h1 v).1 hex
    omega

/-- Instance of `axis_coverage` for the axis length 65, whose last coordinate
belongs to no range. -/
theorem axis_coverage_witness :
    1 ≤ 65
      ∧ ((∀ v, (∃ g < grid 65, in_axis_tile 65 g v) ↔ v < min 65 (block_size * grid 65))
        ∧ ((∀ v < 65, ∃ g < grid 65, in_axis_tile 65 g v)
            ↔ (65 ≤ 64 ∨ 65 % 64 = 0 ∨ 65 % 64 ≥ 32))
        ∧ (¬ (65 ≤ 64 ∨ 65 % 64 = 0 ∨ 65 % 64 ≥ 32) →
            block_size * grid 65 < 65
              ∧ ∀ v, block_size * grid 65 ≤ v → v < 65 →
                  ¬ ∃ g < grid 65, in_axis_tile 65 g v)) :=
  ⟨by decide, axis_coverage 65 (by decide)⟩

/-- The ranges of `in_axis_tile` are the extents of the enqueued tiles. -/
theorem tile_contains_iff (sx sy sz gx gy gz x y z : Nat) :
    (tile sx sy sz gx gy gz).contains x y z
      ↔ in_axis_tile sx gx x ∧ in_axis_tile sy gy y ∧ in_axis_tile sz gz z := by
  unfold Box.contains tile in_axis_tile
  simp only [gt_iff_lt]
  constructor
  · rintro ⟨a, b, c, d, e, f⟩; exact ⟨⟨a, b⟩, ⟨c, d⟩, e, f⟩
  · rintro ⟨⟨a, b⟩, ⟨c, d⟩, e, f⟩; exact ⟨a, b, c, d, e, f⟩

/-! ## The mode selection of dilation -/

/-- The index-based scan reads the list from position `i` on, whatever fuel at
least `size - i` it is given. -/
theorem mode_scan_eq_scan_tail (nb : List Nat) :
    ∀ (fuel i mode_label ct max_ct : Nat), 1 ≤ i → i ≤ nb.length → nb.length - i ≤ fuel →
      mode_scan nb nb.length fuel i mode_label ct max_ct
        = scan_tail (nb.drop i) (nb.getD (i - 1) 0) mode_label ct max_ct := by
  intro fuel
  induction fuel with
  | zero =>
    intro i mode_label ct max_ct h1 h2 h3
    have : nb.drop i = [] := List.drop_eq_nil_of_le (by omega)
    rw [this]; rfl
  | succ fuel ih =>
    intro i mode_label ct max_ct h1 h2 h3
    unfold mode_scan
    by_cases hi : i < nb.length
    · rw [if_pos hi]
      have hd : nb.drop i = nb.getD i 0 :: nb.drop (i + 1) := by
        rw [List.getD_eq_getElem nb 0 hi]
        exact List.drop_eq_getElem_cons hi
      have hlen : (nb.getD i 0 :: nb.drop (i + 1)).length = nb.length - i := by
        rw [← hd, List.length_drop]
      rw [hd]
      unfold scan_tail
      rw [hlen]
      have e1 : i + 1 - 1 = i := by omega
      by_cases hne : nb.getD i 0 ≠ nb.getD (i - 1) 0
      · rw [if_pos hne, if_pos hne]
        simp only
        by_cases hb : nb.length - i < (if ct > max_ct then ct else max_ct)
        · rw [if_pos hb, if_pos hb]
        · rw [if_neg hb, if_neg hb, ih _ _ _ _ (by omega) (by omega) (by omega), e1]
      · rw [if_neg hne, if_neg hne, ih _ _ _ _ (by omega) (by omega) (by omega), e1]
    · rw [if_neg hi]
      have : nb.drop i = [] := List.drop_eq_nil_of_le (by omega)
      rw [this]; rfl

theorem count_snoc_self (P : List Nat) (a : Nat) : (P ++ [a]).count a = P.count a + 1 := by
  simp [List.count_append]

theorem count_snoc_ne (P : List Nat) {a v : Nat} (h : v ≠ a) :
    (P ++ [a]).count v = P.count v := by
  rw [List.count_append, List.count_cons, List.count_nil]
  have : (a == v) = false := by
    rw [beq_eq_false_iff_ne]; exact fun he => h he.symm
  simp [this]

theorem count_eq_zero_of_lt_all (l : List Nat) {a v : Nat} (h : ∀ b ∈ l, a ≤ b) (hv : v < a) :
    l.count v = 0 :=
  List.count_eq_zero_of_not_mem (fun hm => by have := h v hm; omega)

theorem count_eq_zero_of_gt_all (l : List Nat) {a v : Nat} (h : ∀ b ∈ l, b ≤ a) (hv : a < v) :
    l.count v = 0 :=
  List.count_eq_zero_of_not_mem (fun hm => by have := h v hm; omega)

/-- The run scan on a sorted remainder `l`, entered after the prefix `P` whose
last run (of `prev`) has length `ct` and whose completed runs have `mode_label`
as smallest label of greatest length `max_ct`: after the final correction the
chosen label is the mode of `P ++ l`, and the final `ct` does not exceed the
number of its occurrences. -/
theorem scan_tail_spec :
    ∀ (l P : List Nat) (prev mode_label ct max_ct : Nat),
      l.Pairwise (fun a b => a ≤ b) → (∀ a ∈ l, prev ≤ a) → (∀ v ∈ P, v ≤ prev) →
      ct = P.count prev → 1 ≤ ct → 1 ≤ max_ct →
      (∀ v, v < prev → P.count v ≤ max_ct ∧ (P.count v = max_ct → mode_label ≤ v)) →
      ((mode_label < prev ∧ P.count mode_label = max_ct) ∨ (mode_label = prev ∧ max_ct = 1)) →
      is_mode (P ++ l)
          (if (scan_tail l prev mode_label ct max_ct).2.1
              > (scan_tail l prev mode_label ct max_ct).2.2
            then (prev :: l).getLast (List.cons_ne_nil prev l)
            else (scan_tail l prev mode_label ct max_ct).1)
        ∧ (scan_tail l prev mode_label ct max_ct).2.1
            ≤ (P ++ l).count
                (if (scan_tail l prev mode_label ct max_ct).2.1
                    > (scan_tail l prev mode_label ct max_ct).2.2
                  then (prev :: l).getLast (List.cons_ne_nil prev l)
                  else (scan_tail l prev mode_label ct max_ct).1) := by
  intro l
  induction l with
  | nil =>
    intro P prev mode_label ct max_ct _ _ h1 h2 hct hmax h4 h5
    have hprev : prev ∈ P := List.count_pos_iff.1 (by omega)
    simp only [scan_tail, List.append_nil, List.getLast_singleton]
    by_cases hgt : ct > max_ct
    · rw [if_pos hgt]
      refine ⟨⟨hprev, ?_⟩, by omega⟩
      intro v hv
      have hle := h1 v hv
      by_cases hvp : v = prev
      · subst hvp; exact ⟨le_refl _, fun _ => le_refl _⟩
      · have := h4 v (by omega)
        exact ⟨by omega, fun he => by omega⟩
    · rw [if_neg hgt]
      rcases h5 with ⟨hm, hc⟩ | ⟨hm, hc⟩
      · have hmode : mode_label ∈ P := List.count_pos_iff.1 (by omega)
        refine ⟨⟨hmode, ?_⟩, by omega⟩
        intro v hv
        have hle := h1 v hv
        by_cases hvp : v = prev
        · subst hvp; exact ⟨by omega, fun _ => by omega⟩
        · have := h4 v (by omega)
          exact ⟨by omega, fun he => this.2 (by omega)⟩
      · subst hm
        refine ⟨⟨hprev, ?_⟩, by omega⟩
        intro v hv
        have hle := h1 v hv
        by_cases hvp : v = mode_label
        · subst hvp; exact ⟨le_refl _, fun _ => le_refl _⟩
        · have := h4 v (by omega)
          have hpos : 0 < P.count v := List.count_pos_iff.2 hv
          have := this.2 (by omega)
          omega
  | cons a t ih =>
    intro P prev mode_label ct max_ct hs hge h1 h2 hct hmax h4 h5
    have hat : ∀ b ∈ t, a ≤ b := (List.pairwise_cons.1 hs).1
    have hst : t.Pairwise (fun a b => a ≤ b) := (List.pairwise_cons.1 hs).2
    have hpa : prev ≤ a := hge a (List.mem_cons_self a t)
    have hW : P ++ a :: t = (P ++ [a]) ++ t := by simp
    have hlast : (prev :: a :: t).getLast (List.cons_ne_nil prev (a :: t))
        = (a :: t).getLast (List.cons_ne_nil a t) := List.getLast_cons_cons _ _ _
    have h1' : ∀ v ∈ P ++ [a], v ≤ a := by
      intro v hv
      rcases List.mem_append.1 hv with h | h
      · have := h1 v h; omega
      · simp only [List.mem_singleton] at h; omega
    unfold scan_tail
    by_cases hne : a ≠ prev
    swap
    · have hap : a = prev := not_not.1 hne
      subst hap
      rw [if_neg hne, hW, hlast]
      refine ih (P ++ [a]) a mode_label (ct + 1) max_ct hst hat h1' ?_ (by omega) hmax ?_ ?_
      · rw [count_snoc_self, h2]
      · intro v hv
        rw [count_snoc_ne P (by omega)]
        exact h4 v hv
      · rcases h5 with ⟨hm, hc⟩ | ⟨hm, hc⟩
        · exact Or.inl ⟨hm, by rw [count_snoc_ne P (by omega)]; exact hc⟩
        · exact Or.inr ⟨hm, hc⟩
    rw [if_pos hne]
    have hlt : prev < a := by omega
    have hcta : (P ++ [a]).count a = 1 := by
      rw [count_snoc_self, count_eq_zero_of_gt_all P h1 hlt]
    simp only
    -- the state after the run boundary
    have hmax' : 1 ≤ (if ct > max_ct then ct else max_ct) := by split <;> omega
    have h4' : ∀ v, v < a →
        (P ++ [a]).count v ≤ (if ct > max_ct then ct else max_ct)
          ∧ ((P ++ [a]).count v = (if ct > max_ct then ct else max_ct) →
              (if ct > max_ct then prev else mode_label) ≤ v) := by
      intro v hv
      rw [count_snoc_ne P (by omega)]
      by_cases hvp : v < prev
      · have := h4 v hvp
        split
        · exact ⟨by omega, fun he => by omega⟩
        · exact ⟨this.1, this.2⟩
      · by_cases hvp' : v = prev
        · subst hvp'
          split
          · exact ⟨by omega, fun _ => le_refl _⟩
          · refine ⟨by omega, fun _ => ?_⟩
            rcases h5 with ⟨hm, -⟩ | ⟨hm, -⟩ <;> omega
        · have hz : P.count v = 0 := count_eq_zero_of_gt_all P h1 (by omega)
          rw [hz]
          exact ⟨Nat.zero_le _, fun he => by omega⟩
    have h5' : (if ct > max_ct then prev else mode_label) < a
        ∧ (P ++ [a]).count (if ct > max_ct then prev else mode_label)
            = (if ct > max_ct then ct else max_ct) := by
      by_cases hgt : ct > max_ct
      · rw [if_pos hgt, if_pos hgt]
        exact ⟨hlt, by rw [count_snoc_ne P (by omega), ← h2]⟩
      · rw [if_neg hgt, if_neg hgt]
        rcases h5 with ⟨hm, hc⟩ | ⟨hm, hc⟩
        · exact ⟨by omega, by rw [count_snoc_ne P (by omega)]; exact hc⟩
        · subst hm
          exact ⟨hlt, by rw [count_snoc_ne P (by omega)]; omega⟩
    by_cases hb : (a :: t).length < (if ct > max_ct then ct else max_ct)
    · rw [if_pos hb]
      simp only
      rw [if_neg (by omega), hW]
      generalize (if ct > max_ct then prev else mode_label) = m' at h4' h5' ⊢
      generalize (if ct > max_ct then ct else max_ct) = c' at h4' h5' hmax' hb ⊢
      have hmt : t.count m' = 0 := count_eq_zero_of_lt_all t hat h5'.1
      have hcm : ((P ++ [a]) ++ t).count m' = c' := by
        rw [List.count_append, hmt, h5'.2]; rfl
      have hmem : m' ∈ (P ++ [a]) ++ t := List.count_pos_iff.1 (by omega)
      refine ⟨⟨hmem, ?_⟩, by omega⟩
      intro v hv
      rw [hcm]
      by_cases hva : v < a
      · have hvt : t.count v = 0 := count_eq_zero_of_lt_all t hat hva
        have := h4' v hva
        rw [List.count_append, hvt]
        exact ⟨this.1, this.2⟩
      · have hvP : (P ++ [a]).count v ≤ 1 := by
          by_cases hva' : v = a
          · subst hva'; omega
          · rw [count_eq_zero_of_gt_all (P ++ [a]) h1' (by omega)]; omega
        have hvt : t.count v ≤ t.length := List.count_le_length _ _
        rw [List.count_append]
        simp only [List.length_cons] at hb
        exact ⟨by omega, fun he => by omega⟩
    · rw [if_neg hb, hW, hlast]
      exact ih (P ++ [a]) a _ 1 _ hst hat h1' hcta.symm (le_refl 1) hmax' h4' (Or.inl h5')

theorem sort_perm (N : List Nat) : (sort N).Perm N :=
  List.perm_insertionSort _ N

theorem sort_pairwise (N : List Nat) : (sort N).Pairwise (fun a b => a ≤ b) :=
  List.sorted_insertionSort (fun a b : Nat => a ≤ b) N

theorem is_mode_of_perm {N N' : List Nat} (h : N.Perm N') {m : Nat} (hm : is_mode N m) :
    is_mode N' m := by
  obtain ⟨h1, h2⟩ := hm
  refine ⟨h.subset h1, fun v hv => ?_⟩
  have := h2 v (h.symm.subset hv)
  rw [← h.count_eq v, ← h.count_eq m]
  exact this

/-- The vote of lines 169-191 on a sorted non-empty list: the label chosen is the
mode of the list, and the final `ct` is at least 1 and at most the number of
occurrences of the chosen label. -/
theorem vote_sorted (nb : List Nat) (hne : nb ≠ []) (hs : nb.Pairwise (fun a b => a ≤ b)) :
    is_mode nb (vote nb).1 ∧ (vote nb).2 ≤ nb.count (vote nb).1 := by
  obtain ⟨h, t, rfl⟩ := List.exists_cons_of_ne_nil hne
  have hscan := mode_scan_eq_scan_tail (h :: t) (h :: t).length 1 h 1 1 (le_refl 1)
    (by simp) (by simp)
  have hspec := scan_tail_spec t [h] h h 1 1 (List.pairwise_cons.1 hs).2
    (List.pairwise_cons.1 hs).1 (by simp) (by simp) (le_refl 1) (le_refl 1)
    (fun v hv => by
      have : List.count v [h] = 0 :=
        List.count_eq_zero_of_not_mem (by simp only [List.mem_singleton]; omega)
      rw [this]; exact ⟨Nat.zero_le _, fun he => by omega⟩)
    (Or.inr ⟨rfl, rfl⟩)
  have hlast : (h :: t).getD ((h :: t).length - 1) 0
      = (h :: t).getLast (List.cons_ne_nil h t) := by
    rw [List.getLast_eq_getElem, List.getD_eq_getElem]
  simp only [List.drop_one, List.tail_cons, Nat.sub_self, List.getD_cons_zero] at hscan
  unfold vote
  simp only [List.getD_cons_zero, hlast, hscan]
  exact hspec

/-- C13. The mode selection of dilation (sort ascending, scan runs, update on a
strictly longer run only, stop when fewer elements remain than the best run)
returns, for every non-empty list of labels, a label of maximal multiplicity in
the list, and the numerically smallest such label when several tie. -/
theorem vote_is_mode (N : List Nat) (hne : N ≠ []) :
    (vote (sort N)).1 ∈ N
      ∧ ∀ v ∈ N, N.count v ≤ N.count (vote (sort N)).1
          ∧ (N.count v = N.count (vote (sort N)).1 → (vote (sort N)).1 ≤ v) := by
  have hne' : sort N ≠ [] := fun h => hne (by
    have := (sort_perm N).length_eq
    rw [h] at this
    exact List.eq_nil_of_length_eq_zero this.symm)
  exact is_mode_of_perm (sort_perm N) (vote_sorted (sort N) hne' (sort_pairwise N)).1

set_option maxRecDepth 100000 in
/-- Instance of `vote_is_mode` on 13 twos and 13 threes, with the three
evaluations of the tie-break scenario: 14 twos and 13 threes give 2, 13 twos
and 14 threes give 3, 13 twos and 13 threes give 2. -/
theorem vote_is_mode_witness :
    (List.replicate 13 2 ++ List.replicate 13 3 ≠ []
        ∧ (vote (sort (List.replicate 14 2 ++ List.replicate 13 3))).1 = 2
        ∧ (vote (sort (List.replicate 13 2 ++ List.replicate 14 3))).1 = 3
        ∧ (vote (sort (List.replicate 13 2 ++ List.replicate 13 3))).1 = 2)
      ∧ ((vote (sort (List.replicate 13 2 ++ List.replicate 13 3))).1
            ∈ List.replicate 13 2 ++ List.replicate 13 3
        ∧ ∀ v ∈ List.replicate 13 2 ++ List.replicate 13 3,
            (List.replicate 13 2 ++ List.replicate 13 3).count v
                ≤ (List.replicate 13 2 ++ List.replicate 13 3).count
                    (vote (sort (List.replicate 13 2 ++ List.replicate 13 3))).1
              ∧ ((List.replicate 13 2 ++ List.replicate 13 3).count v
                  = (List.replicate 13 2 ++ List.replicate 13 3).count
                      (vote (sort (List.replicate 13 2 ++ List.replicate 13 3))).1 →
                (vote (sort (List.replicate 13 2 ++ List.replicate 13 3))).1 ≤ v)) :=
  ⟨⟨by decide, by decide, by decide, by decide⟩,
    vote_is_mode (List.replicate 13 2 ++ List.replicate 13 3) (by decide)⟩

/-- The mode of a list is its plurality label in the sense of the
specification. -/
theorem plurality_eq_of_is_mode {N : List Nat} {m : Nat} (h : is_mode N m) :
    plurality N = m := by
  obtain ⟨hm, hall⟩ := h
  unfold plurality
  have : (N.filter fun a => N.all fun b => decide (N.count b ≤ N.count a)).min? = some m := by
    rw [List.min?_eq_some_iff']
    constructor
    · rw [List.mem_filter]
      refine ⟨hm, ?_⟩
      rw [List.all_eq_true]
      intro b hb
      exact decide_eq_true (hall b hb).1
    · intro a ha
      obtain ⟨haN, hc⟩ := List.mem_filter.1 ha
      rw [List.all_eq_true] at hc
      have h1 := of_decide_eq_true (hc m hm)
      have h2 := hall a haN
      exact h2.2 (by omega)
  rw [this]; rfl

/-! ## The staleness invariant of the dilation kernel -/

theorem dilate_row_heads_inv (labels : Nat → Nat) {sx sy sz xe y z : Nat}
    (background_only : Bool) (hsx : sx < 2 ^ 63) (hxe : xe ≤ sx) :
    ∀ (fuel x : Nat) (st : DState), dilate_inv labels sx sy sz x y z st →
      ∀ p ∈ dilate_row_heads labels sx sy sz background_only xe y z fuel x st,
        p.1 < xe ∧ dilate_inv labels sx sy sz p.1 y z p.2 := by
  intro fuel
  induction fuel with
  | zero =>
    intro x st _ p hp
    cases hp
  | succ fuel ih =>
    intro x st hinv p hp
    unfold dilate_row_heads at hp
    by_cases hx : x < xe
    · rw [if_pos hx] at hp
      rcases List.mem_cons.1 hp with rfl | hp'
      · exact ⟨hx, hinv⟩
      · exact ih _ _
          (dilate_body_refines labels background_only hsx (show x < sx by omega) st hinv).2.2
          p hp'
    · rw [if_neg hx] at hp
      cases hp

/-- C14. Staleness invariant of the dilation kernel: in every row of every box
with `xe <= sx`, whatever the state the row is entered with, at every loop head
at which the kernel goes on to the vote (no pass-through), the lists `left`,
`middle` and `right` after the staleness dispatch are the columns extracted from
scratch at `x-1`, `x` and `x+1`; and the kernel with the incremental update
computes the same output buffer as the kernel that recomputes all three columns
at every voxel. -/
theorem dilate_cache_is_fresh (labels : Nat → Nat) (sx sy sz : Nat) (background_only : Bool)
    (hsx : sx < 2 ^ 63) (b : Box) (hxe : b.xe ≤ sx) :
    (∀ (y z fuel : Nat) (st0 : DState),
      ∀ p ∈ dilate_row_heads labels sx sy sz background_only b.xe y z fuel b.xs
          { st0 with stale_stencil := 3 },
        ¬ (background_only = true ∧ labels (idx sx sy p.1 y z) ≠ 0) →
          (refresh_stencil labels sx sy sz p.1 y z p.2).left
              = fill_partial_stencil_fn labels sx sy sz (usub p.1 1) y z
            ∧ (refresh_stencil labels sx sy sz p.1 y z p.2).middle
              = fill_partial_stencil_fn labels sx sy sz p.1 y z
            ∧ (refresh_stencil labels sx sy sz p.1 y z p.2).right
              = fill_partial_stencil_fn labels sx sy sz (uadd p.1 1) y z)
      ∧ ∀ out : Nat → Nat,
          dilate_process_block labels sx sy sz background_only b out
            = dilate_block_ref labels sx sy sz background_only b out := by
  refine ⟨?_, fun out => dilate_process_block_eq_ref labels background_only hsx b hxe out⟩
  intro y z fuel st0 p hp _
  obtain ⟨hlt, hinv⟩ := dilate_row_heads_inv labels background_only hsx hxe fuel b.xs
    { st0 with stale_stencil := 3 } ⟨by simp, by simp, by simp⟩ p hp
  obtain ⟨a, b', c, -, -⟩ := refresh_stencil_fresh labels hsx (show p.1 < sx by omega) p.2 hinv
  exact ⟨a, b', c⟩

set_option maxRecDepth 100000 in
/-- Instance of `dilate_cache_is_fresh` on the 4x3x3 volume `volume_two_planes`,
whose row `(1, 1)` has the loop heads `x = 0, 1, 3` with staleness 3, 1 and 2. -/
theorem dilate_cache_is_fresh_witness :
    (4 < 2 ^ 63 ∧ (tile 4 3 3 0 0 0).xe ≤ 4
        ∧ (dilate_row_heads volume_two_planes 4 3 3 false 4 1 1 4 0 dilate_row_start).map
            (fun p => (p.1, p.2.stale_stencil)) = [(0, 3), (1, 1), (3, 2)])
      ∧ ((∀ (y z fuel : Nat) (st0 : DState),
          ∀ p ∈ dilate_row_heads volume_two_planes 4 3 3 false (tile 4 3 3 0 0 0).xe y z fuel
              (tile 4 3 3 0 0 0).xs { st0 with stale_stencil := 3 },
            ¬ (false = true ∧ volume_two_planes (idx 4 3 p.1 y z) ≠ 0) →
              (refresh_stencil volume_two_planes 4 3 3 p.1 y z p.2).left
                  = fill_partial_stencil_fn volume_two_planes 4 3 3 (usub p.1 1) y z
                ∧ (refresh_stencil volume_two_planes 4 3 3 p.1 y z p.2).middle
                  = fill_partial_stencil_fn volume_two_planes 4 3 3 p.1 y z
                ∧ (refresh_stencil volume_two_planes 4 3 3 p.1 y z p.2).right
                  = fill_partial_stencil_fn volume_two_planes 4 3 3 (uadd p.1 1) y z)
        ∧ ∀ out : Nat → Nat,
            dilate_process_block volume_two_planes 4 3 3 false (tile 4 3 3 0 0 0) out
              = dilate_block_ref volume_two_planes 4 3 3 false (tile 4 3 3 0 0 0) out) :=
  ⟨⟨by norm_num, by decide, by decide⟩,
    dilate_cache_is_fresh volume_two_planes 4 3 3 false (by norm_num) (tile 4 3 3 0 0 0)
      (by decide)⟩

/-! ## The window of the specification and the window of the kernel -/

theorem nonzero_at_flatMap {κ : Type} (labels : Nat → Nat) (sx sy : Nat)
    (f : κ → List (Nat × Nat × Nat)) (l : List κ) :
    nonzero_at labels sx sy (l.flatMap f) = l.flatMap fun a => nonzero_at labels sx sy (f a) := by
  induction l with
  | nil => rfl
  | cons a l ih => rw [List.flatMap_cons, List.flatMap_cons, nonzero_at_append, ih]

theorem filterMap_ite_eq_flatMap {κ α : Type} (c : κ → Prop) [DecidablePred c] (v : κ → α)
    (l : List κ) :
    (l.filterMap fun d => if c d then some (v d) else none)
      = l.flatMap fun d => if c d then [v d] else [] := by
  induction l with
  | nil => rfl
  | cons a l ih =>
    rw [List.filterMap_cons, List.flatMap_cons, ih]
    by_cases h : c a <;> simp [h]

theorem window_labels_eq (labels : Nat → Nat) (sx sy sz x y z : Nat) :
    window_labels labels sx sy sz x y z
      = nonzero_at labels sx sy (spec_positions sx sy sz x y z) := by
  unfold window_labels spec_positions
  simp only [nonzero_at_flatMap, nonzero_at_ite, filterMap_ite_eq_flatMap, and_assoc]

theorem mem_spec_positions {sx sy sz x y z : Nat} (q : Nat × Nat × Nat) :
    q ∈ spec_positions sx sy sz x y z ↔
      q.1 < sx ∧ q.2.1 < sy ∧ q.2.2 < sz ∧ q.1 ≤ x + 1 ∧ x ≤ q.1 + 1
        ∧ q.2.1 ≤ y + 1 ∧ y ≤ q.2.1 + 1 ∧ q.2.2 ≤ z + 1 ∧ z ≤ q.2.2 + 1 := by
  obtain ⟨a, b, c⟩ := q
  unfold spec_positions
  simp only [List.mem_flatMap, List.mem_range, List.mem_ite_nil_right, List.mem_singleton,
    Prod.mk.injEq]
  constructor
  · rintro ⟨dz, hdz, dy, hdy, dx, hdx, hin, rfl, rfl, rfl⟩
    omega
  · intro h
    exact ⟨c + 1 - z, by omega, b + 1 - y, by omega, a + 1 - x, by omega, by omega, by omega,
      by omega, by omega⟩

theorem nodup_flatMap_range {α : Type} (n : Nat) (f : Nat → List α) (key : α → Nat)
    (hk : ∀ d, ∀ a ∈ f d, key a = d) (hn : ∀ d, (f d).Nodup) :
    ((List.range n).flatMap f).Nodup := by
  rw [List.nodup_flatMap]
  refine ⟨fun d _ => hn d, ?_⟩
  have hr : (List.range n).Pairwise (fun a b => a ≠ b) := List.nodup_range n
  refine hr.imp ?_
  intro d d' hne a ha ha'
  exact hne ((hk d a ha).symm.trans (hk d' a ha'))

theorem nodup_spec_positions (sx sy sz x y z : Nat) :
    (spec_positions sx sy sz x y z).Nodup := by
  unfold spec_positions
  apply nodup_flatMap_range 3 _ (fun q => q.2.2 + 1 - z)
  · intro dz q hq
    simp only [List.mem_flatMap, List.mem_range, List.mem_ite_nil_right, List.mem_singleton] at hq
    obtain ⟨dy, -, dx, -, hin, rfl⟩ := hq
    simp only
    omega
  · intro dz
    apply nodup_flatMap_range 3 _ (fun q => q.2.1 + 1 - y)
    · intro dy q hq
      simp only [List.mem_flatMap, List.mem_range, List.mem_ite_nil_right,
        List.mem_singleton] at hq
      obtain ⟨dx, -, hin, rfl⟩ := hq
      simp only
      omega
    · intro dy
      apply nodup_flatMap_range 3 _ (fun q => q.1 + 1 - x)
      · intro dx q hq
        simp only [List.mem_ite_nil_right, List.mem_singleton] at hq
        obtain ⟨hin, rfl⟩ := hq
        simp only
        omega
      · intro dx
        split
        · exact List.nodup_singleton _
        · exact List.nodup_nil

theorem nonzero_at_perm (labels : Nat → Nat) (sx sy : Nat) {p q : List (Nat × Nat × Nat)}
    (h : p.Perm q) : (nonzero_at labels sx sy p).Perm (nonzero_at labels sx sy q) := by
  unfold nonzero_at
  exact (h.map _).filter _

/-- The list the kernel votes on is a permutation of the non-zero in-bounds labels
of the 3x3x3 window as the specification lists them. -/
theorem window_labels_perm (labels : Nat → Nat) {sx sy sz x y z : Nat}
    (hsx : sx < 2 ^ 63) (hsy : sy < 2 ^ 63) (hsz : sz < 2 ^ 63)
    (hx : x < sx) (hy : y < sy) (hz : z < sz) :
    (window_labels labels sx sy sz x y z).Perm (kernel_window labels sx sy sz x y z) := by
  rw [window_labels_eq, kernel_window_eq labels hsx hsy hsz hx hy hz]
  apply nonzero_at_perm
  rw [List.perm_ext_iff_of_nodup (nodup_spec_positions sx sy sz x y z)
    (nodup_window_positions sx sy sz x y z)]
  intro q
  rw [mem_spec_positions, mem_window_positions hx hy hz]

/-! ## The first two-voxel fast path -/

theorem column_positions_length_le (sy sz xi yi zi : Nat) :
    (column_positions sy sz xi yi zi).length ≤ 9 := by
  by_cases h : 0 < yi ∧ yi + 1 < sy ∧ 0 < zi ∧ zi + 1 < sz
  · rw [column_positions_interior xi h.1 h.2.1 h.2.2.1 h.2.2.2]
    simp
  · exact Nat.le_of_lt (column_positions_length_lt xi h)

/-- A column holds at most nine labels. -/
theorem fill_length_le (labels : Nat → Nat) {sx sy sz yi zi : Nat} (xi : Nat)
    (hsy : sy < 2 ^ 63) (hsz : sz < 2 ^ 63) (hy : yi < sy) (hz : zi < sz) :
    (fill_partial_stencil_fn labels sx sy sz xi yi zi).length ≤ 9 := by
  by_cases hx : xi < sx
  · rw [fill_eq_nonzero_at labels hsy hsz hx hy hz]
    exact (nonzero_at_length_le labels sx sy _).trans (column_positions_length_le sy sz xi yi zi)
  · rw [fill_out_of_range labels sx sy sz xi yi zi (by omega)]
    simp

theorem mem_nonzero_at (labels : Nat → Nat) (sx sy : Nat) (ps : List (Nat × Nat × Nat))
    (v : Nat) :
    v ∈ nonzero_at labels sx sy ps ↔
      v ≠ 0 ∧ ∃ p ∈ ps, labels (idx sx sy p.1 p.2.1 p.2.2) = v := by
  unfold nonzero_at
  simp only [List.mem_filter, List.mem_map, decide_eq_true_eq]
  constructor
  · rintro ⟨⟨p, hp, rfl⟩, hv⟩; exact ⟨hv, p, hp, rfl⟩
  · rintro ⟨hv, p, hp, rfl⟩; exact ⟨⟨p, hp, rfl⟩, hv⟩

theorem center_mem_fill (labels : Nat → Nat) {sx sy sz xi yi zi : Nat}
    (hsy : sy < 2 ^ 63) (hsz : sz < 2 ^ 63) (hx : xi < sx) (hy : yi < sy) (hz : zi < sz)
    (hnz : labels (idx sx sy xi yi zi) ≠ 0) :
    labels (idx sx sy xi yi zi) ∈ fill_partial_stencil_fn labels sx sy sz xi yi zi := by
  rw [fill_eq_nonzero_at labels hsy hsz hx hy hz, mem_nonzero_at]
  refine ⟨hnz, (xi, yi, zi), ?_, rfl⟩
  rw [mem_column_positions hy hz]
  exact ⟨rfl, hy, hz, Nat.le_succ _, Nat.le_succ _, Nat.le_succ _, Nat.le_succ _⟩

theorem kernel_window_succ (labels : Nat → Nat) {sx sy sz x : Nat} (y z : Nat)
    (hsx : sx < 2 ^ 63) (hx : x + 1 < sx) :
    kernel_window labels sx sy sz x y z
        = fill_partial_stencil_fn labels sx sy sz (usub x 1) y z
          ++ fill_partial_stencil_fn labels sx sy sz x y z
          ++ fill_partial_stencil_fn labels sx sy sz (x + 1) y z
      ∧ kernel_window labels sx sy sz (x + 1) y z
        = fill_partial_stencil_fn labels sx sy sz x y z
          ++ fill_partial_stencil_fn labels sx sy sz (x + 1) y z
          ++ fill_partial_stencil_fn labels sx sy sz (x + 2) y z := by
  unfold kernel_window
  have e1 : uadd x 1 = x + 1 := uadd_of_lt (by omega)
  have e2 : usub (x + 1) 1 = x := by
    rw [usub_one_of_pos (by omega) (by omega)]; omega
  have e3 : uadd (x + 1) 1 = x + 2 := uadd_of_lt (by omega)
  rw [e1, e2, e3]
  exact ⟨rfl, rfl⟩

theorem count_eq_length_of_all {l : List Nat} {L : Nat} (h : ∀ v ∈ l, v = L) :
    l.count L = l.length :=
  List.count_eq_length.2 (fun v hv => (h v hv).symm)

/-- The carry-over argument of the two-voxel fast paths on the kernel's window:
a label with at least 19 occurrences in the window of `x` has at least 10 in
the window of `x + 1`. -/
theorem kernel_window_carry (labels : Nat → Nat) {sx sy sz x y z : Nat}
    (hsx : sx < 2 ^ 63) (hsy : sy < 2 ^ 63) (hsz : sz < 2 ^ 63)
    (hx : x + 1 < sx) (hy : y < sy) (hz : z < sz) (L : Nat)
    (h19 : 19 ≤ (kernel_window labels sx sy sz x y z).count L) :
    10 ≤ (kernel_window labels sx sy sz (x + 1) y z).count L := by
  obtain ⟨e1, e2⟩ := kernel_window_succ labels y z hsx hx
  rw [e1] at h19
  rw [e2]
  simp only [List.count_append] at h19 ⊢
  have hA := (List.count_le_length L
    (fill_partial_stencil_fn labels sx sy sz (usub x 1) y z)).trans
    (fill_length_le labels (usub x 1) hsy hsz hy hz)
  omega

/-- The carry-over of a uniform window, on the windows of the specification: for
every voxel `(x, y, z)` with `x < sx - 1`, if the non-zero in-bounds labels of its
window number at least 19 and all equal `L`, then the window of `(x+1, y, z)`
holds at least 10 copies of `L`, every other label occurs there strictly less
often than `L`, and `input[x+1,y,z]` is 0 or `L`; so `L` is the plurality label
of both windows. -/
theorem uniform_window_carries (labels : Nat → Nat) (sx sy sz x y z L : Nat)
    (hsx : sx < 2 ^ 63) (hsy : sy < 2 ^ 63) (hsz : sz < 2 ^ 63)
    (hx : x + 1 < sx) (hy : y < sy) (hz : z < sz)
    (h19 : 19 ≤ (window_labels labels sx sy sz x y z).length)
    (hall : ∀ v ∈ window_labels labels sx sy sz x y z, v = L) :
    10 ≤ (window_labels labels sx sy sz (x + 1) y z).count L
      ∧ (∀ M, M ≠ L →
          (window_labels labels sx sy sz (x + 1) y z).count M
            < (window_labels labels sx sy sz (x + 1) y z).count L)
      ∧ (labels (idx sx sy (x + 1) y z) = 0 ∨ labels (idx sx sy (x + 1) y z) = L)
      ∧ plurality (window_labels labels sx sy sz x y z) = L
      ∧ plurality (window_labels labels sx sy sz (x + 1) y z) = L := by
  have p0 := window_labels_perm labels hsx hsy hsz (show x < sx by omega) hy hz
  have p1 := window_labels_perm labels hsx hsy hsz hx hy hz
  obtain ⟨e1, e2⟩ := kernel_window_succ labels y z hsx hx
  have hcount : (window_labels labels sx sy sz x y z).count L
      = (window_labels labels sx sy sz x y z).length := count_eq_length_of_all hall
  have hk19 : 19 ≤ (kernel_window labels sx sy sz x y z).count L := by
    rw [← p0.count_eq L, hcount]; exact h19
  have h10 : 10 ≤ (window_labels labels sx sy sz (x + 1) y z).count L := by
    rw [p1.count_eq L]
    exact kernel_window_carry labels hsx hsy hsz hx hy hz L hk19
  have hB : ∀ v ∈ fill_partial_stencil_fn labels sx sy sz x y z, v = L := fun v hv =>
    hall v (p0.symm.subset (by rw [e1]; simp [hv]))
  have hC : ∀ v ∈ fill_partial_stencil_fn labels sx sy sz (x + 1) y z, v = L := fun v hv =>
    hall v (p0.symm.subset (by rw [e1]; simp [hv]))
  have hlt : ∀ M, M ≠ L →
      (window_labels labels sx sy sz (x + 1) y z).count M
        < (window_labels labels sx sy sz (x + 1) y z).count L := by
    intro M hM
    have hMB : (fill_partial_stencil_fn labels sx sy sz x y z).count M = 0 :=
      List.count_eq_zero_of_not_mem (fun hm => hM (hB M hm))
    have hMC : (fill_partial_stencil_fn labels sx sy sz (x + 1) y z).count M = 0 :=
      List.count_eq_zero_of_not_mem (fun hm => hM (hC M hm))
    have hD := (List.count_le_length M
      (fill_partial_stencil_fn labels sx sy sz (x + 2) y z)).trans
      (fill_length_le labels (x + 2) hsy hsz hy hz)
    have : (window_labels labels sx sy sz (x + 1) y z).count M ≤ 9 := by
      rw [p1.count_eq M, e2]
      simp only [List.count_append, hMB, hMC]
      omega
    omega
  have hmode0 : is_mode (window_labels labels sx sy sz x y z) L := by
    have hmem : L ∈ window_labels labels sx sy sz x y z := List.count_pos_iff.1 (by omega)
    refine ⟨hmem, fun v hv => ?_⟩
    rw [hall v hv]
    exact ⟨le_refl _, fun _ => le_refl _⟩
  have hmode1 : is_mode (window_labels labels sx sy sz (x + 1) y z) L := by
    have hmem : L ∈ window_labels labels sx sy sz (x + 1) y z :=
      List.count_pos_iff.1 (by omega)
    refine ⟨hmem, fun v hv => ?_⟩
    by_cases hv' : v = L
    · rw [hv']; exact ⟨le_refl _, fun _ => le_refl _⟩
    · have := hlt v hv'
      exact ⟨by omega, fun he => by omega⟩
  refine ⟨h10, hlt, ?_, plurality_eq_of_is_mode hmode0, plurality_eq_of_is_mode hmode1⟩
  by_cases hnz : labels (idx sx sy (x + 1) y z) = 0
  · exact Or.inl hnz
  · exact Or.inr (hC _ (center_mem_fill labels hsy hsz hx hy hz hnz))

/-! ## Dilation keeps the support inside a tile -/

theorem sorted_le_getLast :
    ∀ (l : List Nat) (h : l ≠ []), l.Pairwise (fun a b => a ≤ b) → ∀ v ∈ l, v ≤ l.getLast h := by
  intro l
  induction l with
  | nil => intro h; exact absurd rfl h
  | cons a t ih =>
    intro h hs v hv
    cases t with
    | nil =>
      simp only [List.mem_singleton] at hv
      simp [hv]
    | cons b t' =>
      rw [List.getLast_cons_cons]
      have ht := ih (List.cons_ne_nil b t') (List.pairwise_cons.1 hs).2
      rcases List.mem_cons.1 hv with rfl | hv'
      · have h1 := (List.pairwise_cons.1 hs).1 b (List.mem_cons_self b t')
        have h2 := ht b (List.mem_cons_self b t')
        omega
      · exact ht v hv'

/-- A sorted list whose first and last elements agree is constant. -/
theorem sorted_all_eq (nb : List Nat) (hne : nb ≠ []) (hs : nb.Pairwise (fun a b => a ≤ b))
    (he : nb.getD 0 0 = nb.getD (nb.length - 1) 0) : ∀ v ∈ nb, v = nb.getD 0 0 := by
  obtain ⟨h, t, rfl⟩ := List.exists_cons_of_ne_nil hne
  intro v hv
  have hlast : (h :: t).getD ((h :: t).length - 1) 0
      = (h :: t).getLast (List.cons_ne_nil h t) := by
    rw [List.getLast_eq_getElem, List.getD_eq_getElem]
  rw [hlast] at he
  simp only [List.getD_cons_zero] at he ⊢
  have h1 := sorted_le_getLast (h :: t) (List.cons_ne_nil h t) hs v hv
  rcases List.mem_cons.1 hv with rfl | hv'
  · rfl
  · have h2 := (List.pairwise_cons.1 hs).1 v hv'
    omega

theorem kernel_window_ne_zero (labels : Nat → Nat) {sx sy sz x y z v : Nat}
    (hsx : sx < 2 ^ 63) (hsy : sy < 2 ^ 63) (hsz : sz < 2 ^ 63)
    (hx : x < sx) (hy : y < sy) (hz : z < sz)
    (hv : v ∈ kernel_window labels sx sy sz x y z) : v ≠ 0 := by
  rw [kernel_window_eq labels hsx hsy hsz hx hy hz, mem_nonzero_at] at hv
  exact hv.1

theorem center_mem_kernel_window (labels : Nat → Nat) {sx sy sz x y z : Nat}
    (hsy : sy < 2 ^ 63) (hsz : sz < 2 ^ 63) (hx : x < sx) (hy : y < sy) (hz : z < sz)
    (hnz : labels (idx sx sy x y z) ≠ 0) :
    labels (idx sx sy x y z) ∈ kernel_window labels sx sy sz x y z := by
  unfold kernel_window
  have := center_mem_fill labels hsy hsz hx hy hz hnz
  simp [this]

/-- What one execution of the recomputing body can do to the output buffer. -/
theorem dilate_body_ref_cases (labels : Nat → Nat) {sx sy sz x y z : Nat}
    (background_only : Bool) (hsx : sx < 2 ^ 63) (hsy : sy < 2 ^ 63) (hsz : sz < 2 ^ 63)
    (hx : x < sx) (hy : y < sy) (hz : z < sz) (out : Nat → Nat) :
    (dilate_body_ref labels sx sy sz background_only x y z out = (x, out)
        ∧ kernel_window labels sx sy sz x y z = [])
      ∨ (∃ v, v ≠ 0 ∧ v ∈ kernel_window labels sx sy sz x y z
          ∧ dilate_body_ref labels sx sy sz background_only x y z out
            = (x, store out (idx sx sy x y z) v))
      ∨ (∃ v, v ≠ 0 ∧ v ∈ kernel_window labels sx sy sz x y z ∧ x + 1 < sx
          ∧ v ∈ kernel_window labels sx sy sz (x + 1) y z
          ∧ dilate_body_ref labels sx sy sz background_only x y z out
            = (x + 1, store (store out (idx sx sy x y z) v) (idx sx sy x y z + 1) v))
      ∨ (∃ v, v ≠ 0 ∧ v ∈ kernel_window labels sx sy sz x y z ∧ ¬ x + 1 < sx
          ∧ dilate_body_ref labels sx sy sz background_only x y z out
            = (x + 1, store out (idx sx sy x y z) v)) := by
  have e0 : x + sx * (y + sy * z) = idx sx sy x y z := rfl
  have hnz : ∀ v ∈ kernel_window labels sx sy sz x y z, v ≠ 0 := fun v hv =>
    kernel_window_ne_zero labels hsx hsy hsz hx hy hz hv
  have hedge : x < usub sx 1 ↔ x + 1 < sx := lt_usub_one_iff hx hsx
  unfold dilate_body_ref
  rw [e0]
  by_cases c0 : background_only = true ∧ labels (idx sx sy x y z) ≠ 0
  · rw [if_pos c0]
    exact Or.inr (Or.inl ⟨_, c0.2, center_mem_kernel_window labels hsy hsz hx hy hz c0.2, rfl⟩)
  rw [if_neg c0]
  simp only
  by_cases c1 : (kernel_window labels sx sy sz x y z).length = 0
  · rw [if_pos c1]
    exact Or.inl ⟨rfl, List.eq_nil_of_length_eq_zero c1⟩
  rw [if_neg c1]
  have hperm := sort_perm (kernel_window labels sx sy sz x y z)
  have hsne : sort (kernel_window labels sx sy sz x y z) ≠ [] := by
    intro h
    have := hperm.length_eq
    rw [h] at this
    exact c1 this.symm
  have hcarry : ∀ v, 19 ≤ (sort (kernel_window labels sx sy sz x y z)).count v → x + 1 < sx →
      v ∈ kernel_window labels sx sy sz (x + 1) y z := by
    intro v h19 hx1
    rw [hperm.count_eq v] at h19
    have := kernel_window_carry labels hsx hsy hsz hx1 hy hz v h19
    exact List.count_pos_iff.1 (by omega)
  by_cases c2 : (sort (kernel_window labels sx sy sz x y z)).length ≥ 19
      ∧ (sort (kernel_window labels sx sy sz x y z)).getD 0 0
        = (sort (kernel_window labels sx sy sz x y z)).getD
            ((sort (kernel_window labels sx sy sz x y z)).length - 1) 0
  · rw [if_pos c2]
    have hall := sorted_all_eq _ hsne (sort_pairwise _) c2.2
    have hmem : (sort (kernel_window labels sx sy sz x y z)).getD 0 0
        ∈ sort (kernel_window labels sx sy sz x y z) := by
      obtain ⟨h, t, ht⟩ := List.exists_cons_of_ne_nil hsne
      rw [ht]; simp
    have hmemW := hperm.subset hmem
    by_cases hx1 : x + 1 < sx
    · rw [if_pos (hedge.2 hx1)]
      refine Or.inr (Or.inr (Or.inl ⟨_, hnz _ hmemW, hmemW, hx1, ?_, rfl⟩))
      apply hcarry _ _ hx1
      rw [List.count_eq_length.2 (fun v hv => (hall v hv).symm)]
      exact c2.1
    · rw [if_neg (fun h => hx1 (hedge.1 h))]
      exact Or.inr (Or.inr (Or.inr ⟨_, hnz _ hmemW, hmemW, hx1, rfl⟩))
  rw [if_neg c2]
  obtain ⟨hmode, hct⟩ := vote_sorted _ hsne (sort_pairwise _)
  have hmemW := hperm.subset hmode.1
  by_cases c3 : (vote (sort (kernel_window labels sx sy sz x y z))).2 ≥ 19 ∧ x < usub sx 1
  · rw [if_pos c3]
    have hx1 := hedge.1 c3.2
    exact Or.inr (Or.inr (Or.inl ⟨_, hnz _ hmemW, hmemW, hx1,
      hcarry _ (by omega) hx1, rfl⟩))
  · rw [if_neg c3]
    exact Or.inr (Or.inl ⟨_, hnz _ hmemW, hmemW, rfl⟩)

theorem support_ok_of_mem {W : List Nat} {v : Nat} (h0 : v ≠ 0) (hm : v ∈ W) :
    support_ok W v :=
  ⟨fun h => (by rw [h] at hm; cases hm), fun _ => ⟨h0, hm⟩⟩

/-- One execution of the recomputing body on a row whose voxels from `x` on are
still zero in the output: the voxels up to the new counter receive admissible
values, those beyond it stay zero, and nothing outside the row changes. -/
theorem dilate_body_ref_support (labels : Nat → Nat) {sx sy sz x y z : Nat}
    (background_only : Bool) (hsx : sx < 2 ^ 63) (hsy : sy < 2 ^ 63) (hsz : sz < 2 ^ 63)
    (hx : x < sx) (hy : y < sy) (hz : z < sz) (out : Nat → Nat)
    (hpre : ∀ x', x ≤ x' → x' < sx → out (idx sx sy x' y z) = 0) :
    x ≤ (dilate_body_ref labels sx sy sz background_only x y z out).1
      ∧ (∀ x', (dilate_body_ref labels sx sy sz background_only x y z out).1 < x' → x' < sx →
          (dilate_body_ref labels sx sy sz background_only x y z out).2 (idx sx sy x' y z) = 0)
      ∧ (∀ x', x ≤ x' →
          x' ≤ (dilate_body_ref labels sx sy sz background_only x y z out).1 → x' < sx →
          support_ok (kernel_window labels sx sy sz x' y z)
            ((dilate_body_ref labels sx sy sz background_only x y z out).2
              (idx sx sy x' y z)))
      ∧ (∀ loc, (∀ x', x ≤ x' → x' < sx → loc ≠ idx sx sy x' y z) →
          (dilate_body_ref labels sx sy sz background_only x y z out).2 loc = out loc) := by
  have hne : ∀ x', x' ≠ x → idx sx sy x' y z ≠ idx sx sy x y z := fun x' h he =>
    h (idx_x_inj he)
  have hs1 : idx sx sy x y z + 1 = idx sx sy (x + 1) y z := (idx_succ_x sx sy x y z).symm
  rcases dilate_body_ref_cases labels background_only hsx hsy hsz hx hy hz out with
    ⟨hr, hW⟩ | ⟨v, hv0, hvW, hr⟩ | ⟨v, hv0, hvW, hx1, hvW', hr⟩ | ⟨v, hv0, hvW, hx1, hr⟩
  · rw [hr]
    refine ⟨le_refl _, fun x' h1 h2 => hpre x' (by simp only at h1; omega) h2, ?_,
      fun loc _ => rfl⟩
    intro x' h1 h2 h3
    simp only at h2
    have : x' = x := by omega
    subst this
    exact ⟨fun _ => hpre x' (le_refl _) h3, fun h => absurd hW h⟩
  · rw [hr]
    refine ⟨le_refl _, ?_, ?_, ?_⟩
    · intro x' h1 h2
      simp only at h1
      simp only [store, hne x' (by omega), if_false]
      exact hpre x' (by omega) h2
    · intro x' h1 h2 h3
      simp only at h2
      have : x' = x := by omega
      subst this
      simp only [store, if_true]
      exact support_ok_of_mem hv0 hvW
    · intro loc hloc
      simp only [store, hloc x (le_refl _) hx, if_false]
  · rw [hr, hs1]
    have hne1 : ∀ x', x' ≠ x + 1 → idx sx sy x' y z ≠ idx sx sy (x + 1) y z := fun x' h he =>
      h (idx_x_inj he)
    refine ⟨by simp, ?_, ?_, ?_⟩
    · intro x' h1 h2
      simp only at h1
      simp only [store, hne x' (by omega), hne1 x' (by omega), if_false]
      exact hpre x' (by omega) h2
    · intro x' h1 h2 h3
      simp only at h2
      rcases (by omega : x' = x ∨ x' = x + 1) with rfl | rfl
      · simp only [store, hne1 x' (by omega), if_false, if_true]
        exact support_ok_of_mem hv0 hvW
      · simp only [store, if_true]
        exact support_ok_of_mem hv0 hvW'
    · intro loc hloc
      simp only [store, hloc x (le_refl _) hx, hloc (x + 1) (by omega) hx1, if_false]
  · rw [hr]
    refine ⟨by simp, ?_, ?_, ?_⟩
    · intro x' h1 h2
      simp only at h1
      omega
    · intro x' h1 h2 h3
      simp only at h2
      have : x' = x := by omega
      subst this
      simp only [store, if_true]
      exact support_ok_of_mem hv0 hvW
    · intro loc hloc
      simp only [store, hloc x (le_refl _) hx, if_false]

/-- A row of the recomputing loop on an output that is still zero on the row from
`x` on: every voxel of `[x, xe)` ends with an admissible value and nothing
outside the row changes. -/
theorem dilate_row_ref_support (labels : Nat → Nat) {sx sy sz xe y z : Nat}
    (background_only : Bool) (hsx : sx < 2 ^ 63) (hsy : sy < 2 ^ 63) (hsz : sz < 2 ^ 63)
    (hxe : xe ≤ sx) (hy : y < sy) (hz : z < sz) :
    ∀ (fuel x : Nat) (out : Nat → Nat), xe - x ≤ fuel →
      (∀ x', x ≤ x' → x' < sx → out (idx sx sy x' y z) = 0) →
      (∀ x', x ≤ x' → x' < xe →
          support_ok (kernel_window labels sx sy sz x' y z)
            (dilate_row_ref labels sx sy sz background_only xe y z fuel x out
              (idx sx sy x' y z)))
        ∧ (∀ loc, (∀ x', x ≤ x' → x' < sx → loc ≠ idx sx sy x' y z) →
          dilate_row_ref labels sx sy sz background_only xe y z fuel x out loc = out loc) := by
  intro fuel
  induction fuel with
  | zero =>
    intro x out hf _
    exact ⟨fun x' h1 h2 => by omega, fun loc _ => rfl⟩
  | succ fuel ih =>
    intro x out hf hpre
    unfold dilate_row_ref
    by_cases hx : x < xe
    swap
    · rw [if_neg hx]
      exact ⟨fun x' h1 h2 => by omega, fun loc _ => rfl⟩
    rw [if_pos hx]
    obtain ⟨s1, s2, s3, s4⟩ := dilate_body_ref_support labels background_only hsx hsy hsz
      (show x < sx by omega) hy hz out hpre
    obtain ⟨ia, ib⟩ := ih ((dilate_body_ref labels sx sy sz background_only x y z out).1 + 1)
      (dilate_body_ref labels sx sy sz background_only x y z out).2 (by omega)
      (fun x' h1 h2 => s2 x' (by omega) h2)
    constructor
    · intro x' h1 h2
      by_cases hle : x' ≤ (dilate_body_ref labels sx sy sz background_only x y z out).1
      · rw [ib _ (fun x'' h1' _ he => by have := idx_x_inj he; omega)]
        exact s3 x' h1 hle (by omega)
      · exact ia x' (by omega) h2
    · intro loc hloc
      rw [ib loc (fun x' h1 h2 => hloc x' (by omega) h2)]
      exact s4 loc hloc

/-- A fold over keys whose steps each own the locations of one key: if every step
changes only its own locations and makes them good when it finds them zero, the
fold from a buffer that is zero on all owned locations makes all of them good. -/
theorem foldl_good {κ : Type} (step : (Nat → Nat) → κ → (Nat → Nat)) (dom : Nat → Prop)
    (key : Nat → κ) (good : Nat → Nat → Prop) :
    ∀ (ks : List κ), ks.Nodup →
      (∀ k ∈ ks, ∀ (out : Nat → Nat) (loc : Nat), ¬ (dom loc ∧ key loc = k) →
        step out k loc = out loc) →
      (∀ k ∈ ks, ∀ out : Nat → Nat, (∀ loc, dom loc → key loc = k → out loc = 0) →
        ∀ loc, dom loc → key loc = k → good loc (step out k loc)) →
      ∀ out : Nat → Nat, (∀ loc, dom loc → key loc ∈ ks → out loc = 0) →
        (∀ loc, dom loc → key loc ∈ ks → good loc (ks.foldl step out loc))
          ∧ (∀ loc, ¬ (dom loc ∧ key loc ∈ ks) → ks.foldl step out loc = out loc) := by
  intro ks
  induction ks with
  | nil =>
    intro _ _ _ out _
    exact ⟨fun loc _ h => (by cases h), fun loc _ => rfl⟩
  | cons k ks ih =>
    intro hnd hframe hgood out hpre
    obtain ⟨hk, hnd'⟩ := List.nodup_cons.1 hnd
    have hfk := hframe k (List.mem_cons_self k ks)
    obtain ⟨ia, ib⟩ := ih hnd'
      (fun k' hk' => hframe k' (List.mem_cons_of_mem k hk'))
      (fun k' hk' => hgood k' (List.mem_cons_of_mem k hk'))
      (step out k)
      (fun loc hd hm => by
        rw [hfk out loc (fun h => hk (h.2 ▸ hm))]
        exact hpre loc hd (List.mem_cons_of_mem k hm))
    rw [List.foldl_cons]
    constructor
    · intro loc hd hm
      rcases List.mem_cons.1 hm with he | hm'
      · rw [ib loc (fun h => hk (he ▸ h.2))]
        exact hgood k (List.mem_cons_self k ks) out
          (fun l hdl hkl => hpre l hdl (hkl ▸ List.mem_cons_self k ks)) loc hd he
      · exact ia loc hd hm'
    · intro loc hn
      rw [ib loc (fun h => hn ⟨h.1, List.mem_cons_of_mem k h.2⟩)]
      exact hfk out loc (fun h => hn ⟨h.1, h.2 ▸ List.mem_cons_self k ks⟩)

theorem dilate_body_ref_frame (labels : Nat → Nat) {sx sy sz x y z : Nat}
    (background_only : Bool) (hsx : sx < 2 ^ 63) (hsy : sy < 2 ^ 63) (hsz : sz < 2 ^ 63)
    (hx : x < sx) (hy : y < sy) (hz : z < sz) (out : Nat → Nat) (loc : Nat)
    (hloc : ∀ x', x ≤ x' → x' < sx → loc ≠ idx sx sy x' y z) :
    (dilate_body_ref labels sx sy sz background_only x y z out).2 loc = out loc := by
  have hs1 : idx sx sy x y z + 1 = idx sx sy (x + 1) y z := (idx_succ_x sx sy x y z).symm
  rcases dilate_body_ref_cases labels background_only hsx hsy hsz hx hy hz out with
    ⟨hr, -⟩ | ⟨v, -, -, hr⟩ | ⟨v, -, -, hx1, -, hr⟩ | ⟨v, -, -, -, hr⟩
  · rw [hr]
  · rw [hr]; simp only [store, hloc x (le_refl _) hx, if_false]
  · rw [hr, hs1]
    simp only [store, hloc x (le_refl _) hx, hloc (x + 1) (by omega) hx1, if_false]
  · rw [hr]; simp only [store, hloc x (le_refl _) hx, if_false]

/-- A row of the recomputing loop changes the output buffer only at voxels of its
own row. -/
theorem dilate_row_ref_frame (labels : Nat → Nat) {sx sy sz xe y z : Nat}
    (background_only : Bool) (hsx : sx < 2 ^ 63) (hsy : sy < 2 ^ 63) (hsz : sz < 2 ^ 63)
    (hxe : xe ≤ sx) (hy : y < sy) (hz : z < sz) :
    ∀ (fuel x : Nat) (out : Nat → Nat) (loc : Nat),
      (∀ x', x ≤ x' → x' < sx → loc ≠ idx sx sy x' y z) →
      dilate_row_ref labels sx sy sz background_only xe y z fuel x out loc = out loc := by
  intro fuel
  induction fuel with
  | zero => intro x out loc _; rfl
  | succ fuel ih =>
    intro x out loc hloc
    unfold dilate_row_ref
    by_cases hx : x < xe
    · rw [if_pos hx]
      have hge := dilate_body_ref_fst_ge labels sx sy sz background_only x y z out
      rw [ih _ _ loc (fun x' h1 h2 => hloc x' (by omega) h2)]
      exact dilate_body_ref_frame labels background_only hsx hsy hsz (by omega) hy hz out loc
        hloc
    · rw [if_neg hx]

theorem foldl_frame {κ : Type} (step : (Nat → Nat) → κ → (Nat → Nat)) (own : Nat → Prop)
    (ks : List κ)
    (h : ∀ k ∈ ks, ∀ (out : Nat → Nat) (loc : Nat), ¬ own loc → step out k loc = out loc) :
    ∀ (out : Nat → Nat) (loc : Nat), ¬ own loc → ks.foldl step out loc = out loc := by
  induction ks with
  | nil => intro out loc _; rfl
  | cons k ks ih =>
    intro out loc hn
    rw [List.foldl_cons, ih (fun k' hk' => h k' (List.mem_cons_of_mem k hk')) _ loc hn]
    exact h k (List.mem_cons_self k ks) out loc hn

/-- The recomputing kernel run on the whole volume as one box, from the zero
buffer, leaves an admissible value at every voxel. -/
theorem dilate_block_ref_support (labels : Nat → Nat) {sx sy sz : Nat}
    (background_only : Bool) (hsx : sx < 2 ^ 63) (hsy : sy < 2 ^ 63) (hsz : sz < 2 ^ 63)
    (x y z : Nat) (hx : x < sx) (hy : y < sy) (hz : z < sz) :
    support_ok (kernel_window labels sx sy sz x y z)
      (dilate_block_ref labels sx sy sz background_only
        { xs := 0, xe := sx, ys := 0, ye := sy, zs := 0, ze := sz } zero_buffer
        (idx sx sy x y z)) := by
  have hsx0 : 0 < sx := by omega
  have hsy0 : 0 < sy := by omega
  have hcx : ∀ loc, cx sx loc < sx := fun loc => Nat.mod_lt _ hsx0
  have hcy : ∀ loc, cy sx sy loc ∈ List.range' 0 (sy - 0) := fun loc => by
    rw [List.mem_range'_1]
    have : cy sx sy loc < sy := Nat.mod_lt _ hsy0
    omega
  unfold dilate_block_ref
  simp only
  have hrowframe : ∀ z' ∈ List.range' 0 (sz - 0), ∀ y' ∈ List.range' 0 (sy - 0),
      ∀ (o : Nat → Nat) (loc : Nat), ¬ (cz sx sy loc = z' ∧ cy sx sy loc = y') →
        dilate_row_ref labels sx sy sz background_only sx y' z' (sx - 0) 0 o loc = o loc := by
    intro z' hz' y' hy' o loc hn
    rw [List.mem_range'_1] at hz' hy'
    refine dilate_row_ref_frame labels background_only hsx hsy hsz (le_refl sx)
      (show y' < sy by omega) (show z' < sz by omega) (sx - 0) 0 o loc ?_
    intro x' _ hx' he
    obtain ⟨-, d2, d3⟩ := decode_idx z' hx' (show y' < sy by omega)
    rw [← he] at d2 d3
    exact hn ⟨d3, d2⟩
  have hyframe : ∀ z' ∈ List.range' 0 (sz - 0), ∀ (out : Nat → Nat) (loc : Nat),
      ¬ cz sx sy loc = z' →
        (List.range' 0 (sy - 0)).foldl
          (fun out y' => dilate_row_ref labels sx sy sz background_only sx y' z'
            (sx - 0) 0 out) out loc = out loc := by
    intro z' hz' out loc hn
    exact foldl_frame
      (fun out y' => dilate_row_ref labels sx sy sz background_only sx y' z' (sx - 0) 0 out)
      (fun l => cz sx sy l = z') (List.range' 0 (sy - 0))
      (fun y' hy' o l hl => hrowframe z' hz' y' hy' o l (fun h => hl h.1)) out loc hn
  have hylevel : ∀ z' ∈ List.range' 0 (sz - 0), ∀ out : Nat → Nat,
      (∀ loc, cz sx sy loc = z' → out loc = 0) →
      ∀ loc, cz sx sy loc = z' →
          support_ok (kernel_window labels sx sy sz (cx sx loc) (cy sx sy loc) (cz sx sy loc))
            ((List.range' 0 (sy - 0)).foldl
              (fun out y' => dilate_row_ref labels sx sy sz background_only sx y' z'
                (sx - 0) 0 out) out loc) := by
    intro z' hz' out hpre
    have hz'' := hz'
    rw [List.mem_range'_1] at hz''
    have := foldl_good
      (fun out y' => dilate_row_ref labels sx sy sz background_only sx y' z' (sx - 0) 0 out)
      (fun loc => cz sx sy loc = z') (cy sx sy)
      (fun loc v => support_ok
        (kernel_window labels sx sy sz (cx sx loc) (cy sx sy loc) (cz sx sy loc)) v)
      (List.range' 0 (sy - 0)) (List.nodup_range' 0 (sy - 0))
      (fun y' hy' o loc hn => hrowframe z' hz' y' hy' o loc hn)
      (fun y' hy' o hpre' loc hd hk => by
        rw [List.mem_range'_1] at hy'
        have hd' : cz sx sy loc = z' := hd
        have hloc : idx sx sy (cx sx loc) y' z' = loc := by
          rw [← hk, ← hd']; exact idx_decode loc
        have := (dilate_row_ref_support labels background_only hsx hsy hsz (le_refl sx)
          (show y' < sy by omega) (show z' < sz by omega) (sx - 0) 0 o (le_refl _)
          (fun x' _ hx' => by
            obtain ⟨-, d2, d3⟩ := decode_idx z' hx' (show y' < sy by omega)
            exact hpre' _ d3 d2)).1 (cx sx loc) (Nat.zero_le _) (hcx loc)
        rw [hloc] at this
        show support_ok
          (kernel_window labels sx sy sz (cx sx loc) (cy sx sy loc) (cz sx sy loc)) _
        rw [hk, hd']; exact this)
      out (fun loc hd _ => hpre loc hd)
    exact fun loc hd => this.1 loc hd (hcy loc)
  have hzlevel := foldl_good
    (fun out z' => (List.range' 0 (sy - 0)).foldl
      (fun out y' => dilate_row_ref labels sx sy sz background_only sx y' z' (sx - 0) 0 out)
      out)
    (fun _ => True) (cz sx sy)
    (fun loc v => support_ok
      (kernel_window labels sx sy sz (cx sx loc) (cy sx sy loc) (cz sx sy loc)) v)
    (List.range' 0 (sz - 0)) (List.nodup_range' 0 (sz - 0))
    (fun z' hz' o loc hn => hyframe z' hz' o loc (fun h => hn ⟨trivial, h⟩))
    (fun z' hz' o hpre' loc _ hk =>
      hylevel z' hz' o (fun l hl => hpre' l trivial hl) loc hk)
    zero_buffer (fun _ _ _ => rfl)
  obtain ⟨d1, d2, d3⟩ := decode_idx z hx hy
  have := hzlevel.1 (idx sx sy x y z) trivial (by rw [d3, List.mem_range'_1]; omega)
  simp only [d1, d2, d3] at this
  exact this

/-- C17. Dilation never invents or drops support inside a single tile: for every
volume with extents between 1 and 64, either `background_only` setting and every
voxel `(x, y, z)`, the dilate output is 0 if the 3x3x3 window of the voxel holds
no non-zero in-bounds voxel, and otherwise is a non-zero label that occurs at
some in-bounds voxel of that window; so a voxel that is non-zero in the input
is non-zero in the output. -/
theorem dilate_keeps_support (labels : Nat → Nat) (sx sy sz : Nat) (background_only : Bool)
    (hx1 : 1 ≤ sx) (hx64 : sx ≤ 64) (hy1 : 1 ≤ sy) (hy64 : sy ≤ 64)
    (hz1 : 1 ≤ sz) (hz64 : sz ≤ 64) :
    ∀ x y z, x < sx → y < sy → z < sz →
      (window_labels labels sx sy sz x y z = [] →
          dilate_helper labels sx sy sz background_only (idx sx sy x y z) = 0)
        ∧ (window_labels labels sx sy sz x y z ≠ [] →
          dilate_helper labels sx sy sz background_only (idx sx sy x y z) ≠ 0
            ∧ dilate_helper labels sx sy sz background_only (idx sx sy x y z)
                ∈ window_labels labels sx sy sz x y z)
        ∧ (labels (idx sx sy x y z) ≠ 0 →
          dilate_helper labels sx sy sz background_only (idx sx sy x y z) ≠ 0) := by
  intro x y z hx hy hz
  have hsx : sx < 2 ^ 63 := by omega
  have hsy : sy < 2 ^ 63 := by omega
  have hsz : sz < 2 ^ 63 := by omega
  have hperm := window_labels_perm labels hsx hsy hsz hx hy hz
  obtain ⟨ha, hb⟩ := dilate_block_ref_support labels background_only hsx hsy hsz x y z hx hy hz
  have hout : dilate_helper labels sx sy sz background_only
      = dilate_block_ref labels sx sy sz background_only
          { xs := 0, xe := sx, ys := 0, ye := sy, zs := 0, ze := sz } zero_buffer := by
    unfold dilate_helper dilate_helper_order
    rw [tiles_small hx1 hx64 hy1 hy64 hz1 hz64, List.foldl_cons, List.foldl_nil,
      dilate_process_block_eq_ref labels background_only hsx _ (le_refl sx)]
  rw [hout]
  have hnil : window_labels labels sx sy sz x y z = []
      ↔ kernel_window labels sx sy sz x y z = [] :=
    ⟨fun h => List.Perm.eq_nil (h ▸ hperm.symm), fun h => List.Perm.eq_nil (h ▸ hperm)⟩
  refine ⟨fun h => ha (hnil.1 h), fun h => ?_, fun h => ?_⟩
  · obtain ⟨h1, h2⟩ := hb (fun h' => h (hnil.2 h'))
    exact ⟨h1, hperm.symm.subset h2⟩
  · have hmem := center_mem_kernel_window labels hsy hsz hx hy hz h
    exact (hb (fun h' => by rw [h'] at hmem; cases hmem)).1

set_option maxRecDepth 100000 in
/-- Instance of `dilate_keeps_support` on the 3x3x3 volume `volume_hole` with
`background_only = true`, where the second fast path overwrites `(2,1,1)`: the
output there, 5, is still a non-zero label of the window. -/
theorem dilate_keeps_support_witness :
    (1 ≤ 3 ∧ 3 ≤ 64 ∧ dilate_helper volume_hole 3 3 3 true (idx 3 3 2 1 1) = 5)
      ∧ ∀ x y z, x < 3 → y < 3 → z < 3 →
          (window_labels volume_hole 3 3 3 x y z = [] →
              dilate_helper volume_hole 3 3 3 true (idx 3 3 x y z) = 0)
            ∧ (window_labels volume_hole 3 3 3 x y z ≠ [] →
              dilate_helper volume_hole 3 3 3 true (idx 3 3 x y z) ≠ 0
                ∧ dilate_helper volume_hole 3 3 3 true (idx 3 3 x y z)
                    ∈ window_labels volume_hole 3 3 3 x y z)
            ∧ (volume_hole (idx 3 3 x y z) ≠ 0 →
              dilate_helper volume_hole 3 3 3 true (idx 3 3 x y z) ≠ 0) :=
  ⟨⟨by decide, by decide, by decide⟩,
    dilate_keeps_support volume_hole 3 3 3 true (by decide) (by decide) (by decide)
      (by decide) (by decide) (by decide)⟩

/-! ## Every access of the kernels is in range -/

theorem usub_of_le {a b : Nat} (h : b ≤ a) (ha : a < 2 ^ 64) : usub a b = a - b := by
  unfold usub U64; omega

theorem umul_of_lt {a b : Nat} (h : a * b < 2 ^ 64) : umul a b = a * b := by
  unfold umul U64; exact Nat.mod_eq_of_lt h

theorem lt_usub_one_iff64 {a s : Nat} (ha : a < s) (hs : s < 2 ^ 64) :
    a < usub s 1 ↔ a + 1 < s := by
  rw [usub_of_le (by omega) hs]; omega

/-- The linear index of an in-bounds voxel addresses an element of the buffer. -/
theorem idx_lt {sx sy sz x y z : Nat} (hx : x < sx) (hy : y < sy) (hz : z < sz) :
    idx sx sy x y z < sx * sy * sz := by
  unfold idx
  have h1 : y + sy * z + 1 ≤ sy * sz := by
    calc y + sy * z + 1 ≤ sy + sy * z := by omega
      _ = sy * (z + 1) := by ring
      _ ≤ sy * sz := Nat.mul_le_mul_left sy hz
  calc x + sx * (y + sy * z) < sx + sx * (y + sy * z) := by omega
    _ = sx * (y + sy * z + 1) := by ring
    _ ≤ sx * (sy * sz) := Nat.mul_le_mul_left sx h1
    _ = sx * sy * sz := by ring

theorem extent_le_size {sx sy sz : Nat} (hx : 0 < sx) (hy : 0 < sy) (hz : 0 < sz) :
    sx ≤ sx * sy * sz ∧ sy ≤ sx * sy * sz ∧ sz ≤ sx * sy * sz ∧ sx * sy ≤ sx * sy * sz := by
  have h1 : sx * 1 ≤ sx * (sy * sz) := Nat.mul_le_mul_left sx (Nat.mul_pos hy hz)
  have h2 : sy * 1 ≤ sy * (sx * sz) := Nat.mul_le_mul_left sy (Nat.mul_pos hx hz)
  have h3 : sz * 1 ≤ sz * (sx * sy) := Nat.mul_le_mul_left sz (Nat.mul_pos hx hy)
  have h4 : sx * sy * 1 ≤ sx * sy * sz := Nat.mul_le_mul_left (sx * sy) hz
  have e1 : sx * (sy * sz) = sx * sy * sz := by ring
  have e2 : sy * (sx * sz) = sx * sy * sz := by ring
  have e3 : sz * (sx * sy) = sx * sy * sz := by ring
  omega

/-- The offset `loc` computed with `uint64_t` operations is the linear index. -/
theorem uloc_eq {sx sy sz x y z : Nat} (hn : sx * sy * sz < 2 ^ 64)
    (hx : x < sx) (hy : y < sy) (hz : z < sz) :
    uadd x (umul sx (uadd y (umul sy z))) = idx sx sy x y z := by
  have hlt := idx_lt hx hy hz
  unfold idx at hlt ⊢
  have h1 : sy * z ≤ y + sy * z := by omega
  have h2 : y + sy * z ≤ sx * (y + sy * z) := Nat.le_mul_of_pos_left _ (by omega)
  have e1 : umul sy z = sy * z := umul_of_lt (by omega)
  have e2 : uadd y (sy * z) = y + sy * z := uadd_of_lt (by omega)
  have e3 : umul sx (y + sy * z) = sx * (y + sy * z) := umul_of_lt (by omega)
  have e4 : uadd x (sx * (y + sy * z)) = x + sx * (y + sy * z) := uadd_of_lt (by omega)
  rw [e1, e2, e3, e4]

theorem push_checked_spec (n : Nat) (labels : Nat → Nat) (guard : Bool) (i i' : Nat)
    (sq : List Nat) (hi : guard = true → i = i' ∧ i' < n) :
    push_checked n labels guard i sq
      = some (sq ++ if guard = true ∧ labels i' ≠ 0 then [labels i'] else []) := by
  unfold push_checked read_checked
  by_cases hg : guard = true
  · obtain ⟨rfl, hlt⟩ := hi hg
    simp only [hg, hlt, if_true, Option.some_bind, true_and]
    split <;> simp
  · rw [if_neg hg, if_neg (fun h => hg h.1), List.append_nil]

/-- Inside a buffer of `sx*sy*sz < 2^64` elements, every read of the column
extraction is in range: the checked extraction returns the column. -/
theorem fill_checked_eq (labels : Nat → Nat) {sx sy sz yi zi : Nat} (xi : Nat)
    (hn : sx * sy * sz < 2 ^ 64) (hy : yi < sy) (hz : zi < sz) :
    fill_checked (sx * sy * sz) labels sx sy sz xi yi zi
      = some (fill_partial_stencil_fn labels sx sy sz xi yi zi) := by
  unfold fill_checked fill_partial_stencil_fn
  by_cases hx : xi < 0 ∨ xi ≥ sx
  · rw [if_pos hx, if_pos hx]
  rw [if_neg hx, if_neg hx]
  have hx' : xi < sx := by omega
  obtain ⟨b1, b2, b3, b4⟩ := extent_le_size (show 0 < sx by omega) (show 0 < sy by omega)
    (show 0 < sz by omega)
  have hsxy : umul sx sy = sx * sy := umul_of_lt (by omega)
  have e0 : xi + sx * (yi + sy * zi) = idx sx sy xi yi zi := rfl
  have gy : yi < usub sy 1 ↔ yi + 1 < sy := lt_usub_one_iff64 hy (by omega)
  have gz : zi < usub sz 1 ↔ zi + 1 < sz := lt_usub_one_iff64 hz (by omega)
  have hA := idx_lt hx' hy hz
  rw [uloc_eq hn hx' hy hz, hsxy, e0]
  simp only [ite_push, List.nil_append]
  have p0 : ∀ sq, push_checked (sx * sy * sz) labels true (idx sx sy xi yi zi) sq
      = some (sq ++ if true = true ∧ labels (idx sx sy xi yi zi) ≠ 0 then
          [labels (idx sx sy xi yi zi)] else []) := fun sq =>
    push_checked_spec _ _ _ _ _ sq (fun _ => ⟨rfl, hA⟩)
  have p1 : ∀ sq, push_checked (sx * sy * sz) labels (decide (yi > 0))
      (usub (idx sx sy xi yi zi) sx) sq
      = some (sq ++ if decide (yi > 0) = true ∧ labels (idx sx sy xi yi zi - sx) ≠ 0 then
          [labels (idx sx sy xi yi zi - sx)] else []) := fun sq =>
    push_checked_spec _ _ _ _ _ sq (fun h => by
      have h1 : 0 < yi := of_decide_eq_true h
      have := idx_pred_y sx sy xi yi zi h1
      exact ⟨usub_of_le (by omega) (by omega), by omega⟩)
  have p2 : ∀ sq, push_checked (sx * sy * sz) labels (decide (yi < usub sy 1))
      (uadd (idx sx sy xi yi zi) sx) sq
      = some (sq ++ if decide (yi < usub sy 1) = true ∧ labels (idx sx sy xi yi zi + sx) ≠ 0 then
          [labels (idx sx sy xi yi zi + sx)] else []) := fun sq =>
    push_checked_spec _ _ _ _ _ sq (fun h => by
      have h1 : yi + 1 < sy := gy.1 (of_decide_eq_true h)
      have := idx_succ_y sx sy xi yi zi
      have := idx_lt hx' h1 hz
      exact ⟨uadd_of_lt (by omega), by omega⟩)
  have p3 : ∀ sq, push_checked (sx * sy * sz) labels (decide (zi > 0))
      (usub (idx sx sy xi yi zi) (sx * sy)) sq
      = some (sq ++ if decide (zi > 0) = true ∧ labels (idx sx sy xi yi zi - sx * sy) ≠ 0 then
          [labels (idx sx sy xi yi zi - sx * sy)] else []) := fun sq =>
    push_checked_spec _ _ _ _ _ sq (fun h => by
      have h1 : 0 < zi := of_decide_eq_true h
      have := idx_pred_z sx sy xi yi zi h1
      exact ⟨usub_of_le (by omega) (by omega), by omega⟩)
  have p4 : ∀ sq, push_checked (sx * sy * sz) labels (decide (zi < usub sz 1))
      (uadd (idx sx sy xi yi zi) (sx * sy)) sq
      = some (sq ++ if decide (zi < usub sz 1) = true
            ∧ labels (idx sx sy xi yi zi + sx * sy) ≠ 0 then
          [labels (idx sx sy xi yi zi + sx * sy)] else []) := fun sq =>
    push_checked_spec _ _ _ _ _ sq (fun h => by
      have h1 : zi + 1 < sz := gz.1 (of_decide_eq_true h)
      have := idx_succ_z sx sy xi yi zi
      have := idx_lt hx' hy h1
      exact ⟨uadd_of_lt (by omega), by omega⟩)
  have p5 : ∀ sq, push_checked (sx * sy * sz) labels (decide (yi > 0 ∧ zi > 0))
      (usub (usub (idx sx sy xi yi zi) sx) (sx * sy)) sq
      = some (sq ++ if decide (yi > 0 ∧ zi > 0) = true
            ∧ labels (idx sx sy xi yi zi - sx - sx * sy) ≠ 0 then
          [labels (idx sx sy xi yi zi - sx - sx * sy)] else []) := fun sq =>
    push_checked_spec _ _ _ _ _ sq (fun h => by
      obtain ⟨h1, h2⟩ : 0 < yi ∧ 0 < zi := of_decide_eq_true h
      have := idx_pred_y sx sy xi yi zi h1
      have := idx_pred_z sx sy xi (yi - 1) zi h2
      rw [usub_of_le (show sx ≤ idx sx sy xi yi zi by omega) (by omega)]
      exact ⟨usub_of_le (by omega) (by omega), by omega⟩)
  have p6 : ∀ sq, push_checked (sx * sy * sz) labels (decide (yi < usub sy 1 ∧ zi > 0))
      (usub (uadd (idx sx sy xi yi zi) sx) (sx * sy)) sq
      = some (sq ++ if decide (yi < usub sy 1 ∧ zi > 0) = true
            ∧ labels (idx sx sy xi yi zi + sx - sx * sy) ≠ 0 then
          [labels (idx sx sy xi yi zi + sx - sx * sy)] else []) := fun sq =>
    push_checked_spec _ _ _ _ _ sq (fun h => by
      obtain ⟨h1', h2⟩ : yi < usub sy 1 ∧ 0 < zi := of_decide_eq_true h
      have h1 : yi + 1 < sy := gy.1 h1'
      have := idx_succ_y sx sy xi yi zi
      have := idx_pred_z sx sy xi (yi + 1) zi h2
      have := idx_lt hx' h1 hz
      rw [uadd_of_lt (show idx sx sy xi yi zi + sx < 2 ^ 64 by omega)]
      exact ⟨usub_of_le (by omega) (by omega), by omega⟩)
  have p7 : ∀ sq, push_checked (sx * sy * sz) labels (decide (yi > 0 ∧ zi < usub sz 1))
      (uadd (usub (idx sx sy xi yi zi) sx) (sx * sy)) sq
      = some (sq ++ if decide (yi > 0 ∧ zi < usub sz 1) = true
            ∧ labels (idx sx sy xi yi zi - sx + sx * sy) ≠ 0 then
          [labels (idx sx sy xi yi zi - sx + sx * sy)] else []) := fun sq =>
    push_checked_spec _ _ _ _ _ sq (fun h => by
      obtain ⟨h1, h2'⟩ : 0 < yi ∧ zi < usub sz 1 := of_decide_eq_true h
      have h2 : zi + 1 < sz := gz.1 h2'
      have := idx_pred_y sx sy xi yi zi h1
      have := idx_succ_z sx sy xi (yi - 1) zi
      have := idx_lt hx' (show yi - 1 < sy by omega) h2
      rw [usub_of_le (show sx ≤ idx sx sy xi yi zi by omega) (by omega)]
      exact ⟨uadd_of_lt (by omega), by omega⟩)
  have p8 : ∀ sq, push_checked (sx * sy * sz) labels
      (decide (yi < usub sy 1 ∧ zi < usub sz 1))
      (uadd (uadd (idx sx sy xi yi zi) sx) (sx * sy)) sq
      = some (sq ++ if decide (yi < usub sy 1 ∧ zi < usub sz 1) = true
            ∧ labels (idx sx sy xi yi zi + sx + sx * sy) ≠ 0 then
          [labels (idx sx sy xi yi zi + sx + sx * sy)] else []) := fun sq =>
    push_checked_spec _ _ _ _ _ sq (fun h => by
      obtain ⟨h1', h2'⟩ : yi < usub sy 1 ∧ zi < usub sz 1 := of_decide_eq_true h
      have h1 : yi + 1 < sy := gy.1 h1'
      have h2 : zi + 1 < sz := gz.1 h2'
      have := idx_succ_y sx sy xi yi zi
      have := idx_succ_z sx sy xi (yi + 1) zi
      have := idx_lt hx' h1 h2
      rw [uadd_of_lt (show idx sx sy xi yi zi + sx < 2 ^ 64 by omega)]
      exact ⟨uadd_of_lt (by omega), by omega⟩)
  rw [List.foldl_cons, Option.some_bind, p0, List.foldl_cons, Option.some_bind, p1,
    List.foldl_cons, Option.some_bind, p2, List.foldl_cons, Option.some_bind, p3,
    List.foldl_cons, Option.some_bind, p4, List.foldl_cons, Option.some_bind, p5,
    List.foldl_cons, Option.some_bind, p6, List.foldl_cons, Option.some_bind, p7,
    List.foldl_cons, Option.some_bind, p8, List.foldl_nil]
  simp only [decide_eq_true_eq, true_and, and_assoc, List.nil_append]

theorem read_checked_of_lt {n : Nat} (buf : Nat → Nat) {i : Nat} (h : i < n) :
    read_checked n buf i = some (buf i) := by
  unfold read_checked; rw [if_pos h]

theorem write_checked_of_lt {n : Nat} (buf : Nat → Nat) {i : Nat} (v : Nat) (h : i < n) :
    write_checked n buf i v = some (store buf i v) := by
  unfold write_checked; rw [if_pos h]

theorem at_checked_of_lt {v : List Nat} {i : Nat} (h : i < v.length) :
    at_checked v i = some (v.getD i 0) := by
  unfold at_checked; rw [if_pos h]

theorem at_pred_checked_of_pos {v : List Nat} {i : Nat} (h1 : 1 ≤ i) (h : i ≤ v.length) :
    at_pred_checked v i = some (v.getD (i - 1) 0) := by
  unfold at_pred_checked; rw [if_pos h1, at_checked_of_lt (by omega)]

/-- Every indexing of `neighbors` in the run scan is within its length. -/
theorem mode_scan_checked_eq (neighbors : List Nat) (size : Nat) (hs : size ≤ neighbors.length) :
    ∀ (fuel i mode_label ct max_ct : Nat), 1 ≤ i →
      mode_scan_checked neighbors size fuel i mode_label ct max_ct
        = some (mode_scan neighbors size fuel i mode_label ct max_ct) := by
  intro fuel
  induction fuel with
  | zero => intro i ml ct mx _; rfl
  | succ fuel ih =>
    intro i ml ct mx hi
    unfold mode_scan_checked mode_scan
    by_cases h : i < size
    · rw [if_pos h, if_pos h, at_checked_of_lt (by omega), at_pred_checked_of_pos hi (by omega)]
      simp only [Option.some_bind]
      by_cases hne : neighbors.getD i 0 ≠ neighbors.getD (i - 1) 0
      · rw [if_pos hne, if_pos hne]
        by_cases hc : ct > mx
        · simp only [if_pos hc, Option.some_bind]
          split
          · rfl
          · exact ih _ _ _ _ (by omega)
        · simp only [if_neg hc, Option.some_bind]
          split
          · rfl
          · exact ih _ _ _ _ (by omega)
      · rw [if_neg hne, if_neg hne]
        exact ih _ _ _ _ (by omega)
    · rw [if_neg h, if_neg h]

/-- Every indexing of the non-empty `neighbors` in the mode selection is within
its length. -/
theorem vote_checked_eq {neighbors : List Nat} (h : 0 < neighbors.length) :
    vote_checked neighbors = some (vote neighbors) := by
  unfold vote_checked vote
  simp only [at_checked_of_lt h, Option.some_bind,
    mode_scan_checked_eq neighbors neighbors.length (le_refl _) _ 1 _ 1 1 (le_refl 1)]
  split
  · rw [at_pred_checked_of_pos h (le_refl _)]; rfl
  · rfl

theorem advance_stencil_checked_eq (labels : Nat → Nat) {sx sy sz y z : Nat} (x : Nat)
    (st : DState) (hn : sx * sy * sz < 2 ^ 64) (hy : y < sy) (hz : z < sz) :
    advance_stencil_checked (sx * sy * sz) labels sx sy sz x y z st
      = some (advance_stencil labels sx sy sz x y z st) := by
  unfold advance_stencil_checked advance_stencil
  rw [fill_checked_eq labels _ hn hy hz]; rfl

theorem refresh_stencil_checked_eq (labels : Nat → Nat) {sx sy sz y z : Nat} (x : Nat)
    (st : DState) (hn : sx * sy * sz < 2 ^ 64) (hy : y < sy) (hz : z < sz) :
    refresh_stencil_checked (sx * sy * sz) labels sx sy sz x y z st
      = some (refresh_stencil labels sx sy sz x y z st) := by
  unfold refresh_stencil_checked refresh_stencil
  simp only [advance_stencil_checked_eq labels _ st hn hy hz, fill_checked_eq labels _ hn hy hz,
    Option.some_bind]
  split
  · rfl
  · split
    · rfl
    · split <;> rfl

/-- Every access made by one execution of the body of the dilation `x` loop at an
in-bounds voxel is in range. -/
theorem dilate_body_checked_eq (labels : Nat → Nat) {sx sy sz x y z : Nat}
    (background_only : Bool) (st : DState)
    (hn : sx * sy * sz < 2 ^ 64) (hx : x < sx) (hy : y < sy) (hz : z < sz) :
    dilate_body_checked (sx * sy * sz) labels sx sy sz background_only x y z st
      = some (dilate_body labels sx sy sz background_only x y z st) := by
  have hA := idx_lt hx hy hz
  obtain ⟨b1, -, -, -⟩ := extent_le_size (show 0 < sx by omega) (show 0 < sy by omega)
    (show 0 < sz by omega)
  have e0 : x + sx * (y + sy * z) = idx sx sy x y z := rfl
  have gx : x < usub sx 1 ↔ x + 1 < sx := lt_usub_one_iff64 hx (by omega)
  have hB : x < usub sx 1 → idx sx sy x y z + 1 < sx * sy * sz := fun h => by
    have := idx_lt (gx.1 h) hy hz
    rw [idx_succ_x] at this; exact this
  have hu : x < usub sx 1 → uadd (idx sx sy x y z) 1 = idx sx sy x y z + 1 := fun h =>
    uadd_of_lt (by have := hB h; omega)
  unfold dilate_body_checked dilate_body
  rw [uloc_eq hn hx hy hz, e0]
  have hr := read_checked_of_lt labels hA
  dsimp only
  have hT : ∀ st1 : DState,
      (if st1.left.length + st1.middle.length + st1.right.length = 0 then
        (advance_stencil_checked (sx * sy * sz) labels sx sy sz x y z st1).bind fun st =>
          some (x, st)
      else
        (if (sort (st1.left ++ st1.middle ++ st1.right)).length ≥ 19 then
            (at_checked (sort (st1.left ++ st1.middle ++ st1.right)) 0).bind fun a =>
              (at_pred_checked (sort (st1.left ++ st1.middle ++ st1.right))
                (sort (st1.left ++ st1.middle ++ st1.right)).length).bind
                fun b => some (decide (a = b))
          else some false).bind
        fun uniform =>
        if uniform = true then
          (at_checked (sort (st1.left ++ st1.middle ++ st1.right)) 0).bind fun v =>
            (write_checked (sx * sy * sz) st1.output (idx sx sy x y z) v).bind fun output =>
              (if x < usub sx 1 then
                  write_checked (sx * sy * sz) output (uadd (idx sx sy x y z) 1) v
                else some output).bind
                fun output =>
                some (x + 1, { st1 with output := output, stale_stencil := 2 })
        else
          (vote_checked (sort (st1.left ++ st1.middle ++ st1.right))).bind fun r =>
            (write_checked (sx * sy * sz) st1.output (idx sx sy x y z) r.1).bind fun output =>
              if r.2 ≥ 19 ∧ x < usub sx 1 then
                (write_checked (sx * sy * sz) output (uadd (idx sx sy x y z) 1) r.1).bind
                  fun output =>
                  some (x + 1, { st1 with output := output, stale_stencil := 2 })
              else some (x, { st1 with output := output, stale_stencil := 1 })) =
      some
        (if st1.left.length + st1.middle.length + st1.right.length = 0 then
          (x, advance_stencil labels sx sy sz x y z st1)
        else
          if (sort (st1.left ++ st1.middle ++ st1.right)).length ≥ 19 ∧
              (sort (st1.left ++ st1.middle ++ st1.right)).getD 0 0 =
                (sort (st1.left ++ st1.middle ++ st1.right)).getD
                  ((sort (st1.left ++ st1.middle ++ st1.right)).length - 1) 0 then
            (x + 1,
              { st1 with
                output :=
                  if x < usub sx 1 then
                    store (store st1.output (idx sx sy x y z)
                        ((sort (st1.left ++ st1.middle ++ st1.right)).getD 0 0))
                      (idx sx sy x y z + 1)
                      ((sort (st1.left ++ st1.middle ++ st1.right)).getD 0 0)
                  else
                    store st1.output (idx sx sy x y z)
                      ((sort (st1.left ++ st1.middle ++ st1.right)).getD 0 0),
                stale_stencil := 2 })
          else
            if (vote (sort (st1.left ++ st1.middle ++ st1.right))).2 ≥ 19 ∧ x < usub sx 1 then
              (x + 1,
                { st1 with
                  output :=
                    store (store st1.output (idx sx sy x y z)
                        (vote (sort (st1.left ++ st1.middle ++ st1.right))).1)
                      (idx sx sy x y z + 1)
                      (vote (sort (st1.left ++ st1.middle ++ st1.right))).1,
                  stale_stencil := 2 })
            else
              (x,
                { st1 with
                  output :=
                    store st1.output (idx sx sy x y z)
                      (vote (sort (st1.left ++ st1.middle ++ st1.right))).1,
                  stale_stencil := 1 })) := by
    intro st1
    by_cases h0 : st1.left.length + st1.middle.length + st1.right.length = 0
    · rw [if_pos h0, if_pos h0, advance_stencil_checked_eq labels x st1 hn hy hz,
        Option.some_bind]
    rw [if_neg h0, if_neg h0]
    have hpos : 0 < (sort (st1.left ++ st1.middle ++ st1.right)).length := by
      rw [(sort_perm _).length_eq, List.length_append, List.length_append]; omega
    generalize sort (st1.left ++ st1.middle ++ st1.right) = nb at hpos ⊢
    have hV : ((vote_checked nb).bind fun r =>
          (write_checked (sx * sy * sz) st1.output (idx sx sy x y z) r.1).bind fun output =>
            if r.2 ≥ 19 ∧ x < usub sx 1 then
              (write_checked (sx * sy * sz) output (uadd (idx sx sy x y z) 1) r.1).bind
                fun output =>
                some (x + 1, { st1 with output := output, stale_stencil := 2 })
            else some (x, { st1 with output := output, stale_stencil := 1 })) =
        some
          (if (vote nb).2 ≥ 19 ∧ x < usub sx 1 then
            (x + 1,
              { st1 with
                output := store (store st1.output (idx sx sy x y z) (vote nb).1)
                  (idx sx sy x y z + 1) (vote nb).1,
                stale_stencil := 2 })
          else
            (x,
              { st1 with
                output := store st1.output (idx sx sy x y z) (vote nb).1,
                stale_stencil := 1 })) := by
      rw [vote_checked_eq hpos, Option.some_bind, write_checked_of_lt _ _ hA, Option.some_bind]
      by_cases hc : (vote nb).2 ≥ 19 ∧ x < usub sx 1
      · rw [if_pos hc, if_pos hc, hu hc.2, write_checked_of_lt _ _ (hB hc.2), Option.some_bind]
      · rw [if_neg hc, if_neg hc]
    by_cases h19 : nb.length ≥ 19
    · rw [if_pos h19, at_checked_of_lt hpos, Option.some_bind,
        at_pred_checked_of_pos hpos (le_refl _), Option.some_bind, Option.some_bind]
      by_cases heq : nb.getD 0 0 = nb.getD (nb.length - 1) 0
      · rw [if_pos (decide_eq_true heq), if_pos ⟨h19, heq⟩, Option.some_bind,
          write_checked_of_lt _ _ hA, Option.some_bind]
        by_cases hxl : x < usub sx 1
        · rw [if_pos hxl, if_pos hxl, hu hxl, write_checked_of_lt _ _ (hB hxl),
            Option.some_bind]
        · rw [if_neg hxl, if_neg hxl, Option.some_bind]
      · rw [if_neg (by rw [decide_eq_true_eq]; exact heq), if_neg (fun h => heq h.2)]
        exact hV
    · rw [if_neg h19, Option.some_bind, if_neg (by decide), if_neg (fun h => h19 h.1)]
      exact hV
  cases background_only
  · rw [if_neg (by decide), Option.some_bind, if_neg (fun h => by cases h.1),
      if_neg (fun h => by cases h.1), refresh_stencil_checked_eq labels x st hn hy hz,
      Option.some_bind]
    exact hT _
  · rw [if_pos rfl, hr, Option.some_bind]
    by_cases hl : labels (idx sx sy x y z) ≠ 0
    · rw [if_pos ⟨rfl, hl⟩, if_pos ⟨rfl, hl⟩, Option.some_bind, write_checked_of_lt _ _ hA,
        Option.some_bind]
    · rw [if_neg (fun h => hl h.2), if_neg (fun h => hl h.2),
        refresh_stencil_checked_eq labels x st hn hy hz, Option.some_bind]
      exact hT _

theorem dilate_row_checked_eq (labels : Nat → Nat) {sx sy sz xe y z : Nat}
    (background_only : Bool)
    (hn : sx * sy * sz < 2 ^ 64) (hxe : xe ≤ sx) (hy : y < sy) (hz : z < sz) :
    ∀ (fuel x : Nat) (st : DState),
      dilate_row_checked (sx * sy * sz) labels sx sy sz background_only xe y z fuel x st
        = some (dilate_row labels sx sy sz background_only xe y z fuel x st) := by
  intro fuel
  induction fuel with
  | zero => intro x st; rfl
  | succ fuel ih =>
    intro x st
    unfold dilate_row_checked dilate_row
    by_cases h : x < xe
    · rw [if_pos h, if_pos h,
        dilate_body_checked_eq labels background_only st hn (by omega) hy hz, Option.some_bind]
      exact ih _ _
    · rw [if_neg h, if_neg h]

/-- A fold of checked steps that all succeed is the fold of the unchecked steps. -/
theorem foldl_bind_some {α β : Type} (f : α → β → Option α) (g : α → β → α) (l : List β)
    (h : ∀ a, ∀ b ∈ l, f a b = some (g a b)) (a : α) :
    l.foldl (fun acc b => acc.bind fun a => f a b) (some a) = some (l.foldl g a) := by
  induction l generalizing a with
  | nil => rfl
  | cons b l ih =>
    rw [List.foldl_cons, List.foldl_cons, Option.some_bind, h a b (List.mem_cons_self _ _)]
    exact ih (fun a c hc => h a c (List.mem_cons_of_mem _ hc)) _

/-- Every access made by the dilation kernel on a box inside the volume is in
range. -/
theorem dilate_block_checked_eq (labels : Nat → Nat) {sx sy sz : Nat} (background_only : Bool)
    (b : Box) (output : Nat → Nat)
    (hn : sx * sy * sz < 2 ^ 64) (hb : b.inside sx sy sz) :
    dilate_block_checked (sx * sy * sz) labels sx sy sz background_only b output
      = some (dilate_block_state labels sx sy sz background_only b output) := by
  obtain ⟨hxe, hye, hze⟩ := hb
  unfold dilate_block_checked dilate_block_state
  refine foldl_bind_some _ _ _ (fun st z hz => ?_) _
  have hz' : z < sz := by have := List.mem_range'_1.1 hz; omega
  refine foldl_bind_some _ _ _ (fun st y hy => ?_) _
  have hy' : y < sy := by have := List.mem_range'_1.1 hy; omega
  exact dilate_row_checked_eq labels background_only hn hxe hy' hz' _ _ _

theorem ite_single_length_le (c : Prop) [Decidable c] (a : Nat) :
    (if c then [a] else []).length ≤ 1 := by
  split <;> simp

/-- A column holds at most nine labels, whatever the shape. -/
theorem fill_length_le_nine (labels : Nat → Nat) (sx sy sz xi yi zi : Nat) :
    (fill_partial_stencil_fn labels sx sy sz xi yi zi).length ≤ 9 := by
  unfold fill_partial_stencil_fn
  split
  · simp
  · simp only [ite_push, List.nil_append, List.length_append]
    have h := fun (c : Prop) (_ : Decidable c) (a : Nat) => ite_single_length_le c a
    exact Nat.add_le_add (Nat.add_le_add (Nat.add_le_add (Nat.add_le_add
      (Nat.add_le_add (Nat.add_le_add (Nat.add_le_add (Nat.add_le_add
        (h _ _ _) (h _ _ _)) (h _ _ _)) (h _ _ _)) (h _ _ _)) (h _ _ _)) (h _ _ _)) (h _ _ _))
      (h _ _ _)

theorem at9_checked_of_lt {v : List Nat} {i : Nat} (hv : v.length = 9) (hi : i < 9) :
    at9_checked v i = some (v.getD i 0) := by
  unfold at9_checked; rw [if_pos ⟨hv, hi⟩]

theorem eq_checked_some (u v : Nat) : eq_checked (some u) (some v) = some (decide (u = v)) := rfl

theorem and_checked_some (p q : Bool) : and_checked (some p) (some q) = some (p && q) := by
  cases p <;> rfl

theorem is_pure_fold (square : List Nat) (hv : square.length = 9) (l : List Nat)
    (hl : ∀ i ∈ l, i < 9) (b : Bool) :
    l.foldl
      (fun acc i => acc.bind fun same =>
        if same = true then eq_checked (at9_checked square i) (at9_checked square (i - 1))
        else some false)
      (some b)
      = some (b && l.all fun i => decide (square.getD i 0 = square.getD (i - 1) 0)) := by
  induction l generalizing b with
  | nil => simp
  | cons i l ih =>
    have hi : i < 9 := hl i (List.mem_cons_self _ _)
    rw [List.foldl_cons, Option.some_bind, List.all_cons]
    cases b
    · rw [if_neg (by decide), ih (fun j hj => hl j (List.mem_cons_of_mem _ hj))]
      rfl
    · rw [if_pos rfl, at9_checked_of_lt hv hi, at9_checked_of_lt hv (by omega), eq_checked_some,
        ih (fun j hj => hl j (List.mem_cons_of_mem _ hj)), Bool.true_and]

/-- On a column of at most nine labels, every indexing made by the purity test is
made on a list of length nine. -/
theorem is_pure_checked_eq {square : List Nat} (h : square.length ≤ 9) :
    is_pure_checked square = some (is_pure square) := by
  unfold is_pure_checked is_pure
  by_cases h9 : square.length < 9
  · rw [if_pos h9, if_pos h9]
  · rw [if_neg h9, if_neg h9, is_pure_fold square (by omega) _ (fun i hi => by
      have := List.mem_range'_1.1 hi; omega), Bool.true_and]

theorem is_pure_length {square : List Nat} (h : square.length ≤ 9)
    (hp : is_pure square = true) : square.length = 9 := by
  unfold is_pure at hp
  by_cases h9 : square.length < 9
  · rw [if_pos h9] at hp; cases hp
  · omega

theorem fill_is_pure_checked (labels : Nat → Nat) (sx sy sz xi yi zi : Nat) :
    is_pure_checked (fill_partial_stencil_fn labels sx sy sz xi yi zi)
      = some (is_pure (fill_partial_stencil_fn labels sx sy sz xi yi zi)) :=
  is_pure_checked_eq (fill_length_le_nine labels sx sy sz xi yi zi)

theorem fill_pure_length (labels : Nat → Nat) (sx sy sz xi yi zi : Nat)
    (hp : is_pure (fill_partial_stencil_fn labels sx sy sz xi yi zi) = true) :
    (fill_partial_stencil_fn labels sx sy sz xi yi zi).length = 9 :=
  is_pure_length (fill_length_le_nine labels sx sy sz xi yi zi) hp

theorem erode_advance_stencil_checked_eq (labels : Nat → Nat) {sx sy sz y z : Nat} (x : Nat)
    (st : EState) (hn : sx * sy * sz < 2 ^ 64) (hy : y < sy) (hz : z < sz) :
    erode_advance_stencil_checked (sx * sy * sz) labels sx sy sz x y z st
      = some (erode_advance_stencil labels sx sy sz x y z st) := by
  unfold erode_advance_stencil_checked erode_advance_stencil
  rw [fill_checked_eq labels _ hn hy hz, Option.some_bind, fill_is_pure_checked,
    Option.some_bind]

theorem erode_advance_stencil_flags (labels : Nat → Nat) (sx sy sz x y z : Nat)
    (st : EState) (hf : flags_ok st) :
    flags_ok (erode_advance_stencil labels sx sy sz x y z st) :=
  ⟨hf.2.1, hf.2.2, fill_pure_length labels sx sy sz _ y z⟩

theorem erode_finish_flags (labels : Nat → Nat) (sx sy x y z : Nat)
    (st : EState) (hf : flags_ok st) :
    flags_ok (erode_finish labels sx sy x y z st).2 := by
  unfold erode_finish
  dsimp only
  split_ifs <;> exact hf

/-- Every access of the final purity test and write of the erosion kernel is in
range: the first elements of the three columns are read on lists of length nine. -/
theorem erode_finish_checked_eq (labels : Nat → Nat) {sx sy sz x y z : Nat}
    (st : EState) (hn : sx * sy * sz < 2 ^ 64) (hx : x < sx) (hy : y < sy) (hz : z < sz)
    (hf : flags_ok st) :
    erode_finish_checked (sx * sy * sz) labels sx sy x y z st
      = some (erode_finish labels sx sy x y z st) := by
  have hA := idx_lt hx hy hz
  have e0 : x + sx * (y + sy * z) = idx sx sy x y z := rfl
  have hr := read_checked_of_lt labels hA
  unfold erode_finish_checked erode_finish
  rw [uloc_eq hn hx hy hz, e0]
  dsimp only
  by_cases h1 : ¬ st.pure_right = true
  · rw [if_pos h1, if_pos h1]
  rw [if_neg h1, if_neg h1]
  by_cases h2 : ¬ st.pure_middle = true
  · rw [if_pos h2, if_pos h2]
  rw [if_neg h2, if_neg h2]
  by_cases h3 : st.pure_left = true
  · rw [if_pos h3, if_pos h3, hr, at9_checked_of_lt (hf.1 h3) (by decide),
      at9_checked_of_lt (hf.2.1 (not_not.1 h2)) (by decide),
      at9_checked_of_lt (hf.2.2 (not_not.1 h1)) (by decide),
      eq_checked_some, eq_checked_some, eq_checked_some, and_checked_some, and_checked_some,
      Option.some_bind]
    by_cases hc : labels (idx sx sy x y z) = st.left.getD 0 0
        ∧ labels (idx sx sy x y z) = st.middle.getD 0 0
        ∧ labels (idx sx sy x y z) = st.right.getD 0 0
    · rw [if_pos hc, if_pos (by simp only [Bool.and_eq_true, decide_eq_true_eq]; exact hc),
        Option.some_bind, write_checked_of_lt _ _ hA, Option.some_bind]
    · rw [if_neg hc, if_neg (by simp only [Bool.and_eq_true, decide_eq_true_eq]; exact hc)]
  · rw [if_neg h3, if_neg h3]

/-- Every access made by one execution of the body of the erosion `x` loop at an
in-bounds voxel is in range, and the purity flags keep vouching for the columns. -/
theorem erode_body_checked_eq (labels : Nat → Nat) {sx sy sz x y z : Nat}
    (st : EState) (hn : sx * sy * sz < 2 ^ 64) (hx : x < sx) (hy : y < sy) (hz : z < sz)
    (hf : flags_ok st) :
    erode_body_checked (sx * sy * sz) labels sx sy sz x y z st
        = some (erode_body labels sx sy sz x y z st)
      ∧ flags_ok (erode_body labels sx sy sz x y z st).2 := by
  have hA := idx_lt hx hy hz
  have e0 : x + sx * (y + sy * z) = idx sx sy x y z := rfl
  have hr := read_checked_of_lt labels hA
  have hfin : ∀ st1 : EState, flags_ok st1 →
      erode_finish_checked (sx * sy * sz) labels sx sy x y z st1
          = some (erode_finish labels sx sy x y z st1)
        ∧ flags_ok (erode_finish labels sx sy x y z st1).2 := fun st1 h1 =>
    ⟨erode_finish_checked_eq labels st1 hn hx hy hz h1, erode_finish_flags labels sx sy x y z st1 h1⟩
  unfold erode_body_checked erode_body
  rw [uloc_eq hn hx hy hz, e0]
  dsimp only
  rw [hr, Option.some_bind]
  by_cases hl : labels (idx sx sy x y z) = 0
  · rw [if_pos hl, if_pos hl]; exact ⟨rfl, hf⟩
  rw [if_neg hl, if_neg hl]
  by_cases s1 : st.stale_stencil = 1
  · rw [if_pos s1, if_pos s1, erode_advance_stencil_checked_eq labels _ st hn hy hz,
      Option.some_bind]
    exact hfin _ (erode_advance_stencil_flags labels sx sy sz _ y z st hf)
  rw [if_neg s1, if_neg s1]
  by_cases s2 : st.stale_stencil = 2
  · rw [if_pos s2, if_pos s2, fill_checked_eq labels _ hn hy hz, Option.some_bind,
      fill_is_pure_checked, Option.some_bind]
    by_cases p : ¬ is_pure (fill_partial_stencil_fn labels sx sy sz (uadd x 1) y z) = true
    · rw [if_pos p, if_pos p]
      exact ⟨rfl, hf.2.2, hf.2.1, fill_pure_length labels sx sy sz _ y z⟩
    · rw [if_neg p, if_neg p, fill_checked_eq labels _ hn hy hz, Option.some_bind,
        fill_is_pure_checked, Option.some_bind]
      exact hfin _ ⟨hf.2.2, fill_pure_length labels sx sy sz _ y z,
        fill_pure_length labels sx sy sz _ y z⟩
  rw [if_neg s2, if_neg s2]
  by_cases s3 : st.stale_stencil ≥ 3
  · rw [if_pos s3, if_pos s3, fill_checked_eq labels _ hn hy hz, Option.some_bind,
      fill_is_pure_checked, Option.some_bind]
    by_cases p : ¬ is_pure (fill_partial_stencil_fn labels sx sy sz (uadd x 1) y z) = true
    · rw [if_pos p, if_pos p]
      exact ⟨rfl, hf.1, hf.2.1, fill_pure_length labels sx sy sz _ y z⟩
    · rw [if_neg p, if_neg p, fill_checked_eq labels _ hn hy hz, Option.some_bind,
        fill_is_pure_checked, Option.some_bind]
      by_cases q : ¬ is_pure (fill_partial_stencil_fn labels sx sy sz x y z) = true
      · rw [if_pos q, if_pos q]
        exact ⟨rfl, hf.1, fill_pure_length labels sx sy sz _ y z,
          fill_pure_length labels sx sy sz _ y z⟩
      · rw [if_neg q, if_neg q, fill_checked_eq labels _ hn hy hz, Option.some_bind,
          fill_is_pure_checked, Option.some_bind]
        exact hfin _ ⟨fill_pure_length labels sx sy sz _ y z,
          fill_pure_length labels sx sy sz _ y z, fill_pure_length labels sx sy sz _ y z⟩
  · rw [if_neg s3, if_neg s3]
    exact hfin st hf

theorem erode_row_checked_eq (labels : Nat → Nat) {sx sy sz xe y z : Nat}
    (hn : sx * sy * sz < 2 ^ 64) (hxe : xe ≤ sx) (hy : y < sy) (hz : z < sz) :
    ∀ (fuel x : Nat) (st : EState), flags_ok st →
      erode_row_checked (sx * sy * sz) labels sx sy sz xe y z fuel x st
          = some (erode_row labels sx sy sz xe y z fuel x st)
        ∧ flags_ok (erode_row labels sx sy sz xe y z fuel x st) := by
  intro fuel
  induction fuel with
  | zero => intro x st hf; exact ⟨rfl, hf⟩
  | succ fuel ih =>
    intro x st hf
    unfold erode_row_checked erode_row
    by_cases h : x < xe
    · obtain ⟨e, hf'⟩ := erode_body_checked_eq labels st hn (show x < sx by omega) hy hz hf
      rw [if_pos h, if_pos h, e, Option.some_bind]
      exact ih _ _ hf'
    · rw [if_neg h, if_neg h]; exact ⟨rfl, hf⟩

/-- A fold of checked steps that all succeed on the states of an invariant is the
fold of the unchecked steps, and the invariant holds at the end. -/
theorem foldl_bind_some_inv {α β : Type} (I : α → Prop) (f : α → β → Option α)
    (g : α → β → α) (l : List β)
    (h : ∀ a, I a → ∀ b ∈ l, f a b = some (g a b) ∧ I (g a b)) (a : α) (ha : I a) :
    l.foldl (fun acc b => acc.bind fun a => f a b) (some a) = some (l.foldl g a)
      ∧ I (l.foldl g a) := by
  induction l generalizing a with
  | nil => exact ⟨rfl, ha⟩
  | cons b l ih =>
    obtain ⟨e, hb⟩ := h a ha b (List.mem_cons_self _ _)
    rw [List.foldl_cons, List.foldl_cons, Option.some_bind, e]
    exact ih (fun a ha c hc => h a ha c (List.mem_cons_of_mem _ hc)) _ hb

/-- Every access made by the erosion kernel on a box inside the volume is in
range. -/
theorem erode_block_checked_eq (labels : Nat → Nat) {sx sy sz : Nat}
    (b : Box) (output : Nat → Nat)
    (hn : sx * sy * sz < 2 ^ 64) (hb : b.inside sx sy sz) :
    erode_block_checked (sx * sy * sz) labels sx sy sz b output
      = some (erode_block_state labels sx sy sz b output) := by
  obtain ⟨hxe, hye, hze⟩ := hb
  unfold erode_block_checked erode_block_state
  refine (foldl_bind_some_inv flags_ok _ _ _ (fun st hst z hz => ?_) _ ?_).1
  · have hz' : z < sz := by have := List.mem_range'_1.1 hz; omega
    refine foldl_bind_some_inv flags_ok _ _ _ (fun st hst y hy => ?_) _ hst
    have hy' : y < sy := by have := List.mem_range'_1.1 hy; omega
    exact erode_row_checked_eq labels hn hxe hy' hz' _ _ _ hst
  · exact ⟨fun h => (by cases h), fun h => (by cases h), fun h => (by cases h)⟩

/-- C16. No access of the kernels is out of range: for every shape whose element
count `sx*sy*sz` fits in 64 bits and every tile of the scheduler, the dilation and
the erosion kernel run with every read of the input, every write of the output
(`loc`, `loc±sx`, `loc±sxy`, `loc±sx±sxy`, and `loc+1` of the two-voxel writes),
every indexing of `neighbors` and every indexing of a column (`left[0]`,
`middle[0]`, `right[0]`, `square[i]`, the latter four on lists of length nine only)
checked, and no check fails: the checked kernels return the states of the
unchecked kernels. -/
theorem kernels_access_in_range (labels : Nat → Nat) (sx sy sz : Nat)
    (background_only : Bool) (b : Box) (output : Nat → Nat)
    (hn : sx * sy * sz < 2 ^ 64) (hb : b ∈ tiles sx sy sz) :
    dilate_block_checked (sx * sy * sz) labels sx sy sz background_only b output
        = some (dilate_block_state labels sx sy sz background_only b output)
      ∧ erode_block_checked (sx * sy * sz) labels sx sy sz b output
        = some (erode_block_state labels sx sy sz b output) :=
  ⟨dilate_block_checked_eq labels background_only b output hn (tiles_inside hb),
    erode_block_checked_eq labels b output hn (tiles_inside hb)⟩

/-- Instance of `kernels_access_in_range` on the 5x5x5 volume `volume_cube` and its
only tile. -/
theorem kernels_access_in_range_witness :
    (5 * 5 * 5 < 2 ^ 64 ∧ tile 5 5 5 0 0 0 ∈ tiles 5 5 5)
      ∧ (dilate_block_checked (5 * 5 * 5) volume_cube 5 5 5 false (tile 5 5 5 0 0 0) zero_buffer
            = some (dilate_block_state volume_cube 5 5 5 false (tile 5 5 5 0 0 0) zero_buffer)
          ∧ erode_block_checked (5 * 5 * 5) volume_cube 5 5 5 (tile 5 5 5 0 0 0) zero_buffer
            = some (erode_block_state volume_cube 5 5 5 (tile 5 5 5 0 0 0) zero_buffer)) :=
  ⟨⟨by decide, by decide⟩,
    kernels_access_in_range volume_cube 5 5 5 false (tile 5 5 5 0 0 0) zero_buffer
      (by decide) (by decide)⟩

set_option maxRecDepth 100000 in
/-- The checks are live: on a box that sticks out of the 3x3x3 volume along `x`,
the checked kernels stop at an access past the end of the buffer. -/
theorem checked_kernels_detect_overrun :
    (dilate_block_checked 27 volume_hole 3 3 3 false ⟨0, 4, 0, 3, 0, 3⟩ zero_buffer).isNone = true
      ∧ (erode_block_checked 27 volume_line 3 3 3 ⟨0, 4, 0, 3, 0, 3⟩ zero_buffer).isNone
          = true := by
  decide

/-! ## The first two-voxel fast path in the kernel -/

theorem getD_mem_of_lt {l : List Nat} {i : Nat} (h : i < l.length) : l.getD i 0 ∈ l := by
  rw [List.getD_eq_getElem l 0 h]
  exact List.getElem_mem h

theorem store_same (buf : Nat → Nat) (i v : Nat) : store buf i v i = v := by
  unfold store; rw [if_pos rfl]

theorem store_other (buf : Nat → Nat) {i j : Nat} (v : Nat) (h : j ≠ i) :
    store buf i v j = buf j := by
  unfold store; rw [if_neg h]

/-- The first two-voxel fast path at one loop head: entered with a state that
satisfies the cache invariant at a voxel that is not passed through, the test of
lines 156-157 on the sorted `neighbors` holds exactly when the window of the
specification holds at least 19 labels, all equal; then the body writes that
label at `(x, y, z)` and `(x+1, y, z)`, nowhere else, and skips `x+1`; and when
the test fails, `x+1` is skipped only by the second fast path. -/
theorem first_fast_path_step (labels : Nat → Nat) (sx sy sz x y z : Nat)
    (background_only : Bool) (st : DState)
    (hsx : sx < 2 ^ 63) (hsy : sy < 2 ^ 63) (hsz : sz < 2 ^ 63)
    (hx : x + 1 < sx) (hy : y < sy) (hz : z < sz)
    (hinv : dilate_inv labels sx sy sz x y z st)
    (hgo : ¬ (background_only = true ∧ labels (idx sx sy x y z) ≠ 0)) :
    ((((sort ((refresh_stencil labels sx sy sz x y z st).left
            ++ (refresh_stencil labels sx sy sz x y z st).middle
            ++ (refresh_stencil labels sx sy sz x y z st).right)).length ≥ 19
          ∧ (sort ((refresh_stencil labels sx sy sz x y z st).left
            ++ (refresh_stencil labels sx sy sz x y z st).middle
            ++ (refresh_stencil labels sx sy sz x y z st).right)).getD 0 0
            = (sort ((refresh_stencil labels sx sy sz x y z st).left
            ++ (refresh_stencil labels sx sy sz x y z st).middle
            ++ (refresh_stencil labels sx sy sz x y z st).right)).getD
                ((sort ((refresh_stencil labels sx sy sz x y z st).left
            ++ (refresh_stencil labels sx sy sz x y z st).middle
            ++ (refresh_stencil labels sx sy sz x y z st).right)).length - 1) 0)
        ↔ (19 ≤ (window_labels labels sx sy sz x y z).length
            ∧ ∃ L, ∀ v ∈ window_labels labels sx sy sz x y z, v = L))
      ∧ (∀ L, 19 ≤ (window_labels labels sx sy sz x y z).length →
          (∀ v ∈ window_labels labels sx sy sz x y z, v = L) →
          (dilate_body labels sx sy sz background_only x y z st).1 = x + 1
            ∧ (dilate_body labels sx sy sz background_only x y z st).2.output
                (idx sx sy x y z) = L
            ∧ (dilate_body labels sx sy sz background_only x y z st).2.output
                (idx sx sy (x + 1) y z) = L
            ∧ (∀ i, i ≠ idx sx sy x y z → i ≠ idx sx sy (x + 1) y z →
                (dilate_body labels sx sy sz background_only x y z st).2.output i
                  = st.output i)
            ∧ 10 ≤ (window_labels labels sx sy sz (x + 1) y z).count L
            ∧ (∀ M, M ≠ L →
                (window_labels labels sx sy sz (x + 1) y z).count M
                  < (window_labels labels sx sy sz (x + 1) y z).count L)
            ∧ (labels (idx sx sy (x + 1) y z) = 0
                ∨ labels (idx sx sy (x + 1) y z) = L)
            ∧ plurality (window_labels labels sx sy sz x y z) = L
            ∧ plurality (window_labels labels sx sy sz (x + 1) y z) = L)
      ∧ (¬ ((sort ((refresh_stencil labels sx sy sz x y z st).left
            ++ (refresh_stencil labels sx sy sz x y z st).middle
            ++ (refresh_stencil labels sx sy sz x y z st).right)).length ≥ 19
          ∧ (sort ((refresh_stencil labels sx sy sz x y z st).left
            ++ (refresh_stencil labels sx sy sz x y z st).middle
            ++ (refresh_stencil labels sx sy sz x y z st).right)).getD 0 0
            = (sort ((refresh_stencil labels sx sy sz x y z st).left
            ++ (refresh_stencil labels sx sy sz x y z st).middle
            ++ (refresh_stencil labels sx sy sz x y z st).right)).getD
                ((sort ((refresh_stencil labels sx sy sz x y z st).left
            ++ (refresh_stencil labels sx sy sz x y z st).middle
            ++ (refresh_stencil labels sx sy sz x y z st).right)).length - 1) 0) →
          (dilate_body labels sx sy sz background_only x y z st).1 = x + 1 →
          (vote
            (sort ((refresh_stencil labels sx sy sz x y z st).left
              ++ (refresh_stencil labels sx sy sz x y z st).middle
              ++ (refresh_stencil labels sx sy sz x y z st).right))).2 ≥ 19)) := by
  have hx0 : x < sx := by omega
  obtain ⟨rl, rm, rr, -, -⟩ := refresh_stencil_fresh labels hsx hx0 st hinv
  have hkw : (refresh_stencil labels sx sy sz x y z st).left
      ++ (refresh_stencil labels sx sy sz x y z st).middle
      ++ (refresh_stencil labels sx sy sz x y z st).right
      = kernel_window labels sx sy sz x y z := by
    rw [rl, rm, rr]; rfl
  rw [hkw]
  have p0 := window_labels_perm labels hsx hsy hsz hx0 hy hz
  have ps := sort_perm (kernel_window labels sx sy sz x y z)
  have pw : (sort (kernel_window labels sx sy sz x y z)).Perm
      (window_labels labels sx sy sz x y z) := ps.trans p0.symm
  have hlen := pw.length_eq
  obtain ⟨r1, r2, -⟩ := dilate_body_refines labels background_only hsx hx0 st hinv
  have e0 : x + sx * (y + sy * z) = idx sx sy x y z := rfl
  have htest : ∀ L, 19 ≤ (window_labels labels sx sy sz x y z).length →
      (∀ v ∈ window_labels labels sx sy sz x y z, v = L) →
      (sort (kernel_window labels sx sy sz x y z)).length ≥ 19
        ∧ (sort (kernel_window labels sx sy sz x y z)).getD 0 0 = L
        ∧ (sort (kernel_window labels sx sy sz x y z)).getD
            ((sort (kernel_window labels sx sy sz x y z)).length - 1) 0 = L := by
    intro L h19 hall
    refine ⟨by omega, ?_, ?_⟩
    · exact hall _ (pw.subset (getD_mem_of_lt (by omega)))
    · exact hall _ (pw.subset (getD_mem_of_lt (by omega)))
  refine ⟨⟨fun h => ?_, fun h => ?_⟩, fun L h19 hall => ?_, fun hT h1 => ?_⟩
  · refine ⟨by omega, (sort (kernel_window labels sx sy sz x y z)).getD 0 0, fun v hv => ?_⟩
    exact sorted_all_eq _ (fun hnil => by rw [hnil] at h; simp at h)
      (sort_pairwise _) h.2 v (pw.symm.subset hv)
  · obtain ⟨h19, L, hall⟩ := h
    obtain ⟨a, b, c⟩ := htest L h19 hall
    exact ⟨a, b.trans c.symm⟩
  · obtain ⟨a, b, c⟩ := htest L h19 hall
    have hxl : x < usub sx 1 := (lt_usub_one_iff hx0 hsx).2 hx
    have hne : ¬ (kernel_window labels sx sy sz x y z).length = 0 := by
      rw [← ps.length_eq]; omega
    have hbody : dilate_body_ref labels sx sy sz background_only x y z st.output
        = (x + 1, store (store st.output (idx sx sy x y z) L) (idx sx sy x y z + 1) L) := by
      unfold dilate_body_ref
      rw [e0]
      dsimp only
      rw [if_neg hgo, if_neg hne, if_pos ⟨a, b.trans c.symm⟩, if_pos hxl, b]
    rw [r1, r2, hbody]
    have hcarry := uniform_window_carries labels sx sy sz x y z L hsx hsy hsz hx hy hz h19 hall
    have hs := idx_succ_x sx sy x y z
    refine ⟨rfl, ?_, ?_, fun i h1 h2 => ?_, hcarry⟩
    · show store (store st.output (idx sx sy x y z) L) (idx sx sy x y z + 1) L
        (idx sx sy x y z) = L
      rw [store_other _ _ (by omega), store_same]
    · show store (store st.output (idx sx sy x y z) L) (idx sx sy x y z + 1) L
        (idx sx sy (x + 1) y z) = L
      rw [hs, store_same]
    · show store (store st.output (idx sx sy x y z) L) (idx sx sy x y z + 1) L i = st.output i
      rw [store_other _ _ (by omega), store_other _ _ h1]
  · rw [r1] at h1
    unfold dilate_body_ref at h1
    rw [e0] at h1
    dsimp only at h1
    rw [if_neg hgo] at h1
    by_cases hne : (kernel_window labels sx sy sz x y z).length = 0
    · rw [if_pos hne] at h1
      exact absurd h1 (by show ¬ x = x + 1; omega)
    · rw [if_neg hne, if_neg hT] at h1
      by_cases hc : (vote (sort (kernel_window labels sx sy sz x y z))).2 ≥ 19 ∧ x < usub sx 1
      · exact hc.1
      · rw [if_neg hc] at h1
        exact absurd h1 (by show ¬ x = x + 1; omega)

/-- C12. The first two-voxel fast path is sound.  At every loop head `(x, st)` of
every row of every box with `xe <= sx`, with `x < sx - 1` and the voxel not passed
through: the kernel's test `size >= 19 && neighbors[0] == neighbors[size-1]`
(lines 156-157, on the sorted columns after the staleness dispatch) holds exactly
when the non-zero in-bounds labels of the window of `(x, y, z)` number at least
19 and all equal one label; when they all equal `L`, the body stores `L` at
`output[x,y,z]` and `output[x+1,y,z]`, changes no other element and skips `x+1`,
the window of `(x+1, y, z)` holds at least 10 copies of `L`, every other label
occurs there strictly less often, `input[x+1,y,z]` is 0 or `L`, and `L` is the
plurality label of both windows; and when the test fails, `x+1` is skipped only
by the second fast path (final run of length at least 19). -/
theorem first_fast_path_sound (labels : Nat → Nat) (sx sy sz : Nat) (background_only : Bool)
    (hsx : sx < 2 ^ 63) (hsy : sy < 2 ^ 63) (hsz : sz < 2 ^ 63) (b : Box) (hxe : b.xe ≤ sx) :
    ∀ (y z fuel : Nat) (st0 : DState), y < sy → z < sz →
      ∀ p ∈ dilate_row_heads labels sx sy sz background_only b.xe y z fuel b.xs
          { st0 with stale_stencil := 3 },
        p.1 + 1 < sx →
        ¬ (background_only = true ∧ labels (idx sx sy p.1 y z) ≠ 0) →
          ((((sort ((refresh_stencil labels sx sy sz p.1 y z p.2).left
                  ++ (refresh_stencil labels sx sy sz p.1 y z p.2).middle
                  ++ (refresh_stencil labels sx sy sz p.1 y z p.2).right)).length ≥ 19
                ∧ (sort ((refresh_stencil labels sx sy sz p.1 y z p.2).left
                  ++ (refresh_stencil labels sx sy sz p.1 y z p.2).middle
                  ++ (refresh_stencil labels sx sy sz p.1 y z p.2).right)).getD 0 0
                  = (sort ((refresh_stencil labels sx sy sz p.1 y z p.2).left
                  ++ (refresh_stencil labels sx sy sz p.1 y z p.2).middle
                  ++ (refresh_stencil labels sx sy sz p.1 y z p.2).right)).getD
                      ((sort ((refresh_stencil labels sx sy sz p.1 y z p.2).left
                  ++ (refresh_stencil labels sx sy sz p.1 y z p.2).middle
                  ++ (refresh_stencil labels sx sy sz p.1 y z p.2).right)).length - 1) 0)
              ↔ (19 ≤ (window_labels labels sx sy sz p.1 y z).length
                  ∧ ∃ L, ∀ v ∈ window_labels labels sx sy sz p.1 y z, v = L))
            ∧ (∀ L, 19 ≤ (window_labels labels sx sy sz p.1 y z).length →
                (∀ v ∈ window_labels labels sx sy sz p.1 y z, v = L) →
                (dilate_body labels sx sy sz background_only p.1 y z p.2).1 = p.1 + 1
                  ∧ (dilate_body labels sx sy sz background_only p.1 y z p.2).2.output
                      (idx sx sy p.1 y z) = L
                  ∧ (dilate_body labels sx sy sz background_only p.1 y z p.2).2.output
                      (idx sx sy (p.1 + 1) y z) = L
                  ∧ (∀ i, i ≠ idx sx sy p.1 y z → i ≠ idx sx sy (p.1 + 1) y z →
                      (dilate_body labels sx sy sz background_only p.1 y z p.2).2.output i
                        = p.2.output i)
                  ∧ 10 ≤ (window_labels labels sx sy sz (p.1 + 1) y z).count L
                  ∧ (∀ M, M ≠ L →
                      (window_labels labels sx sy sz (p.1 + 1) y z).count M
                        < (window_labels labels sx sy sz (p.1 + 1) y z).count L)
                  ∧ (labels (idx sx sy (p.1 + 1) y z) = 0
                      ∨ labels (idx sx sy (p.1 + 1) y z) = L)
                  ∧ plurality (window_labels labels sx sy sz p.1 y z) = L
                  ∧ plurality (window_labels labels sx sy sz (p.1 + 1) y z) = L)
            ∧ (¬ ((sort ((refresh_stencil labels sx sy sz p.1 y z p.2).left
                  ++ (refresh_stencil labels sx sy sz p.1 y z p.2).middle
                  ++ (refresh_stencil labels sx sy sz p.1 y z p.2).right)).length ≥ 19
                ∧ (sort ((refresh_stencil labels sx sy sz p.1 y z p.2).left
                  ++ (refresh_stencil labels sx sy sz p.1 y z p.2).middle
                  ++ (refresh_stencil labels sx sy sz p.1 y z p.2).right)).getD 0 0
                  = (sort ((refresh_stencil labels sx sy sz p.1 y z p.2).left
                  ++ (refresh_stencil labels sx sy sz p.1 y z p.2).middle
                  ++ (refresh_stencil labels sx sy sz p.1 y z p.2).right)).getD
                      ((sort ((refresh_stencil labels sx sy sz p.1 y z p.2).left
                  ++ (refresh_stencil labels sx sy sz p.1 y z p.2).middle
                  ++ (refresh_stencil labels sx sy sz p.1 y z p.2).right)).length - 1) 0) →
                (dilate_body labels sx sy sz background_only p.1 y z p.2).1 = p.1 + 1 →
                (vote
                  (sort ((refresh_stencil labels sx sy sz p.1 y z p.2).left
                    ++ (refresh_stencil labels sx sy sz p.1 y z p.2).middle
                    ++ (refresh_stencil labels sx sy sz p.1 y z p.2).right))).2 ≥ 19)) := by
  intro y z fuel st0 hy hz p hp hx hgo
  obtain ⟨-, hinv⟩ := dilate_row_heads_inv labels background_only hsx hxe fuel b.xs
    { st0 with stale_stencil := 3 } ⟨by simp, by simp, by simp⟩ p hp
  exact first_fast_path_step labels sx sy sz p.1 y z background_only p.2 hsx hsy hsz hx hy hz
    hinv hgo

set_option maxRecDepth 100000 in
/-- Instance of `first_fast_path_sound` on the first tile of the 96x3x3 volume
`volume_slab`: row `(1, 1)` reaches the loop head `x = 63` with staleness 1, and
the window of `(63,1,1)` holds 27 copies of label 5. -/
theorem first_fast_path_sound_witness :
    (96 < 2 ^ 63 ∧ 3 < 2 ^ 63 ∧ 3 < 2 ^ 63 ∧ (tile 96 3 3 0 0 0).xe ≤ 96
        ∧ (63, 1) ∈ (dilate_row_heads volume_slab 96 3 3 false 64 1 1 64 0
            dilate_row_start).map (fun p => (p.1, p.2.stale_stencil))
        ∧ 19 ≤ (window_labels volume_slab 96 3 3 63 1 1).length
        ∧ ∀ v ∈ window_labels volume_slab 96 3 3 63 1 1, v = 5)
      ∧ (∀ (y z fuel : Nat) (st0 : DState), y < 3 → z < 3 →
        ∀ p ∈ dilate_row_heads volume_slab 96 3 3 false (tile 96 3 3 0 0 0).xe y z fuel
            (tile 96 3 3 0 0 0).xs { st0 with stale_stencil := 3 },
          p.1 + 1 < 96 →
          ¬ (false = true ∧ volume_slab (idx 96 3 p.1 y z) ≠ 0) →
            ((((sort ((refresh_stencil volume_slab 96 3 3 p.1 y z p.2).left
                    ++ (refresh_stencil volume_slab 96 3 3 p.1 y z p.2).middle
                    ++ (refresh_stencil volume_slab 96 3 3 p.1 y z p.2).right)).length ≥ 19
                  ∧ (sort ((refresh_stencil volume_slab 96 3 3 p.1 y z p.2).left
                    ++ (refresh_stencil volume_slab 96 3 3 p.1 y z p.2).middle
                    ++ (refresh_stencil volume_slab 96 3 3 p.1 y z p.2).right)).getD 0 0
                    = (sort ((refresh_stencil volume_slab 96 3 3 p.1 y z p.2).left
                    ++ (refresh_stencil volume_slab 96 3 3 p.1 y z p.2).middle
                    ++ (refresh_stencil volume_slab 96 3 3 p.1 y z p.2).right)).getD
                        ((sort ((refresh_stencil volume_slab 96 3 3 p.1 y z p.2).left
                    ++ (refresh_stencil volume_slab 96 3 3 p.1 y z p.2).middle
                    ++ (refresh_stencil volume_slab 96 3 3 p.1 y z p.2).right)).length - 1) 0)
                ↔ (19 ≤ (window_labels volume_slab 96 3 3 p.1 y z).length
                    ∧ ∃ L, ∀ v ∈ window_labels volume_slab 96 3 3 p.1 y z, v = L))
              ∧ (∀ L, 19 ≤ (window_labels volume_slab 96 3 3 p.1 y z).length →
                  (∀ v ∈ window_labels volume_slab 96 3 3 p.1 y z, v = L) →
                  (dilate_body volume_slab 96 3 3 false p.1 y z p.2).1 = p.1 + 1
                    ∧ (dilate_body volume_slab 96 3 3 false p.1 y z p.2).2.output
                        (idx 96 3 p.1 y z) = L
                    ∧ (dilate_body volume_slab 96 3 3 false p.1 y z p.2).2.output
                        (idx 96 3 (p.1 + 1) y z) = L
                    ∧ (∀ i, i ≠ idx 96 3 p.1 y z → i ≠ idx 96 3 (p.1 + 1) y z →
                        (dilate_body volume_slab 96 3 3 false p.1 y z p.2).2.output i
                          = p.2.output i)
                    ∧ 10 ≤ (window_labels volume_slab 96 3 3 (p.1 + 1) y z).count L
                    ∧ (∀ M, M ≠ L →
                        (window_labels volume_slab 96 3 3 (p.1 + 1) y z).count M
                          < (window_labels volume_slab 96 3 3 (p.1 + 1) y z).count L)
                    ∧ (volume_slab (idx 96 3 (p.1 + 1) y z) = 0
                        ∨ volume_slab (idx 96 3 (p.1 + 1) y z) = L)
                    ∧ plurality (window_labels volume_slab 96 3 3 p.1 y z) = L
                    ∧ plurality (window_labels volume_slab 96 3 3 (p.1 + 1) y z) = L)
              ∧ (¬ ((sort ((refresh_stencil volume_slab 96 3 3 p.1 y z p.2).left
                    ++ (refresh_stencil volume_slab 96 3 3 p.1 y z p.2).middle
                    ++ (refresh_stencil volume_slab 96 3 3 p.1 y z p.2).right)).length ≥ 19
                  ∧ (sort ((refresh_stencil volume_slab 96 3 3 p.1 y z p.2).left
                    ++ (refresh_stencil volume_slab 96 3 3 p.1 y z p.2).middle
                    ++ (refresh_stencil volume_slab 96 3 3 p.1 y z p.2).right)).getD 0 0
                    = (sort ((refresh_stencil volume_slab 96 3 3 p.1 y z p.2).left
                    ++ (refresh_stencil volume_slab 96 3 3 p.1 y z p.2).middle
                    ++ (refresh_stencil volume_slab 96 3 3 p.1 y z p.2).right)).getD
                        ((sort ((refresh_stencil volume_slab 96 3 3 p.1 y z p.2).left
                    ++ (refresh_stencil volume_slab 96 3 3 p.1 y z p.2).middle
                    ++ (refresh_stencil volume_slab 96 3 3 p.1 y z p.2).right)).length - 1) 0) →
                  (dilate_body volume_slab 96 3 3 false p.1 y z p.2).1 = p.1 + 1 →
                  (vote
                    (sort ((refresh_stencil volume_slab 96 3 3 p.1 y z p.2).left
                      ++ (refresh_stencil volume_slab 96 3 3 p.1 y z p.2).middle
                      ++ (refresh_stencil volume_slab 96 3 3 p.1 y z p.2).right))).2 ≥ 19))) :=
  ⟨⟨by norm_num, by norm_num, by norm_num, by decide, by decide, by decide, by decide⟩,
    first_fast_path_sound volume_slab 96 3 3 false (by norm_num) (by norm_num) (by norm_num)
      (tile 96 3 3 0 0 0) (by decide)⟩

end Fastmorph
